import Mathlib

/-!
# TLE parsing (`pkg/tle`): a shallow embedding and its properties

A Go `string` is a sequence of bytes: `len` counts bytes, `s[i]` is a byte and
`s[a:b]` is a byte range.  It is embedded as `List Nat`, one number per byte.
A Go call either returns or panics; a function that can panic returns an
`Option`, `none` standing for the run-time panic.  A Go `error` result is the
`Except.error` case of the value inside.
-/

set_option maxRecDepth 100000

namespace TLE

/-! ## Go strings -/

/-- A Go string, as the list of its bytes. -/
abbrev GoString := List Nat

/-- The bytes of a string literal written with ASCII characters only. -/
def bytes (s : String) : GoString := s.toList.map Char.toNat

/-- The slice expression `s[lo:hi]`: it panics unless `0 ≤ lo ≤ hi ≤ len(s)`.
The bounds are Go `int`s, hence integers here. -/
def slice (s : GoString) (lo hi : Int) : Option GoString :=
  if 0 ≤ lo ∧ lo ≤ hi ∧ hi ≤ (s.length : Int) then
    some ((s.drop lo.toNat).take (hi.toNat - lo.toNat))
  else none

/-- The index expression `s[i]`: it panics unless `i < len(s)`. -/
def index (s : GoString) (i : Nat) : Option Nat := s[i]?

/-! ## The parts of Go's `unicode/utf8`, `unicode` and `strings` that are called -/

/-- The constant `utf8.RuneSelf`: bytes below it are single-byte runes. -/
def RuneSelf : Nat := 128

/-- The constant `utf8.RuneError`, U+FFFD. -/
def RuneError : Nat := 65533

/-- The table `asciiSpace` of package `strings`. -/
def asciiSpace (c : Nat) : Bool :=
  c = 9 || c = 10 || c = 11 || c = 12 || c = 13 || c = 32

/-- Go's `unicode.IsSpace`: the Latin-1 cases, then the `White_Space` table. -/
def IsSpace (r : Nat) : Bool :=
  if r ≤ 255 then
    r = 9 || r = 10 || r = 11 || r = 12 || r = 13 || r = 32 || r = 133 || r = 160
  else
    r = 5760 || (8192 ≤ r && r ≤ 8202) || r = 8232 || r = 8233 || r = 8239 ||
      r = 8287 || r = 12288

/-- The second-byte range that `utf8.acceptRanges` gives for a lead byte. -/
def acceptRange (s0 : Nat) : Nat × Nat :=
  if s0 = 224 then (160, 191)
  else if s0 = 237 then (128, 159)
  else if s0 = 240 then (144, 191)
  else if s0 = 244 then (128, 143)
  else (128, 191)

/-- Go's `utf8.DecodeRuneInString`: the first rune of `s` and its width in bytes.
An invalid encoding gives `(RuneError, 1)`, the empty string `(RuneError, 0)`. -/
def DecodeRuneInString (s : GoString) : Nat × Nat :=
  match s with
  | [] => (RuneError, 0)
  | s0 :: rest =>
    if s0 < 128 then (s0, 1)
    else if s0 < 194 ∨ 245 ≤ s0 then (RuneError, 1)
    else
      let sz := if s0 < 224 then 2 else if s0 < 240 then 3 else 4
      if s.length < sz then (RuneError, 1)
      else
        match rest with
        | [] => (RuneError, 1)
        | s1 :: rest1 =>
          if s1 < (acceptRange s0).1 ∨ (acceptRange s0).2 < s1 then (RuneError, 1)
          else if sz ≤ 2 then ((s0 % 32) * 64 + s1 % 64, 2)
          else
            match rest1 with
            | [] => (RuneError, 1)
            | s2 :: rest2 =>
              if s2 < 128 ∨ 191 < s2 then (RuneError, 1)
              else if sz ≤ 3 then ((s0 % 16) * 4096 + (s1 % 64) * 64 + s2 % 64, 3)
              else
                match rest2 with
                | [] => (RuneError, 1)
                | s3 :: _ =>
                  if s3 < 128 ∨ 191 < s3 then (RuneError, 1)
                  else ((s0 % 8) * 262144 + (s1 % 64) * 4096 + (s2 % 64) * 64 + s3 % 64, 4)

/-- Go's `utf8.RuneStart`: the byte is not a continuation byte. -/
def RuneStart (b : Nat) : Bool := !(b / 64 % 4 = 2)

/-- The backward scan of `utf8.DecodeLastRuneInString`: from `start - 1` down
to `lim`, stopping at the first byte that can start a rune; the result is the
value of `start` after the loop, which is `lim - 1` when no byte qualifies. -/
def lastRuneStart (s : GoString) (lim : Int) : Nat → Int → Int
  | 0, start => start
  | fuel + 1, start =>
    if start < lim then start
    else if RuneStart (s.getD start.toNat 0) then start
    else lastRuneStart s lim fuel (start - 1)

/-- Go's `utf8.DecodeLastRuneInString`: the last rune of `s` and its width. -/
def DecodeLastRuneInString (s : GoString) : Nat × Nat :=
  let n : Int := s.length
  if n = 0 then (RuneError, 0)
  else
    let r := s.getD (n - 1).toNat 0
    if r < RuneSelf then (r, 1)
    else
      let lim : Int := if n - 4 < 0 then 0 else n - 4
      let start0 := lastRuneStart s lim 4 (n - 2)
      let start : Int := if start0 < 0 then 0 else start0
      let d := DecodeRuneInString (s.drop start.toNat)
      if start + (d.2 : Int) ≠ n then (RuneError, 1) else d

/-- The loop of `strings.indexFunc s unicode.IsSpace false` as used by
`TrimLeftFunc`: the suffix of `s` from its first rune that is not a space
(empty when every rune is one).  The fuel bounds the number of runes. -/
def trimLeftSpaceLoop : Nat → GoString → GoString
  | 0, _ => []
  | fuel + 1, s =>
    match s with
    | [] => []
    | _ :: _ =>
      let d := DecodeRuneInString s
      if IsSpace d.1 then trimLeftSpaceLoop fuel (s.drop d.2) else s

/-- Go's `strings.TrimLeftFunc s unicode.IsSpace`. -/
def TrimLeftSpace (s : GoString) : GoString := trimLeftSpaceLoop s.length s

/-- The loop of `strings.lastIndexFunc s unicode.IsSpace false`: the start
index of the last rune of `s[0:i]` that is not a space, or `-1`. -/
def lastIndexNotSpace (s : GoString) : Nat → Nat → Int
  | 0, _ => -1
  | fuel + 1, i =>
    if i = 0 then -1
    else
      let d := DecodeLastRuneInString (s.take i)
      if IsSpace d.1 then lastIndexNotSpace s fuel (i - d.2) else ((i - d.2 : Nat) : Int)

/-- Go's `strings.TrimRightFunc s unicode.IsSpace`. -/
def TrimRightSpace (s : GoString) : GoString :=
  let i := lastIndexNotSpace s s.length s.length
  if 0 ≤ i ∧ RuneSelf ≤ s.getD i.toNat 0 then
    s.take (i.toNat + (DecodeRuneInString (s.drop i.toNat)).2)
  else s.take (i + 1).toNat

/-- The second loop of `strings.TrimSpace`, over the reversed string: it drops
ASCII spaces from the end and hands over to `TrimRightFunc` at the first
non-ASCII byte. -/
def trimSpaceEnd : GoString → GoString
  | [] => []
  | c :: rev =>
    if RuneSelf ≤ c then TrimRightSpace (c :: rev).reverse
    else if asciiSpace c then trimSpaceEnd rev
    else (c :: rev).reverse

/-- Go's `strings.TrimSpace`: the first loop drops leading ASCII spaces and
hands over to `TrimFunc` at the first non-ASCII byte; then the end is trimmed. -/
def TrimSpace : GoString → GoString
  | [] => []
  | c :: s =>
    if RuneSelf ≤ c then TrimRightSpace (TrimLeftSpace (c :: s))
    else if asciiSpace c then TrimSpace s
    else trimSpaceEnd (c :: s).reverse

/-- Go's `strings.Contains(s, ".")`. -/
def containsDot (s : GoString) : Bool := s.contains 46

/-- Go's `strconv.Atoi(string(b))` for one byte `b`: the conversion
`string(b)` is the UTF-8 text of the code point `b`, and `Atoi` accepts a
one-rune text only when it is a decimal digit. -/
def atoiByte (b : Nat) : Option Nat :=
  if 48 ≤ b ∧ b ≤ 57 then some (b - 48) else none

/-! ## `pkg/tle/utils.go` -/

/-- The `error` values the package returns, one constructor per message. -/
inductive TLEError
  /-- The error "invalid TLE line length". -/
  | invalidLength
  /-- The error "invalid line numbers". -/
  | invalidLineNumbers
  /-- The error "satellite IDs do not match". -/
  | idMismatch
  /-- The error "checksum verification failed". -/
  | checksumFailed
  /-- The error "line 1 too short: %d chars", with the length it reports. -/
  | line1TooShort (n : Nat)
  /-- The error "line 2 too short: %d chars", with the length it reports. -/
  | line2TooShort (n : Nat)
  deriving DecidableEq, Repr

/-- The function `ParseScientificNotation`.  The slice bound `len(value)-2` is
negative for a one-byte value, and `mantissa[:1]` is out of range for an empty
mantissa: both panic. -/
def ParseScientificNotation (value : GoString) : Option GoString :=
  if value.length = 0 then some (bytes "0.0")
  else do
    let mantissa ← slice value 0 ((value.length : Int) - 2)
    let exponent ← slice value ((value.length : Int) - 2) value.length
    let mantissa ←
      if !containsDot mantissa then do
        let head ← slice mantissa 0 1
        let tail ← slice mantissa 1 mantissa.length
        pure (head ++ bytes "." ++ tail)
      else pure mantissa
    pure (mantissa ++ bytes "e" ++ exponent)

/-- The loop of `VerifyChecksum`, `i` running over the `k` columns that are
left: `'-'` counts 1, a digit its value, anything else nothing. -/
def checksumLoop (line : GoString) : Nat → Nat → Nat → Option Nat
  | 0, _, sum => some sum
  | k + 1, i, sum => do
    let c ← index line i
    if c = 45 then checksumLoop line k (i + 1) (sum + 1)
    else if 48 ≤ c ∧ c ≤ 57 then checksumLoop line k (i + 1) (sum + (c - 48))
    else checksumLoop line k (i + 1) sum

/-- The function `VerifyChecksum`. -/
def VerifyChecksum (line : GoString) : Option Bool := do
  let sum ← checksumLoop line 68 0 0
  let last ← index line 68
  match atoiByte last with
  | none => pure false
  | some checksum => pure (decide (checksum = sum % 10))

/-- The function `ValidateTLE`; `Except.ok ()` is the `nil` error.  The
operator `||` evaluates its right operand only when the left one is false. -/
def ValidateTLE (line1 line2 : GoString) : Option (Except TLEError Unit) :=
  if line1.length ≠ 69 ∨ line2.length ≠ 69 then some (.error .invalidLength)
  else do
    let c1 ← index line1 0
    let badNumber ←
      if c1 ≠ 49 then some true
      else do
        let c2 ← index line2 0
        some (decide (c2 ≠ 50))
    if badNumber then some (.error .invalidLineNumbers)
    else do
      let id1 ← slice line1 2 7
      let id2 ← slice line2 2 7
      if id1 ≠ id2 then some (.error .idMismatch)
      else do
        let ok1 ← VerifyChecksum line1
        let badSum ←
          if !ok1 then some true
          else do
            let ok2 ← VerifyChecksum line2
            some (!ok2)
        if badSum then some (.error .checksumFailed)
        else some (.ok ())

/-! ## `pkg/tle/tle.go` -/

/-- The struct `TLELine1`. -/
structure TLELine1 where
  LineNumber : GoString
  SataliteID : GoString
  Classification : GoString
  LaunchYear : GoString
  LaunchNumber : GoString
  LaunchPiece : GoString
  EpochYear : GoString
  EpochDay : GoString
  FirstDerivative : GoString
  SecondDerivative : GoString
  Bstar : GoString
  EphemerisType : GoString
  ElementSetNumber : GoString
  Checksum : GoString
  LineString : GoString
  deriving DecidableEq, Repr

/-- The struct `TLELine2`. -/
structure TLELine2 where
  LineNumber : GoString
  SataliteID : GoString
  Inclination : GoString
  RightAscension : GoString
  Eccentricity : GoString
  ArgumentOfPerigee : GoString
  MeanAnomaly : GoString
  MeanMotion : GoString
  RevolutionNumber : GoString
  Checksum : GoString
  LineString : GoString
  deriving DecidableEq, Repr

/-- The loop body's first statement, `strings.TrimSpace(line[lo:hi])`. -/
def field (line : GoString) (lo hi : Int) : Option GoString :=
  (slice line lo hi).map TrimSpace

/-- The map literal `fields` of `ReadTLELine1`. -/
def line1Fields : List (String × Int × Int) :=
  [("LineNumber", 0, 1),
   ("SatelliteID", 2, 7),
   ("Classification", 7, 8),
   ("LaunchYear", 9, 11),
   ("LaunchNumber", 11, 14),
   ("LaunchPiece", 14, 17),
   ("EpochYear", 18, 20),
   ("EpochDay", 20, 32),
   ("FirstDerivative", 33, 43),
   ("SecondDerivative", 44, 52),
   ("Bstar", 53, 61),
   ("EphemerisType", 62, 63),
   ("ElementSetNumber", 64, 68),
   ("Checksum", 68, 69)]

/-- The `switch field` of `ReadTLELine1`.  It has no case "LineNumber": that
key falls through and the record is left as it is. -/
def line1Switch (t : TLELine1) (key : String) (value : GoString) : Option TLELine1 :=
  if key = "SatelliteID" then some { t with SataliteID := value }
  else if key = "Classification" then some { t with Classification := value }
  else if key = "LaunchYear" then some { t with LaunchYear := value }
  else if key = "LaunchNumber" then some { t with LaunchNumber := value }
  else if key = "LaunchPiece" then some { t with LaunchPiece := value }
  else if key = "EpochYear" then some { t with EpochYear := value }
  else if key = "EpochDay" then some { t with EpochDay := value }
  else if key = "FirstDerivative" then
    (ParseScientificNotation value).map fun v => { t with FirstDerivative := v }
  else if key = "SecondDerivative" then
    (ParseScientificNotation value).map fun v => { t with SecondDerivative := v }
  else if key = "Bstar" then
    (ParseScientificNotation value).map fun v => { t with Bstar := v }
  else if key = "EphemerisType" then some { t with EphemerisType := value }
  else if key = "ElementSetNumber" then some { t with ElementSetNumber := value }
  else if key = "Checksum" then some { t with Checksum := value }
  else some t

/-- One iteration of the loop of `ReadTLELine1`. -/
def line1Step (line : GoString) (t : TLELine1) (entry : String × Int × Int) :
    Option TLELine1 :=
  (field line entry.2.1 entry.2.2).bind (line1Switch t entry.1)

/-- The function `ReadTLELine1`.  The loop ranges over a map, in an order Go
does not fix; the iterations write different fields and read only `line`, so
they are taken in the order of the map literal. -/
def ReadTLELine1 (line : GoString) : Option (Except TLEError TLELine1) :=
  if line.length < 69 then some (.error (.line1TooShort line.length))
  else
    (line1Fields.foldlM (line1Step line)
      { LineNumber := [], SataliteID := [], Classification := [], LaunchYear := [],
        LaunchNumber := [], LaunchPiece := [], EpochYear := [], EpochDay := [],
        FirstDerivative := [], SecondDerivative := [], Bstar := [],
        EphemerisType := [], ElementSetNumber := [], Checksum := [],
        LineString := line }).map Except.ok

/-- The map literal `fields` of `ReadTLELine2`. -/
def line2Fields : List (String × Int × Int) :=
  [("LineNumber", 0, 1),
   ("SatelliteID", 2, 7),
   ("Inclination", 8, 16),
   ("RightAscension", 17, 25),
   ("Eccentricity", 26, 33),
   ("ArgumentOfPerigee", 34, 42),
   ("MeanAnomaly", 43, 51),
   ("MeanMotion", 52, 63),
   ("RevolutionNumber", 63, 68),
   ("Checksum", 68, 69)]

/-- The `switch field` of `ReadTLELine2`; it has no case "LineNumber" either. -/
def line2Switch (t : TLELine2) (key : String) (value : GoString) : TLELine2 :=
  if key = "SatelliteID" then { t with SataliteID := value }
  else if key = "Inclination" then { t with Inclination := value }
  else if key = "RightAscension" then { t with RightAscension := value }
  else if key = "Eccentricity" then { t with Eccentricity := bytes "0." ++ value }
  else if key = "ArgumentOfPerigee" then { t with ArgumentOfPerigee := value }
  else if key = "MeanAnomaly" then { t with MeanAnomaly := value }
  else if key = "MeanMotion" then { t with MeanMotion := value }
  else if key = "RevolutionNumber" then { t with RevolutionNumber := value }
  else if key = "Checksum" then { t with Checksum := value }
  else t

/-- One iteration of the loop of `ReadTLELine2`. -/
def line2Step (line : GoString) (t : TLELine2) (entry : String × Int × Int) :
    Option TLELine2 :=
  (field line entry.2.1 entry.2.2).map (line2Switch t entry.1)

/-- The function `ReadTLELine2`, its map loop taken in the order of the
literal as in `ReadTLELine1`. -/
def ReadTLELine2 (line : GoString) : Option (Except TLEError TLELine2) :=
  if line.length < 69 then some (.error (.line2TooShort line.length))
  else
    (line2Fields.foldlM (line2Step line)
      { LineNumber := [], SataliteID := [], Inclination := [], RightAscension := [],
        Eccentricity := [], ArgumentOfPerigee := [], MeanAnomaly := [],
        MeanMotion := [], RevolutionNumber := [], Checksum := [],
        LineString := line }).map Except.ok

/-- Line 1 of the ISS (ZARYA) example in the comment above `type TLE`. -/
def issLine1 : GoString :=
  bytes "1 25544U 98067A   08264.51782528 -.00002182  00000-0 -11606-4 0  2927"

/-- Line 2 of the ISS (ZARYA) example in the comment above `type TLE`. -/
def issLine2 : GoString :=
  bytes "2 25544  51.6416 247.4627 0006703 130.5360 325.0288 15.72125391563537"

/-! ## Vocabulary of the properties -/

deriving instance DecidableEq for Except

/-- The weight of one byte in the checksum, in the words of the format: 1 for
`'-'`, the face value for a digit, 0 for anything else. -/
def checksumWeight (c : Nat) : Nat :=
  if c = 45 then 1 else if 48 ≤ c ∧ c ≤ 57 then c - 48 else 0

/-- The checksum sum of a line: the weights of columns 0 to 67 added up. -/
def checksumSum (line : GoString) : Nat := ((line.take 68).map checksumWeight).sum

/-- The whitespace-trimmed text of columns `lo` to `hi - 1` of a line. -/
def column (line : GoString) (lo hi : Nat) : GoString :=
  TrimSpace ((line.drop lo).take (hi - lo))

/-- A byte is an ASCII decimal digit. -/
def isDigit (c : Nat) : Prop := 48 ≤ c ∧ c ≤ 57

instance (c : Nat) : Decidable (isDigit c) := by unfold isDigit; infer_instance

/-- The value of a string of decimal digits read in base ten; the empty
string reads as 0, a string with another byte does not read. -/
def readDigits : GoString → Option Nat
  | [] => some 0
  | c :: s =>
    if 48 ≤ c ∧ c ≤ 57 then (readDigits s).map fun v => (c - 48) * 10 ^ s.length + v
    else none

/-- A leading sign, if any, split from the rest: `-1` for `'-'`, else `1`. -/
def splitSign : GoString → Int × GoString
  | 45 :: s => (-1, s)
  | 43 :: s => (1, s)
  | s => (1, s)

/-- The text before the first byte `sep` and the text after it (both from
the whole text when `sep` does not occur, the second then being empty). -/
def cutAt (sep : Nat) : GoString → GoString × GoString
  | [] => ([], [])
  | c :: s => if c = sep then ([], s) else (c :: (cutAt sep s).1, (cutAt sep s).2)

/-- The rational number a text denotes when it is read as a decimal number
with exponent, `[sign] digits [. digits] e [sign] digits`, with at least one
mantissa digit and at least one exponent digit. -/
def decimalValue (s : GoString) : Option ℚ :=
  let body := (splitSign s).2
  let mant := (cutAt 101 body).1
  let expo := splitSign (cutAt 101 body).2
  let whole := (cutAt 46 mant).1
  let frac := (cutAt 46 mant).2
  if 101 ∉ body ∨ whole ++ frac = [] ∨ expo.2 = [] then none
  else do
    let w ← readDigits whole
    let f ← readDigits frac
    let e ← readDigits expo.2
    some ((splitSign s).1 * ((w : ℚ) + (f : ℚ) / 10 ^ frac.length) * 10 ^ (expo.1 * (e : Int)))

/-- The rational number an implicit-decimal token means: an optional sign,
five mantissa digits `ddddd` and a signed one-digit exponent `se` stand for
`(sign) 0.ddddd × 10^se`. -/
def tokenValue (t : GoString) : Option ℚ :=
  match (splitSign t).2 with
  | [d1, d2, d3, d4, d5, es, e] =>
    if es = 43 ∨ es = 45 then do
      let m ← readDigits [d1, d2, d3, d4, d5]
      let x ← readDigits [e]
      some ((splitSign t).1 * ((m : ℚ) / 10 ^ 5) * 10 ^ ((splitSign [es]).1 * (x : Int)))
    else none
  | _ => none

/-- A 69-byte line 1 whose Bstar column, 53 to 60, holds a lone `0`: the ISS
line with that column rewritten (the checksum digit still fits). -/
def loneZeroBstarLine1 : GoString :=
  bytes "1 25544U 98067A   08264.51782528 -.00002182  00000-0        0 0  2927"

/-- The array `daysInMonth` of `DayOfYearToMonthDay`, after the leap-year
assignment to its entry for February. -/
def daysInMonth (isLeap : Bool) : List Int :=
  [31, if isLeap then 29 else 28, 31, 30, 31, 30, 31, 31, 30, 31, 30, 31]

/-- The loop of `DayOfYearToMonthDay` over the entries that are left, `i`
being the index of the first of them.  When no entry fits, the loop ends
without a `break` and the results keep the values they had before it, month 1
and day 0. -/
def monthDayLoop : List Int → Int → Int → Int × Int
  | [], _, _ => (1, 0)
  | days :: rest, i, dayCount =>
    if dayCount ≤ days then (i + 1, dayCount)
    else monthDayLoop rest (i + 1) (dayCount - days)

/-- The function `DayOfYearToMonthDay`.  Its `int`s are integers here: the only
arithmetic is `dayCount -= days` with `dayCount > days > 0`, which cannot
overflow. -/
def DayOfYearToMonthDay (dayOfYear : Int) (isLeap : Bool) : Int × Int :=
  monthDayLoop (daysInMonth isLeap) 0 dayOfYear

/-- The length of a month in the Gregorian calendar, February having 29 days
under the leap flag and 28 otherwise. -/
def monthLength (isLeap : Bool) (month : Int) : Int :=
  if month = 2 then (if isLeap then 29 else 28)
  else if month = 4 ∨ month = 6 ∨ month = 9 ∨ month = 11 then 30
  else 31

/-- The number of days in the months before a month of the year. -/
def daysBeforeMonth (isLeap : Bool) (month : Int) : Int :=
  ((List.range (month.toNat - 1)).map fun k => monthLength isLeap (k + 1)).sum

/-- The value a signed decimal fraction with an explicit point and eight
digits denotes: `s.dddddddd` stands for `(sign) 0.dddddddd`. -/
def fractionValue (t : GoString) : Option ℚ :=
  match t with
  | [sg, 46, d1, d2, d3, d4, d5, d6, d7, d8] =>
    if sg = 43 ∨ sg = 45 then do
      let m ← readDigits [d1, d2, d3, d4, d5, d6, d7, d8]
      some ((splitSign [sg]).1 * ((m : ℚ) / 10 ^ 8))
    else none
  | _ => none

/-- Go's `strings.HasPrefix`. -/
def HasPrefix (s pre : GoString) : Bool := pre.isPrefixOf s

/-- The loop of the ASCII path of `strings.Fields`: `cur` holds the bytes of
the field being read, empty between fields; a field ends at an ASCII space or
at the end of the text. -/
def fieldsLoop : GoString → GoString → List GoString
  | [], cur => if cur = [] then [] else [cur]
  | c :: s, cur =>
    if asciiSpace c then (if cur = [] then fieldsLoop s [] else cur :: fieldsLoop s [])
    else fieldsLoop s (cur ++ [c])

/-- The loop of `strings.FieldsFunc s unicode.IsSpace`, rune by rune; the fuel
bounds the number of runes. -/
def fieldsFuncLoop : Nat → GoString → GoString → List GoString
  | 0, _, cur => if cur = [] then [] else [cur]
  | fuel + 1, s, cur =>
    match s with
    | [] => if cur = [] then [] else [cur]
    | _ :: _ =>
      let d := DecodeRuneInString s
      if IsSpace d.1 then
        (if cur = [] then fieldsFuncLoop fuel (s.drop d.2) []
         else cur :: fieldsFuncLoop fuel (s.drop d.2) [])
      else fieldsFuncLoop fuel (s.drop d.2) (cur ++ s.take d.2)

/-- Go's `strings.Fields`: the ASCII path when no byte has its high bit set,
`FieldsFunc` with `unicode.IsSpace` otherwise. -/
def Fields (s : GoString) : List GoString :=
  if s.any (fun c => decide (RuneSelf ≤ c)) then fieldsFuncLoop s.length s []
  else fieldsLoop s []

/-- The struct `TLE`. -/
structure TLE where
  Name : GoString
  NoradID : GoString
  Line1 : TLELine1
  Line2 : TLELine2
  deriving DecidableEq, Repr

/-- The zero value `TLELine1{}`. -/
def zeroLine1 : TLELine1 :=
  { LineNumber := [], SataliteID := [], Classification := [], LaunchYear := [],
    LaunchNumber := [], LaunchPiece := [], EpochYear := [], EpochDay := [],
    FirstDerivative := [], SecondDerivative := [], Bstar := [],
    EphemerisType := [], ElementSetNumber := [], Checksum := [], LineString := [] }

/-- The zero value `TLELine2{}`. -/
def zeroLine2 : TLELine2 :=
  { LineNumber := [], SataliteID := [], Inclination := [], RightAscension := [],
    Eccentricity := [], ArgumentOfPerigee := [], MeanAnomaly := [],
    MeanMotion := [], RevolutionNumber := [], Checksum := [], LineString := [] }

/-- The zero value `TLE{}`. -/
def zeroTLE : TLE := { Name := [], NoradID := [], Line1 := zeroLine1, Line2 := zeroLine2 }

/-- The method `TLE.String`: the name and the two raw lines, joined by
newlines. -/
def TLE.String (t : TLE) : GoString :=
  t.Name ++ bytes "\n" ++ t.Line1.LineString ++ bytes "\n" ++ t.Line2.LineString

/-- The body of the loop of `ReadTLEFile` for one line, on the pair of `tles`
and `currentTLE`.  The index `components[1]` panics when the line has fewer
than two fields. -/
def readStep (acc : List TLE × TLE) (line : GoString) :
    Option (Except TLEError (List TLE × TLE)) :=
  if HasPrefix line (bytes "1 ") then
    match ReadTLELine1 line with
    | none => none
    | some (.error e) => some (.error e)
    | some (.ok l1) => some (.ok (acc.1, { acc.2 with Line1 := l1 }))
  else if HasPrefix line (bytes "2 ") then
    match (Fields line)[1]? with
    | none => none
    | some id =>
      match ReadTLELine2 line with
      | none => none
      | some (.error e) => some (.error e)
      | some (.ok l2) =>
        some (.ok (acc.1 ++ [{ acc.2 with NoradID := id, Line2 := l2 }], zeroTLE))
  else some (.ok (acc.1, { acc.2 with Name := TrimSpace line }))

/-- The loop of `ReadTLEFile` over the lines that are left. -/
def readLoop : List GoString → List TLE × TLE → Option (Except TLEError (List TLE))
  | [], acc => some (.ok acc.1)
  | line :: rest, acc =>
    match readStep acc line with
    | none => none
    | some (.error e) => some (.error e)
    | some (.ok acc2) => readLoop rest acc2

/-- The function `ReadTLEFile`, from the lines the scanner yields on: opening
the file and the scanner's own errors belong to the I/O layer. -/
def ReadTLEFile (lines : List GoString) : Option (Except TLEError (List TLE)) :=
  readLoop lines ([], zeroTLE)

/-- The function `dropCR` of package `bufio`. -/
def dropCR (data : GoString) : GoString :=
  if data.getLast? = some 13 then data.dropLast else data

/-- The tokens a `bufio.Scanner` with the split function `ScanLines` yields
for a text: `cur` holds the bytes of the line being read.  A line ends at a
newline or at the end of the text, one trailing carriage return is dropped,
and an empty rest at the end of the text is no line. -/
def scanLinesLoop : GoString → GoString → List GoString
  | [], cur => if cur = [] then [] else [dropCR cur]
  | c :: s, cur => if c = 10 then dropCR cur :: scanLinesLoop s [] else scanLinesLoop s (cur ++ [c])

/-- The lines of a text, as the scanner of `ReadTLEFile` yields them. -/
def scanLines (text : GoString) : List GoString := scanLinesLoop text []

/-- The name line of the ISS (ZARYA) example. -/
def issName : GoString := bytes "ISS (ZARYA)"

/-- The input lines cut into blocks, one block for each line that starts with
"2 ": the lines since the previous such line (or since the start), and the
line itself.  Lines after the last "2 " line are in no block. -/
def blocksLoop : List GoString → List GoString → List (List GoString × GoString)
  | [], _ => []
  | l :: rest, seg =>
    if HasPrefix l (bytes "2 ") then (seg, l) :: blocksLoop rest []
    else blocksLoop rest (seg ++ [l])

/-- The blocks of an input, see `blocksLoop`. -/
def blocks (lines : List GoString) : List (List GoString × GoString) := blocksLoop lines []

/-- The last line of a block that starts with "1 ", if there is one. -/
def lastLine1 (seg : List GoString) : Option GoString :=
  (seg.filter fun l => HasPrefix l (bytes "1 ")).getLast?

/-- The last line of a block that starts neither with "1 " nor with "2 ", if
there is one. -/
def lastName (seg : List GoString) : Option GoString :=
  (seg.filter fun l => !HasPrefix l (bytes "1 ") && !HasPrefix l (bytes "2 ")).getLast?

/-- The record that belongs to a block: its `Line2` is the parse of the block's
"2 " line and its `NoradID` the second field of that line; its `Line1` is the
parse of the last "1 " line of the block, or the zero value when there is none;
its `Name` is the trimmed last other line of the block, or empty. -/
def assembledFrom (seg : List GoString) (l2 : GoString) (r : TLE) : Prop :=
  ReadTLELine2 l2 = some (.ok r.Line2) ∧
  (Fields l2)[1]? = some r.NoradID ∧
  (match lastLine1 seg with
    | some l1 => ReadTLELine1 l1 = some (.ok r.Line1)
    | none => r.Line1 = zeroLine1) ∧
  r.Name = (match lastName seg with
    | some n => TrimSpace n
    | none => [])

/-- The state of `currentTLE` after the lines of a block read so far: no
`NoradID` and no `Line2` yet, the `Line1` and `Name` of the lines read. -/
def pendingFrom (seg : List GoString) (cur : TLE) : Prop :=
  cur.NoradID = [] ∧ cur.Line2 = zeroLine2 ∧
  (match lastLine1 seg with
    | some l1 => ReadTLELine1 l1 = some (.ok cur.Line1)
    | none => cur.Line1 = zeroLine1) ∧
  cur.Name = (match lastName seg with
    | some n => TrimSpace n
    | none => [])

/-! ## The parts of Go's `strconv`, `math` and `time` that `Time` calls -/

/-- Go's `strconv.Atoi`: an optional sign and at least one decimal digit,
nothing else; `none` is its error, which it also returns for a value outside
the 64-bit `int`. -/
def Atoi (s : GoString) : Option Int :=
  match s with
  | [] => none
  | c :: t =>
    let digits := if c = 45 ∨ c = 43 then t else s
    if digits = [] then none
    else
      match readDigits digits with
      | none => none
      | some n =>
        let v : Int := if c = 45 then -(n : Int) else n
        if -(2 : Int) ^ 63 ≤ v ∧ v < (2 : Int) ^ 63 then some v else none

/-- A nonnegative `float64` value, as mantissa and binary exponent: the pair
`(m, e)` stands for `m × 2^e`. -/
abbrev Float64 := Nat × Int

/-- The rational number a `float64` pair stands for. -/
def Float64.toRat (x : Float64) : ℚ := (x.1 : ℚ) * 2 ^ x.2

/-- The integer nearest to `a / b`, the even one of the two when `a / b` lies
half way between them. -/
def roundHalfEven (a b : Nat) : Nat :=
  if 2 * (a % b) < b then a / b
  else if b < 2 * (a % b) then a / b + 1
  else if (a / b) % 2 = 0 then a / b else a / b + 1

/-- The loop of `ilog2`: halve until the number is below 2. -/
def ilog2Loop : Nat → Nat → Nat
  | 0, _ => 0
  | fuel + 1, n => if n < 2 then 0 else ilog2Loop fuel (n / 2) + 1

/-- The integer part of the binary logarithm of a positive number: one less
than its length in bits. -/
def ilog2 (n : Nat) : Nat := ilog2Loop n n

/-- The integer part of the binary logarithm of `n / d`, for positive `n`
and `d`. -/
def floorLog2 (n d : Nat) : Int :=
  let l : Int := (ilog2 n : Int) - (ilog2 d : Int)
  if (if 0 ≤ l then d * 2 ^ l.toNat ≤ n else d ≤ n * 2 ^ (-l).toNat) then l else l - 1

/-- IEEE 754 rounding of the nonnegative rational `n / d` to binary64, to
nearest and to even on a tie: 53 bits of mantissa, the exponent of the last
mantissa bit no smaller than -1074.  A result of `2^1024` or more is an
overflow, which the callers test. -/
def roundFloat64 (n d : Nat) : Float64 :=
  if n = 0 then (0, 0)
  else
    let e : Int := max (floorLog2 n d - 52) (-1074)
    if 0 ≤ e then (roundHalfEven n (d * 2 ^ e.toNat), e)
    else (roundHalfEven (n * 2 ^ (-e).toNat) d, e)

/-- The comparison `x < 1.0` of a `float64` pair. -/
def Float64.ltOne (x : Float64) : Bool :=
  if 0 ≤ x.2 then decide (x.1 * 2 ^ x.2.toNat < 1) else decide (x.1 < 2 ^ (-x.2).toNat)

/-- The `float64` product `x * c` of a pair and a natural number that is itself
a `float64`: the exact product, rounded. -/
def Float64.mulNat (x : Float64) (c : Nat) : Float64 :=
  if 0 ≤ x.2 then roundFloat64 (x.1 * c * 2 ^ x.2.toNat) 1
  else roundFloat64 (x.1 * c) (2 ^ (-x.2).toNat)

/-- Go's `math.Round` of a nonnegative `float64`, as the integer it gives:
the nearest integer, the larger one on a tie. -/
def Float64.round (x : Float64) : Nat :=
  if 0 ≤ x.2 then x.1 * 2 ^ x.2.toNat
  else (2 * x.1 + 2 ^ (-x.2).toNat) / (2 * 2 ^ (-x.2).toNat)

/-- The function `underscoreOK` of `strconv` on a text without sign and
without base prefix, `saw` being the kind of the byte before: 48 for a digit,
95 for an underscore, 33 for anything else.  An underscore is allowed only
between two digits. -/
def underscoreOK : GoString → Nat → Bool
  | [], saw => saw != 95
  | c :: s, saw =>
    if 48 ≤ c ∧ c ≤ 57 then underscoreOK s 48
    else if c = 95 then (if saw != 48 then false else underscoreOK s 95)
    else if saw = 95 then false
    else underscoreOK s 33

/-- The exponent loop of `strconv`'s `readFloat`: digits and underscores, the
value no longer growing once it has reached 10000. -/
def exponentLoop : GoString → Nat → Option Nat
  | [], e => some e
  | c :: s, e =>
    if c = 95 then exponentLoop s e
    else if 48 ≤ c ∧ c ≤ 57 then exponentLoop s (if e < 10000 then e * 10 + (c - 48) else e)
    else none

/-- The exponent part of a decimal floating-point text, if the text after the
mantissa is one: nothing, or `e` or `E`, an optional sign and digits that start
with a digit.  The result is the sign and the value. -/
def readExponent (s : GoString) : Option (Bool × Nat) :=
  match s with
  | [] => some (false, 0)
  | c :: t =>
    if c = 101 ∨ c = 69 then
      let neg := t.head? = some 45
      let digits := if t.head? = some 43 ∨ t.head? = some 45 then t.tail else t
      match digits with
      | [] => none
      | d :: _ =>
        if 48 ≤ d ∧ d ≤ 57 then (exponentLoop digits 0).map fun e => (neg, e) else none
    else none

/-- Go's `strconv.ParseFloat("0." + part, 64)`, `none` being its error.  After
the "0." come mantissa digits, with underscores between digits, and an
optional exponent; the value `0.digits × 10^exponent` is rounded to the
nearest `float64`, and a value too large for a `float64` is an error. -/
def parseFloatFraction (part : GoString) : Option Float64 :=
  let mant := part.takeWhile fun c => (48 ≤ c && c ≤ 57) || c = 95
  let rest := part.dropWhile fun c => (48 ≤ c && c ≤ 57) || c = 95
  let digits := mant.filter fun c => c != 95
  match readExponent rest, readDigits digits with
  | some (neg, e), some n =>
    if underscoreOK (bytes "0." ++ part) 33 then
      let x := if neg then roundFloat64 n (10 ^ digits.length * 10 ^ e)
        else roundFloat64 (n * 10 ^ e) (10 ^ digits.length)
      if 0 ≤ x.2 ∧ 2 ^ 1024 ≤ x.1 * 2 ^ x.2.toNat then none else some x
    else none
  | _, _ => none

/-- The number of days from 1 January of year 1 to 1 January of a year, in the
proleptic Gregorian calendar of Go's `time`. -/
def daysBeforeYear (year : Int) : Int :=
  365 * (year - 1) + (year - 1) / 4 - (year - 1) / 100 + (year - 1) / 400

/-- The nanoseconds of a day, the constant `nanosInDay` of `Time`. -/
def nanosInDay : Nat := 86400000000000

/-- The instant `time.Date(year, time.January, 1, 0, 0, 0, 0, time.UTC)`, in
nanoseconds since 1 January 1970 UTC. -/
def startOfYear (year : Int) : Int := (daysBeforeYear year - 719162) * nanosInDay

/-- Go's leap year rule. -/
def isLeapYear (year : Int) : Bool :=
  year % 4 = 0 && (year % 100 != 0 || year % 400 == 0)

/-- The year of an instant and the day within that year, counted from 0, as
Go's `time` computes them from the days since 1 January of year 1: by cycles
of 400, 100, 4 and 1 years. -/
def yearAndDay (t : Int) : Int × Int :=
  let d0 := t / nanosInDay + 719162
  let n400 := d0 / 146097
  let d1 := d0 - 146097 * n400
  let n100 := d1 / 36524 - d1 / 36524 / 4
  let d2 := d1 - 36524 * n100
  let n4 := d2 / 1461
  let d3 := d2 - 1461 * n4
  let n1 := d3 / 365 - d3 / 365 / 4
  (400 * n400 + 100 * n100 + 4 * n4 + n1 + 1, d3 - 365 * n1)

/-- The calendar date of an instant in UTC: the year of `yearAndDay`, with
the month and the day on which the day of the year falls. -/
def dateOf (t : Int) : Int × Int × Int :=
  let yd := yearAndDay t
  let md := DayOfYearToMonthDay (yd.2 + 1) (isLeapYear yd.1)
  (yd.1, md.1, md.2)

/-- The clock of an instant in UTC: hour, minute, second and nanosecond. -/
def clockOf (t : Int) : Int × Int × Int × Int :=
  let ns := t % nanosInDay
  (ns / 3600000000000, ns / 60000000000 % 60, ns / 1000000000 % 60, ns % 1000000000)

/-! ## `TLE.Time` -/

/-- The errors of `Time`, one constructor per message. -/
inductive EpochError
  /-- The error "invalid TLE epoch format: ... Expected format YYDDD.FFFFFFFF". -/
  | invalidFormat
  /-- The error "... year/day part ... must be 5 digits (YYDDD)". -/
  | yearDayLength
  /-- The error "invalid TLE epoch: cannot parse year ...". -/
  | yearSyntax
  /-- The error "invalid TLE epoch: cannot parse day of year ...". -/
  | daySyntax
  /-- The error "invalid TLE epoch: day of year %d out of range (1-366)". -/
  | dayOutOfRange (dayOfYear : Int)
  /-- The error "invalid TLE epoch: cannot parse fractional day ...". -/
  | fractionSyntax
  /-- The error "invalid TLE epoch: fractional day %f out of range [0.0, 1.0)". -/
  | fractionOutOfRange
  deriving DecidableEq, Repr

/-- The method `TLE.Time`; the instant it returns is given in nanoseconds
since 1 January 1970 UTC.  `strings.SplitN(tleEpoch, ".", 2)` has two parts
exactly when the text has a `'.'`, the text before the first one and the text
after it.  `AddDate(0, 0, dayOfYear-1)` moves an instant in UTC by whole days. -/
def TLE.Time (t : TLE) : Except EpochError Int :=
  let tleEpoch := t.Line1.EpochYear ++ t.Line1.EpochDay
  if 46 ∉ tleEpoch then .error .invalidFormat
  else
    let yearDayPart := (cutAt 46 tleEpoch).1
    if yearDayPart.length ≠ 5 then .error .yearDayLength
    else
      match Atoi (yearDayPart.take 2) with
      | none => .error .yearSyntax
      | some yearYY =>
        let fullYear : Int := if yearYY ≥ 57 then 1900 + yearYY else 2000 + yearYY
        match Atoi (yearDayPart.drop 2) with
        | none => .error .daySyntax
        | some dayOfYear =>
          if dayOfYear < 1 ∨ dayOfYear > 366 then .error (.dayOutOfRange dayOfYear)
          else
            match parseFloatFraction (cutAt 46 tleEpoch).2 with
            | none => .error .fractionSyntax
            | some fractionalDay =>
              if !fractionalDay.ltOne then .error .fractionOutOfRange
              else
                let targetDayStart := startOfYear fullYear + (dayOfYear - 1) * nanosInDay
                let durationNanos := (fractionalDay.mulNat nanosInDay).round
                .ok (targetDayStart + durationNanos)

/-- A record with the given epoch fields and nothing else. -/
def epochRecord (year day : GoString) : TLE :=
  { zeroTLE with Line1 := { zeroLine1 with EpochYear := year, EpochDay := day } }

/-! ## Slices and indices -/

theorem index_eq_some (s : GoString) (i : Nat) (h : i < s.length) :
    index s i = some (s.get ⟨i, h⟩) := by
  simp [index, h]

theorem index_isSome (s : GoString) (i : Nat) (h : i < s.length) :
    ∃ c, index s i = some c := ⟨_, index_eq_some s i h⟩

theorem index_lt (s : GoString) (i c : Nat) (h : index s i = some c) : i < s.length := by
  unfold index at h
  by_contra hn
  rw [List.getElem?_eq_none (by omega)] at h
  cases h

theorem index_set (s : GoString) (i j d : Nat) :
    index (s.set i d) j = if i = j then (if i < s.length then some d else none) else index s j := by
  unfold index
  exact List.getElem?_set

theorem slice_eq (s : GoString) (lo hi : Nat) (h1 : lo ≤ hi) (h2 : hi ≤ s.length) :
    slice s lo hi = some ((s.drop lo).take (hi - lo)) := by
  unfold slice
  rw [if_pos ⟨by omega, by omega, by omega⟩]
  simp

theorem set_ne_self (l : List Nat) (i c d : Nat) (h : l[i]? = some c) (hne : d ≠ c) :
    l.set i d ≠ l := by
  intro he
  have hl : i < l.length := by
    by_contra hn
    rw [List.getElem?_eq_none (by omega)] at h
    cases h
  have h2 : (l.set i d)[i]? = some d := by
    rw [List.getElem?_set, if_pos rfl, if_pos hl]
  rw [he, h] at h2
  exact hne (Option.some.inj h2).symm

theorem sum_map_set (w : Nat → Nat) (l : List Nat) (i c d : Nat) (h : l[i]? = some c) :
    ((l.set i d).map w).sum + w c = (l.map w).sum + w d := by
  induction l generalizing i with
  | nil => simp at h
  | cons a l ih =>
    cases i with
    | zero =>
      simp only [List.getElem?_cons_zero, Option.some.injEq] at h
      subst h
      simp only [List.set_cons_zero, List.map_cons, List.sum_cons]
      omega
    | succ i =>
      simp only [List.getElem?_cons_succ] at h
      have := ih i h
      simp only [List.set_cons_succ, List.map_cons, List.sum_cons]
      omega

/-! ## The checksum -/

theorem checksumLoop_eq (s : GoString) (k i sum : Nat) (h : i + k ≤ s.length) :
    checksumLoop s k i sum
      = some (sum + (((s.drop i).take k).map checksumWeight).sum) := by
  induction k generalizing i sum with
  | zero => simp [checksumLoop]
  | succ k ih =>
    have hi : i < s.length := by omega
    have hd : s.drop i = s.get ⟨i, hi⟩ :: s.drop (i + 1) := List.drop_eq_getElem_cons hi
    rw [checksumLoop, index_eq_some s i hi, hd]
    simp only [Option.bind_eq_bind, Option.some_bind, List.take_succ_cons, List.map_cons,
      List.sum_cons]
    rw [ih (i + 1) _ (by omega), ih (i + 1) _ (by omega), ih (i + 1) _ (by omega)]
    unfold checksumWeight
    split_ifs <;> simp <;> omega

theorem VerifyChecksum_eq (s : GoString) (c : Nat) (hc : index s 68 = some c) :
    VerifyChecksum s
      = some (decide (48 ≤ c ∧ c ≤ 57 ∧ c - 48 = checksumSum s % 10)) := by
  have h := index_lt s 68 c hc
  unfold VerifyChecksum
  rw [checksumLoop_eq s 68 0 0 (by omega), hc]
  simp only [Option.bind_eq_bind, Option.some_bind, List.drop_zero, Nat.zero_add, atoiByte,
    checksumSum]
  by_cases hd : 48 ≤ c ∧ c ≤ 57
  · simp [hd]
  · simp only [hd, if_false]
    have : ¬ (48 ≤ c ∧ c ≤ 57 ∧ c - 48 = ((s.take 68).map checksumWeight).sum % 10) := by
      tauto
    simp only [this, decide_False]
    rfl

theorem VerifyChecksum_isSome (s : GoString) (h : 69 ≤ s.length) :
    ∃ b, VerifyChecksum s = some b := by
  obtain ⟨x, hx⟩ := index_isSome s 68 (by omega)
  exact ⟨_, VerifyChecksum_eq s x hx⟩

theorem checksumSum_set (s : GoString) (i c d : Nat) (hi : i < 68)
    (h : index s i = some c) :
    checksumSum (s.set i d) + checksumWeight c = checksumSum s + checksumWeight d := by
  unfold checksumSum
  rw [List.set_take]
  apply sum_map_set
  rw [List.getElem?_take_of_lt hi]
  exact h

theorem VerifyChecksum_set (s : GoString) (i c d : Nat) (hv : VerifyChecksum s = some true)
    (hi : i < 68) (h : index s i = some c) (hc : 48 ≤ c ∧ c ≤ 57) (hd : 48 ≤ d ∧ d ≤ 57)
    (hne : d ≠ c) : VerifyChecksum (s.set i d) = some false := by
  have hlen : 69 ≤ s.length := by
    by_contra hn
    have : checksumLoop s 68 0 0 = none ∨ index s 68 = none := by
      right
      unfold index
      exact List.getElem?_eq_none (by omega)
    rcases this with h0 | h0
    · simp [VerifyChecksum, h0] at hv
    · cases hs : checksumLoop s 68 0 0 <;> simp [VerifyChecksum, h0, hs] at hv
  obtain ⟨x, hx⟩ := index_isSome s 68 (by omega)
  rw [VerifyChecksum_eq s x hx] at hv
  have hx2 : index (s.set i d) 68 = some x := by
    rw [index_set, if_neg (by omega), hx]
  rw [VerifyChecksum_eq _ x hx2]
  have hs := checksumSum_set s i c d hi h
  simp only [Option.some.injEq, decide_eq_true_eq] at hv
  simp only [Option.some.injEq, decide_eq_false_iff_not]
  have wc : checksumWeight c = c - 48 := by
    unfold checksumWeight
    rw [if_neg (by omega), if_pos hc]
  have wd : checksumWeight d = d - 48 := by
    unfold checksumWeight
    rw [if_neg (by omega), if_pos hd]
  rw [wc, wd] at hs
  omega

/-! ## The validator -/

/-- The verdict of `ValidateTLE` on two lines of 69 bytes, from the bytes at
column 0 and the two checksum verdicts. -/
theorem ValidateTLE_eq (l1 l2 : GoString) (h1 : l1.length = 69) (h2 : l2.length = 69)
    (c1 c2 : Nat) (b1 b2 : Bool) (hc1 : index l1 0 = some c1) (hc2 : index l2 0 = some c2)
    (hb1 : VerifyChecksum l1 = some b1) (hb2 : VerifyChecksum l2 = some b2) :
    ValidateTLE l1 l2 = some
      (if c1 ≠ 49 ∨ c2 ≠ 50 then .error .invalidLineNumbers
       else if (l1.drop 2).take 5 ≠ (l2.drop 2).take 5 then .error .idMismatch
       else if b1 = false ∨ b2 = false then .error .checksumFailed
       else .ok ()) := by
  unfold ValidateTLE
  rw [if_neg (by omega), hc1, hc2, hb1, hb2,
    show slice l1 2 7 = some ((l1.drop 2).take 5) from slice_eq l1 2 7 (by omega) (by omega),
    show slice l2 2 7 = some ((l2.drop 2).take 5) from slice_eq l2 2 7 (by omega) (by omega)]
  simp only [Option.bind_eq_bind, Option.some_bind]
  by_cases e1 : c1 = 49 <;> by_cases e2 : c2 = 50 <;>
    by_cases e3 : (l1.drop 2).take 5 = (l2.drop 2).take 5 <;>
    cases b1 <;> cases b2 <;> simp [e1, e2, e3]

/-- The function `ValidateTLE` always returns; and what it takes to return no error. -/
theorem ValidateTLE_returns_ok_iff (line1 line2 : GoString) :
    (∃ r, ValidateTLE line1 line2 = some r) ∧
    (ValidateTLE line1 line2 = some (.ok ()) ↔
      line1.length = 69 ∧ line2.length = 69 ∧
      index line1 0 = some 49 ∧ index line2 0 = some 50 ∧
      (line1.drop 2).take 5 = (line2.drop 2).take 5 ∧
      VerifyChecksum line1 = some true ∧ VerifyChecksum line2 = some true) := by
  by_cases hl : line1.length ≠ 69 ∨ line2.length ≠ 69
  · have hv : ValidateTLE line1 line2 = some (.error .invalidLength) := by
      unfold ValidateTLE
      rw [if_pos hl]
    rw [hv]
    refine ⟨⟨_, rfl⟩, ?_⟩
    constructor
    · intro h
      cases h
    · rintro ⟨h1, h2, -⟩
      omega
  · have h1 : line1.length = 69 := by omega
    have h2 : line2.length = 69 := by omega
    obtain ⟨c1, hc1⟩ := index_isSome line1 0 (by omega)
    obtain ⟨c2, hc2⟩ := index_isSome line2 0 (by omega)
    obtain ⟨b1, hb1⟩ := VerifyChecksum_isSome line1 (by omega)
    obtain ⟨b2, hb2⟩ := VerifyChecksum_isSome line2 (by omega)
    rw [ValidateTLE_eq line1 line2 h1 h2 c1 c2 b1 b2 hc1 hc2 hb1 hb2, hc1, hc2, hb1, hb2]
    refine ⟨⟨_, rfl⟩, ?_⟩
    by_cases e1 : c1 = 49 <;> by_cases e2 : c2 = 50 <;>
      by_cases e3 : (line1.drop 2).take 5 = (line2.drop 2).take 5 <;>
      cases b1 <;> cases b2 <;> simp [e1, e2, e3, h1, h2]

theorem idColumns_set (s : GoString) (i d : Nat) :
    ((s.set i d).drop 2).take 5
      = if 2 ≤ i ∧ i < 7 then ((s.drop 2).take 5).set (i - 2) d else (s.drop 2).take 5 := by
  rw [List.drop_set]
  by_cases h1 : i < 2
  · rw [if_pos h1, if_neg (by omega)]
  · rw [if_neg h1, List.set_take]
    by_cases h2 : i < 7
    · rw [if_pos ⟨by omega, h2⟩]
    · rw [if_neg (by omega)]
      apply List.set_eq_of_length_le
      rw [List.length_take]
      omega

theorem ValidateTLE_flip_line1 (line1 line2 : GoString) (i c d : Nat)
    (hok : ValidateTLE line1 line2 = some (.ok ())) (hi : i < 68)
    (hc : 48 ≤ c ∧ c ≤ 57) (hd : 48 ≤ d ∧ d ≤ 57) (hne : d ≠ c)
    (h : index line1 i = some c) :
    ValidateTLE (line1.set i d) line2 = some (.error
      (if i = 0 then .invalidLineNumbers
       else if 2 ≤ i ∧ i < 7 then .idMismatch else .checksumFailed)) := by
  obtain ⟨h1, h2, hc1, hc2, hid, hv1, hv2⟩ := (ValidateTLE_returns_ok_iff line1 line2).2.1 hok
  have hb := VerifyChecksum_set line1 i c d hv1 hi h hc hd hne
  have hx : index (line1.set i d) 0 = some (if i = 0 then d else 49) := by
    rw [index_set, hc1]
    by_cases e : i = 0
    · rw [if_pos e, if_pos e, if_pos (by omega)]
    · rw [if_neg e, if_neg e]
  rw [ValidateTLE_eq (line1.set i d) line2 (by rw [List.length_set]; exact h1) h2 _ 50 false true
    hx hc2 hb hv2, idColumns_set]
  by_cases e0 : i = 0
  · subst e0
    rw [hc1] at h
    have : c = 49 := (Option.some.inj h).symm
    subst this
    simp [hne]
  · by_cases e1 : 2 ≤ i ∧ i < 7
    · have hne2 : ((line1.drop 2).take 5).set (i - 2) d ≠ (line1.drop 2).take 5 := by
        apply set_ne_self _ _ c d _ hne
        rw [List.getElem?_take_of_lt (by omega), List.getElem?_drop,
          show 2 + (i - 2) = i by omega]
        exact h
      rw [← hid]
      simp [e0, e1, hne2]
    · simp [e0, e1, hid]

theorem ValidateTLE_flip_line2 (line1 line2 : GoString) (i c d : Nat)
    (hok : ValidateTLE line1 line2 = some (.ok ())) (hi : i < 68)
    (hc : 48 ≤ c ∧ c ≤ 57) (hd : 48 ≤ d ∧ d ≤ 57) (hne : d ≠ c)
    (h : index line2 i = some c) :
    ValidateTLE line1 (line2.set i d) = some (.error
      (if i = 0 then .invalidLineNumbers
       else if 2 ≤ i ∧ i < 7 then .idMismatch else .checksumFailed)) := by
  obtain ⟨h1, h2, hc1, hc2, hid, hv1, hv2⟩ := (ValidateTLE_returns_ok_iff line1 line2).2.1 hok
  have hb := VerifyChecksum_set line2 i c d hv2 hi h hc hd hne
  have hx : index (line2.set i d) 0 = some (if i = 0 then d else 50) := by
    rw [index_set, hc2]
    by_cases e : i = 0
    · rw [if_pos e, if_pos e, if_pos (by omega)]
    · rw [if_neg e, if_neg e]
  rw [ValidateTLE_eq line1 (line2.set i d) h1 (by rw [List.length_set]; exact h2) 49 _ true false
    hc1 hx hv1 hb, idColumns_set]
  by_cases e0 : i = 0
  · subst e0
    rw [hc2] at h
    have : c = 50 := (Option.some.inj h).symm
    subst this
    simp [hne]
  · by_cases e1 : 2 ≤ i ∧ i < 7
    · have hne2 : ((line2.drop 2).take 5).set (i - 2) d ≠ (line2.drop 2).take 5 := by
        apply set_ne_self _ _ c d _ hne
        rw [List.getElem?_take_of_lt (by omega), List.getElem?_drop,
          show 2 + (i - 2) = i by omega]
        exact h
      rw [hid]
      simp [e0, e1, Ne.symm hne2]
    · simp [e0, e1, hid]

/-! ## The normalizer -/

theorem slice_mantissa (m : GoString) (e1 e2 : Nat) :
    slice (m ++ [e1, e2]) 0 (((m ++ [e1, e2]).length : Int) - 2) = some m := by
  have hl : (((m ++ [e1, e2]).length : Int) - 2) = (m.length : Int) := by
    simp only [List.length_append, List.length_cons, List.length_nil]
    push_cast
    omega
  rw [hl, show (0 : Int) = ((0 : Nat) : Int) from rfl, slice_eq _ 0 m.length (by omega) (by simp)]
  simp

theorem slice_exponent (m : GoString) (e1 e2 : Nat) :
    slice (m ++ [e1, e2]) (((m ++ [e1, e2]).length : Int) - 2) (m ++ [e1, e2]).length
      = some [e1, e2] := by
  have hl : (((m ++ [e1, e2]).length : Int) - 2) = (m.length : Int) := by
    simp only [List.length_append, List.length_cons, List.length_nil]
    push_cast
    omega
  rw [hl, slice_eq _ m.length _ (by simp) (le_refl _)]
  simp

/-- The result of `ParseScientificNotation` on a mantissa followed by two
more bytes: a mantissa with a `'.'` is kept, one without gets a `'.'` after its
first byte, and an empty one makes `mantissa[:1]` panic. -/
theorem ParseScientificNotation_append (m : GoString) (e1 e2 : Nat) :
    ParseScientificNotation (m ++ [e1, e2]) =
      if 46 ∈ m then some (m ++ 101 :: [e1, e2])
      else match m with
        | [] => none
        | c :: rest => some (c :: 46 :: rest ++ 101 :: [e1, e2]) := by
  unfold ParseScientificNotation
  rw [if_neg (by simp), slice_mantissa, slice_exponent]
  have hc : containsDot m = decide (46 ∈ m) := by
    unfold containsDot List.contains
    rw [List.elem_eq_mem]
  simp only [Option.bind_eq_bind, Option.some_bind, hc]
  by_cases h : 46 ∈ m
  · simp [h, bytes]
  · cases m with
    | nil => simp [slice]
    | cons c rest =>
      have hh : slice (c :: rest) 0 1 = some [c] := by
        rw [show (0 : Int) = ((0 : Nat) : Int) from rfl, show (1 : Int) = ((1 : Nat) : Int) from rfl,
          slice_eq _ 0 1 (by omega) (by simp)]
        simp
      have ht : slice (c :: rest) 1 (c :: rest).length = some rest := by
        rw [show (1 : Int) = ((1 : Nat) : Int) from rfl, slice_eq _ 1 _ (by simp) (le_refl _)]
        simp
      rw [hh, ht]
      simp [h, bytes]

/-- A string of at least two bytes is its mantissa followed by two bytes. -/
theorem exists_mantissa (v : GoString) (h : 2 ≤ v.length) :
    ∃ m e1 e2, v = m ++ [e1, e2] ∧ m.length + 2 = v.length := by
  induction v with
  | nil => simp at h
  | cons a t ih =>
    by_cases ht : 2 ≤ t.length
    · obtain ⟨m, e1, e2, rfl, hm⟩ := ih ht
      exact ⟨a :: m, e1, e2, rfl, by simp⟩
    · match t, h, ht with
      | [b], _, _ => exact ⟨[], a, b, rfl, rfl⟩
      | [], h, _ => simp at h
      | _ :: _ :: _, _, ht => simp at ht

theorem ParseScientificNotation_one (c : Nat) : ParseScientificNotation [c] = none := by
  simp [ParseScientificNotation, slice]

theorem ParseScientificNotation_eq_none_iff (v : GoString) :
    ParseScientificNotation v = none ↔ v.length = 1 ∨ v.length = 2 := by
  match v with
  | [] => simp [ParseScientificNotation]
  | [c] => simp [ParseScientificNotation_one]
  | a :: b :: t =>
    obtain ⟨m, e1, e2, hv, hm⟩ := exists_mantissa (a :: b :: t) (by simp)
    rw [hv, ParseScientificNotation_append]
    rw [hv] at hm
    cases m with
    | nil => simp
    | cons c rest =>
      by_cases h : 46 ∈ c :: rest
      · rw [if_pos h]; simp
      · rw [if_neg h]; simp

theorem PSN_unsigned (d1 d2 d3 d4 d5 es e : Nat)
    (h1 : isDigit d1) (h2 : isDigit d2) (h3 : isDigit d3) (h4 : isDigit d4) (h5 : isDigit d5) :
    ParseScientificNotation [d1, d2, d3, d4, d5, es, e]
      = some [d1, 46, d2, d3, d4, d5, 101, es, e] := by
  unfold isDigit at *
  have := ParseScientificNotation_append [d1, d2, d3, d4, d5] es e
  rw [if_neg (by simp; omega)] at this
  exact this

theorem PSN_signed (sg d1 d2 d3 d4 d5 es e : Nat) (hs : sg = 43 ∨ sg = 45)
    (h1 : isDigit d1) (h2 : isDigit d2) (h3 : isDigit d3) (h4 : isDigit d4) (h5 : isDigit d5) :
    ParseScientificNotation [sg, d1, d2, d3, d4, d5, es, e]
      = some [sg, 46, d1, d2, d3, d4, d5, 101, es, e] := by
  unfold isDigit at *
  have := ParseScientificNotation_append [sg, d1, d2, d3, d4, d5] es e
  rw [if_neg (by simp; omega)] at this
  exact this

/-! ## Reading decimal texts -/

theorem splitSign_digit (c : Nat) (s : GoString) (h : isDigit c) :
    splitSign (c :: s) = (1, c :: s) := by
  unfold isDigit at h
  unfold splitSign
  split
  · rename_i heq; simp only [List.cons.injEq] at heq; omega
  · rename_i heq; simp only [List.cons.injEq] at heq; omega
  · rfl

theorem splitSign_sign (sg : Nat) (s : GoString) (h : sg = 43 ∨ sg = 45) :
    splitSign (sg :: s) = (if sg = 45 then -1 else 1, s) := by
  rcases h with rfl | rfl <;> rfl

theorem readDigits_nil : readDigits [] = some 0 := rfl

theorem readDigits_cons (c : Nat) (s : GoString) (h : isDigit c) :
    readDigits (c :: s) = (readDigits s).map fun v => (c - 48) * 10 ^ s.length + v := by
  unfold isDigit at h
  rw [readDigits, if_pos h]

theorem readDigits_one (c : Nat) (h : isDigit c) : readDigits [c] = some (c - 48) := by
  rw [readDigits_cons c [] h]
  simp [readDigits]

theorem readDigits_four (a b c d : Nat) (ha : isDigit a) (hb : isDigit b) (hc : isDigit c)
    (hd : isDigit d) :
    readDigits [a, b, c, d]
      = some ((a - 48) * 1000 + ((b - 48) * 100 + ((c - 48) * 10 + (d - 48)))) := by
  rw [readDigits_cons a _ ha, readDigits_cons b _ hb, readDigits_cons c _ hc, readDigits_one d hd]
  simp

theorem readDigits_five (a b c d e : Nat) (ha : isDigit a) (hb : isDigit b) (hc : isDigit c)
    (hd : isDigit d) (he : isDigit e) :
    readDigits [a, b, c, d, e]
      = some ((a - 48) * 10000 +
          ((b - 48) * 1000 + ((c - 48) * 100 + ((d - 48) * 10 + (e - 48))))) := by
  rw [readDigits_cons a _ ha, readDigits_four b c d e hb hc hd he]
  simp

theorem cutAt_cons_ne (sep c : Nat) (s : GoString) (h : c ≠ sep) :
    cutAt sep (c :: s) = (c :: (cutAt sep s).1, (cutAt sep s).2) := by
  rw [cutAt, if_neg h]

theorem cutAt_cons_self (sep : Nat) (s : GoString) : cutAt sep (sep :: s) = ([], s) := by
  rw [cutAt, if_pos rfl]

theorem value_unsigned (d1 d2 d3 d4 d5 es e : Nat) (hes : es = 43 ∨ es = 45)
    (h1 : isDigit d1) (h2 : isDigit d2) (h3 : isDigit d3) (h4 : isDigit d4) (h5 : isDigit d5)
    (he : isDigit e) :
    ∃ v, tokenValue [d1, d2, d3, d4, d5, es, e] = some v ∧
      decimalValue [d1, 46, d2, d3, d4, d5, 101, es, e] = some (10 * v) := by
  have t1 : tokenValue [d1, d2, d3, d4, d5, es, e]
      = some ((1 : Int) * ((((d1 - 48) * 10000 +
          ((d2 - 48) * 1000 + ((d3 - 48) * 100 + ((d4 - 48) * 10 + (d5 - 48)))) : Nat) : ℚ) / 10 ^ 5)
          * 10 ^ ((if es = 45 then -1 else 1 : Int) * ((e - 48 : Nat) : Int))) := by
    unfold tokenValue
    rw [splitSign_digit d1 _ h1]
    simp only [if_pos hes, readDigits_five d1 d2 d3 d4 d5 h1 h2 h3 h4 h5, readDigits_one e he,
      splitSign_sign es [] hes, Option.bind_eq_bind, Option.some_bind]
  have c1 : cutAt 101 [d1, 46, d2, d3, d4, d5, 101, es, e]
      = ([d1, 46, d2, d3, d4, d5], [es, e]) := by
    unfold isDigit at *
    rw [cutAt_cons_ne _ _ _ (by omega), cutAt_cons_ne _ _ _ (by omega),
      cutAt_cons_ne _ _ _ (by omega), cutAt_cons_ne _ _ _ (by omega),
      cutAt_cons_ne _ _ _ (by omega), cutAt_cons_ne _ _ _ (by omega), cutAt_cons_self]
  have c2 : cutAt 46 [d1, 46, d2, d3, d4, d5] = ([d1], [d2, d3, d4, d5]) := by
    unfold isDigit at *
    rw [cutAt_cons_ne _ _ _ (by omega), cutAt_cons_self]
  have t2 : decimalValue [d1, 46, d2, d3, d4, d5, 101, es, e]
      = some ((1 : Int) * (((d1 - 48 : Nat) : ℚ) + (((d2 - 48) * 1000 + ((d3 - 48) * 100 +
          ((d4 - 48) * 10 + (d5 - 48))) : Nat) : ℚ) / 10 ^ 4)
          * 10 ^ ((if es = 45 then -1 else 1 : Int) * ((e - 48 : Nat) : Int))) := by
    unfold decimalValue
    simp only [splitSign_digit d1 _ h1, c1, c2, splitSign_sign es [e] hes]
    rw [if_neg (by simp)]
    simp only [readDigits_one d1 h1, readDigits_four d2 d3 d4 d5 h2 h3 h4 h5, readDigits_one e he,
      Option.bind_eq_bind, Option.some_bind, List.length_cons, List.length_nil]
  refine ⟨_, t1, ?_⟩
  rw [t2]
  congr 1
  push_cast
  ring

theorem value_signed (sg d1 d2 d3 d4 d5 es e : Nat) (hs : sg = 43 ∨ sg = 45)
    (hes : es = 43 ∨ es = 45)
    (h1 : isDigit d1) (h2 : isDigit d2) (h3 : isDigit d3) (h4 : isDigit d4) (h5 : isDigit d5)
    (he : isDigit e) :
    ∃ v, tokenValue [sg, d1, d2, d3, d4, d5, es, e] = some v ∧
      decimalValue [sg, 46, d1, d2, d3, d4, d5, 101, es, e] = some v := by
  have t1 : tokenValue [sg, d1, d2, d3, d4, d5, es, e]
      = some ((if sg = 45 then -1 else 1 : Int) * ((((d1 - 48) * 10000 +
          ((d2 - 48) * 1000 + ((d3 - 48) * 100 + ((d4 - 48) * 10 + (d5 - 48)))) : Nat) : ℚ) / 10 ^ 5)
          * 10 ^ ((if es = 45 then -1 else 1 : Int) * ((e - 48 : Nat) : Int))) := by
    unfold tokenValue
    rw [splitSign_sign sg _ hs]
    simp only [if_pos hes, readDigits_five d1 d2 d3 d4 d5 h1 h2 h3 h4 h5, readDigits_one e he,
      splitSign_sign es [] hes, Option.bind_eq_bind, Option.some_bind]
  have c1 : cutAt 101 [46, d1, d2, d3, d4, d5, 101, es, e]
      = ([46, d1, d2, d3, d4, d5], [es, e]) := by
    unfold isDigit at *
    rw [cutAt_cons_ne _ _ _ (by omega), cutAt_cons_ne _ _ _ (by omega),
      cutAt_cons_ne _ _ _ (by omega), cutAt_cons_ne _ _ _ (by omega),
      cutAt_cons_ne _ _ _ (by omega), cutAt_cons_ne _ _ _ (by omega), cutAt_cons_self]
  have c2 : cutAt 46 [46, d1, d2, d3, d4, d5] = ([], [d1, d2, d3, d4, d5]) := cutAt_cons_self _ _
  have t2 : decimalValue [sg, 46, d1, d2, d3, d4, d5, 101, es, e]
      = some ((if sg = 45 then -1 else 1 : Int) * (((0 : Nat) : ℚ) + (((d1 - 48) * 10000 +
          ((d2 - 48) * 1000 + ((d3 - 48) * 100 + ((d4 - 48) * 10 + (d5 - 48)))) : Nat) : ℚ) / 10 ^ 5)
          * 10 ^ ((if es = 45 then -1 else 1 : Int) * ((e - 48 : Nat) : Int))) := by
    unfold decimalValue
    simp only [splitSign_sign sg _ hs, c1, c2, splitSign_sign es [e] hes]
    rw [if_neg (by simp)]
    simp only [readDigits_nil, readDigits_five d1 d2 d3 d4 d5 h1 h2 h3 h4 h5, readDigits_one e he,
      Option.bind_eq_bind, Option.some_bind, List.length_cons, List.length_nil]
  refine ⟨_, t1, ?_⟩
  rw [t2]
  congr 1
  push_cast
  ring

/-! ## The line readers -/

theorem field_eq (s : GoString) (lo hi : Nat) (h1 : lo ≤ hi) (h2 : hi ≤ s.length) :
    field s lo hi = some (column s lo hi) := by
  unfold field column
  rw [slice_eq s lo hi h1 h2]
  rfl

theorem ReadTLELine1_short (s : GoString) (h : s.length < 69) :
    ReadTLELine1 s = some (.error (.line1TooShort s.length)) := by
  unfold ReadTLELine1
  rw [if_pos h]

theorem ReadTLELine1_eq (s : GoString) (h : 69 ≤ s.length) :
    ReadTLELine1 s =
      (ParseScientificNotation (column s 33 43)).bind fun fd =>
      (ParseScientificNotation (column s 44 52)).bind fun sd =>
      (ParseScientificNotation (column s 53 61)).bind fun bs =>
      some (.ok {
        LineNumber := []
        SataliteID := column s 2 7
        Classification := column s 7 8
        LaunchYear := column s 9 11
        LaunchNumber := column s 11 14
        LaunchPiece := column s 14 17
        EpochYear := column s 18 20
        EpochDay := column s 20 32
        FirstDerivative := fd
        SecondDerivative := sd
        Bstar := bs
        EphemerisType := column s 62 63
        ElementSetNumber := column s 64 68
        Checksum := column s 68 69
        LineString := s }) := by
  have f0 := field_eq s 0 1 (by omega) (by omega)
  have f1 := field_eq s 2 7 (by omega) (by omega)
  have f2 := field_eq s 7 8 (by omega) (by omega)
  have f3 := field_eq s 9 11 (by omega) (by omega)
  have f4 := field_eq s 11 14 (by omega) (by omega)
  have f5 := field_eq s 14 17 (by omega) (by omega)
  have f6 := field_eq s 18 20 (by omega) (by omega)
  have f7 := field_eq s 20 32 (by omega) (by omega)
  have f8 := field_eq s 33 43 (by omega) (by omega)
  have f9 := field_eq s 44 52 (by omega) (by omega)
  have f10 := field_eq s 53 61 (by omega) (by omega)
  have f11 := field_eq s 62 63 (by omega) (by omega)
  have f12 := field_eq s 64 68 (by omega) (by omega)
  have f13 := field_eq s 68 69 (by omega) (by omega)
  simp only [Nat.cast_ofNat, Nat.cast_zero, Nat.cast_one] at f0 f1 f2 f3 f4 f5 f6 f7 f8 f9 f10 f11 f12 f13
  unfold ReadTLELine1
  rw [if_neg (by omega)]
  simp only [line1Fields, List.foldlM, line1Step, f0, f1, f2, f3, f4, f5, f6, f7, f8, f9, f10,
    f11, f12, f13, Option.some_bind, Option.bind_eq_bind]
  simp only [line1Switch, String.reduceEq, if_true, if_false, Option.some_bind]
  cases ParseScientificNotation (column s 33 43) <;>
    cases ParseScientificNotation (column s 44 52) <;>
    cases ParseScientificNotation (column s 53 61) <;> rfl

theorem ReadTLELine1_fields_of_ok (s : GoString) (r : TLELine1) (hlen : 69 ≤ s.length)
    (h : ReadTLELine1 s = some (.ok r)) :
    r.LineString = s ∧
    r.SataliteID = column s 2 7 ∧
    r.Classification = column s 7 8 ∧
    r.LaunchYear = column s 9 11 ∧
    r.LaunchNumber = column s 11 14 ∧
    r.LaunchPiece = column s 14 17 ∧
    r.EpochYear = column s 18 20 ∧
    r.EpochDay = column s 20 32 ∧
    r.EphemerisType = column s 62 63 ∧
    r.ElementSetNumber = column s 64 68 ∧
    r.Checksum = column s 68 69 ∧
    ParseScientificNotation (column s 33 43) = some r.FirstDerivative ∧
    ParseScientificNotation (column s 44 52) = some r.SecondDerivative ∧
    ParseScientificNotation (column s 53 61) = some r.Bstar := by
  rw [ReadTLELine1_eq s hlen] at h
  cases h1 : ParseScientificNotation (column s 33 43) with
  | none => rw [h1] at h; cases h
  | some fd =>
    cases h2 : ParseScientificNotation (column s 44 52) with
    | none => rw [h1, h2] at h; cases h
    | some sd =>
      cases h3 : ParseScientificNotation (column s 53 61) with
      | none => rw [h1, h2, h3] at h; cases h
      | some bs =>
        rw [h1, h2, h3] at h
        simp only [Option.some_bind, Option.some.injEq, Except.ok.injEq] at h
        subst h
        exact ⟨rfl, rfl, rfl, rfl, rfl, rfl, rfl, rfl, rfl, rfl, rfl, rfl, rfl, rfl⟩

theorem ReadTLELine1_eq_none_iff (s : GoString) :
    ReadTLELine1 s = none ↔
      69 ≤ s.length ∧
      ((column s 33 43).length = 1 ∨ (column s 33 43).length = 2 ∨
       (column s 44 52).length = 1 ∨ (column s 44 52).length = 2 ∨
       (column s 53 61).length = 1 ∨ (column s 53 61).length = 2) := by
  by_cases hlen : s.length < 69
  · rw [ReadTLELine1_short s hlen]
    constructor
    · intro h; cases h
    · rintro ⟨h, -⟩; omega
  · rw [ReadTLELine1_eq s (by omega)]
    have e1 := ParseScientificNotation_eq_none_iff (column s 33 43)
    have e2 := ParseScientificNotation_eq_none_iff (column s 44 52)
    have e3 := ParseScientificNotation_eq_none_iff (column s 53 61)
    cases h1 : ParseScientificNotation (column s 33 43) <;>
      cases h2 : ParseScientificNotation (column s 44 52) <;>
      cases h3 : ParseScientificNotation (column s 53 61) <;>
      simp only [h1, h2, h3, Option.some_bind, Option.none_bind, true_iff, false_iff,
        reduceCtorEq] at e1 e2 e3 ⊢ <;>
      first
        | (refine ⟨by omega, ?_⟩; tauto)
        | (rintro ⟨-, h⟩; tauto)

theorem ReadTLELine2_eq (s : GoString) (h : 69 ≤ s.length) :
    ReadTLELine2 s =
      some (.ok {
        LineNumber := []
        SataliteID := column s 2 7
        Inclination := column s 8 16
        RightAscension := column s 17 25
        Eccentricity := bytes "0." ++ column s 26 33
        ArgumentOfPerigee := column s 34 42
        MeanAnomaly := column s 43 51
        MeanMotion := column s 52 63
        RevolutionNumber := column s 63 68
        Checksum := column s 68 69
        LineString := s }) := by
  have f0 := field_eq s 0 1 (by omega) (by omega)
  have f1 := field_eq s 2 7 (by omega) (by omega)
  have f2 := field_eq s 8 16 (by omega) (by omega)
  have f3 := field_eq s 17 25 (by omega) (by omega)
  have f4 := field_eq s 26 33 (by omega) (by omega)
  have f5 := field_eq s 34 42 (by omega) (by omega)
  have f6 := field_eq s 43 51 (by omega) (by omega)
  have f7 := field_eq s 52 63 (by omega) (by omega)
  have f8 := field_eq s 63 68 (by omega) (by omega)
  have f9 := field_eq s 68 69 (by omega) (by omega)
  simp only [Nat.cast_ofNat, Nat.cast_zero, Nat.cast_one] at f0 f1 f2 f3 f4 f5 f6 f7 f8 f9
  unfold ReadTLELine2
  rw [if_neg (by omega)]
  simp only [line2Fields, List.foldlM, line2Step, f0, f1, f2, f3, f4, f5, f6, f7, f8, f9,
    Option.map_some', Option.some_bind, Option.bind_eq_bind]
  simp only [line2Switch, String.reduceEq, if_true, if_false]
  rfl

theorem ReadTLELine2_short (s : GoString) (h : s.length < 69) :
    ReadTLELine2 s = some (.error (.line2TooShort s.length)) := by
  unfold ReadTLELine2
  rw [if_pos h]

/-- What a second application of `ParseScientificNotation` does to a result
of the first: it returns again, with a longer text. -/
theorem ParseScientificNotation_again (s r : GoString)
    (h : ParseScientificNotation s = some r) :
    ∃ r2, ParseScientificNotation r = some r2 ∧ r.length < r2.length := by
  match s, h with
  | [], h =>
    have hr : r = [48, 46, 48] := by
      have : ParseScientificNotation [] = some [48, 46, 48] := by decide
      rw [this] at h
      exact (Option.some.inj h).symm
    subst hr
    exact ⟨[48, 46, 101, 46, 48], by decide, by decide⟩
  | [c], h =>
    rw [ParseScientificNotation_one] at h
    cases h
  | a :: b :: t, h =>
    obtain ⟨m, e1, e2, hv, -⟩ := exists_mantissa (a :: b :: t) (by simp)
    rw [hv, ParseScientificNotation_append] at h
    by_cases hd : 46 ∈ m
    · rw [if_pos hd] at h
      have hr : r = (m ++ [101]) ++ [e1, e2] := by
        rw [← Option.some.inj h]
        simp
      subst hr
      have h2 := ParseScientificNotation_append (m ++ [101]) e1 e2
      rw [if_pos (by simp [hd])] at h2
      exact ⟨_, h2, by simp⟩
    · rw [if_neg hd] at h
      cases m with
      | nil => cases h
      | cons c rest =>
        have hr : r = (c :: 46 :: rest ++ [101]) ++ [e1, e2] := by
          rw [← Option.some.inj h]
          simp
        subst hr
        have h2 := ParseScientificNotation_append (c :: 46 :: rest ++ [101]) e1 e2
        rw [if_pos (by simp)] at h2
        exact ⟨_, h2, by simp⟩

/-! ## The claims -/

/-- C1. `ValidateTLE` always returns, and it returns no error exactly when
both lines have 69 bytes, line 1 starts with `'1'` and line 2 with `'2'`, the
bytes at columns 2 to 6 of the two lines agree, and `VerifyChecksum` is true
of both lines. -/
theorem ValidateTLE_ok_iff (line1 line2 : GoString) :
    (∃ r, ValidateTLE line1 line2 = some r) ∧
    (ValidateTLE line1 line2 = some (.ok ()) ↔
      line1.length = 69 ∧ line2.length = 69 ∧
      index line1 0 = some 49 ∧ index line2 0 = some 50 ∧
      (line1.drop 2).take 5 = (line2.drop 2).take 5 ∧
      VerifyChecksum line1 = some true ∧ VerifyChecksum line2 = some true) :=
  ValidateTLE_returns_ok_iff line1 line2

/-- C2. On a line of at least 69 bytes `VerifyChecksum` returns, and it returns
true exactly when column 68 holds a decimal digit whose value is the sum of the
weights of columns 0 to 67 (1 for `'-'`, the face value for a digit, 0 for the
rest) modulo 10. -/
theorem VerifyChecksum_spec (s : GoString) (h : 69 ≤ s.length) :
    ∃ b, VerifyChecksum s = some b ∧
      (b = true ↔ ∃ c, index s 68 = some (48 + c) ∧ c ≤ 9 ∧
        ((s.take 68).map checksumWeight).sum % 10 = c) := by
  obtain ⟨x, hx⟩ := index_isSome s 68 (by omega)
  refine ⟨_, VerifyChecksum_eq s x hx, ?_⟩
  rw [hx]
  simp only [decide_eq_true_eq, checksumSum, Option.some.injEq]
  constructor
  · rintro ⟨h1, h2, h3⟩
    exact ⟨x - 48, by omega, by omega, by omega⟩
  · rintro ⟨c, h1, h2, h3⟩
    omega

/-- C2, at line 1 of the ISS example: the line has 69 bytes, its column 68
holds `'7'`, the weights of columns 0 to 67 add up to 7 modulo 10, and
`VerifyChecksum` returns true. -/
theorem VerifyChecksum_spec_witness :
    69 ≤ issLine1.length ∧ index issLine1 68 = some (48 + 7) ∧
    ((issLine1.take 68).map checksumWeight).sum % 10 = 7 ∧
    VerifyChecksum issLine1 = some true ∧
    ∃ b, VerifyChecksum issLine1 = some b ∧
      (b = true ↔ ∃ c, index issLine1 68 = some (48 + c) ∧ c ≤ 9 ∧
        ((issLine1.take 68).map checksumWeight).sum % 10 = c) :=
  ⟨by decide, by decide, by decide, by decide, VerifyChecksum_spec issLine1 (by decide)⟩

/-- C3, counterexample.  The ISS pair is accepted; column 0 of line 1 holds
the digit `'1'`, and writing the digit `'3'` there makes `ValidateTLE` return
"invalid line numbers"; column 2 holds `'2'`, and writing `'3'` there makes it
return "satellite IDs do not match".  Neither is the checksum error. -/
theorem ValidateTLE_flip_counterexample :
    ValidateTLE issLine1 issLine2 = some (.ok ()) ∧
    index issLine1 0 = some 49 ∧
    ValidateTLE (issLine1.set 0 51) issLine2 = some (.error .invalidLineNumbers) ∧
    index issLine1 2 = some 50 ∧
    ValidateTLE (issLine1.set 2 51) issLine2 = some (.error .idMismatch) := by
  decide

/-- C3, amended.  In a pair that `ValidateTLE` accepts, replacing the digit at
one column below 68 of either line by a different digit makes `ValidateTLE`
return an error: "invalid line numbers" at column 0, "satellite IDs do not
match" at columns 2 to 6, and "checksum verification failed" at every other
column. -/
theorem ValidateTLE_flip_digit (line1 line2 : GoString) (i c d : Nat)
    (hok : ValidateTLE line1 line2 = some (.ok ())) (hi : i < 68)
    (hc : 48 ≤ c ∧ c ≤ 57) (hd : 48 ≤ d ∧ d ≤ 57) (hne : d ≠ c) :
    (index line1 i = some c →
      ValidateTLE (line1.set i d) line2 = some (.error
        (if i = 0 then .invalidLineNumbers
         else if 2 ≤ i ∧ i < 7 then .idMismatch else .checksumFailed))) ∧
    (index line2 i = some c →
      ValidateTLE line1 (line2.set i d) = some (.error
        (if i = 0 then .invalidLineNumbers
         else if 2 ≤ i ∧ i < 7 then .idMismatch else .checksumFailed))) :=
  ⟨ValidateTLE_flip_line1 line1 line2 i c d hok hi hc hd hne,
   ValidateTLE_flip_line2 line1 line2 i c d hok hi hc hd hne⟩

/-- C3, amended, at the ISS pair: column 20 of line 1 holds `'2'` and column
12 of line 2 holds `'6'`; writing `'3'` over either gives the checksum error. -/
theorem ValidateTLE_flip_digit_witness :
    ValidateTLE issLine1 issLine2 = some (.ok ()) ∧
    index issLine1 20 = some 50 ∧ index issLine2 12 = some 54 ∧
    ValidateTLE (issLine1.set 20 51) issLine2 = some (.error .checksumFailed) ∧
    ValidateTLE issLine1 (issLine2.set 12 51) = some (.error .checksumFailed) :=
  ⟨by decide, by decide, by decide,
   (ValidateTLE_flip_digit issLine1 issLine2 20 50 51 (by decide) (by decide) (by decide)
      (by decide) (by decide)).1 (by decide),
   (ValidateTLE_flip_digit issLine1 issLine2 12 54 51 (by decide) (by decide) (by decide)
      (by decide) (by decide)).2 (by decide)⟩

/-- C4. When `ReadTLELine1` returns a record for a line of at least 69 bytes,
the record holds the line itself in `LineString`, the trimmed columns
[2,7), [7,8), [9,11), [11,14), [14,17), [18,20), [20,32), [62,63), [64,68) and
[68,69) in the catalog number, classification, launch year, launch number,
launch piece, epoch year, epoch day, ephemeris type, element-set number and
checksum, and `ParseScientificNotation` of the trimmed columns [33,43),
[44,52) and [53,61) in the two derivatives and Bstar. -/
theorem ReadTLELine1_fields (line : GoString) (r : TLELine1) (hlen : 69 ≤ line.length)
    (h : ReadTLELine1 line = some (.ok r)) :
    r.LineString = line ∧
    r.SataliteID = column line 2 7 ∧
    r.Classification = column line 7 8 ∧
    r.LaunchYear = column line 9 11 ∧
    r.LaunchNumber = column line 11 14 ∧
    r.LaunchPiece = column line 14 17 ∧
    r.EpochYear = column line 18 20 ∧
    r.EpochDay = column line 20 32 ∧
    r.EphemerisType = column line 62 63 ∧
    r.ElementSetNumber = column line 64 68 ∧
    r.Checksum = column line 68 69 ∧
    ParseScientificNotation (column line 33 43) = some r.FirstDerivative ∧
    ParseScientificNotation (column line 44 52) = some r.SecondDerivative ∧
    ParseScientificNotation (column line 53 61) = some r.Bstar :=
  ReadTLELine1_fields_of_ok line r hlen h

/-- C4, at line 1 of the ISS example: `ReadTLELine1` returns a record, with
catalog number "25544", classification "U", epoch year "08", epoch day
"264.51782528", element-set number "292" and checksum "7". -/
theorem ReadTLELine1_fields_witness :
    ∃ r, ReadTLELine1 issLine1 = some (.ok r) ∧
      r.LineString = issLine1 ∧
      r.SataliteID = bytes "25544" ∧
      r.Classification = bytes "U" ∧
      r.EpochYear = bytes "08" ∧
      r.EpochDay = bytes "264.51782528" ∧
      r.ElementSetNumber = bytes "292" ∧
      r.Checksum = bytes "7" := by
  have hr : ∃ r, ReadTLELine1 issLine1 = some (.ok r) := ⟨_, rfl⟩
  obtain ⟨r, hr⟩ := hr
  obtain ⟨h0, h1, h2, -, -, -, h6, h7, -, h9, h10, -⟩ :=
    ReadTLELine1_fields issLine1 r (by decide) hr
  refine ⟨r, hr, h0, ?_, ?_, ?_, ?_, ?_, ?_⟩
  · rw [h1]; decide
  · rw [h2]; decide
  · rw [h6]; decide
  · rw [h7]; decide
  · rw [h9]; decide
  · rw [h10]; decide

/-- C5. `ReadTLELine2` returns the too-short error exactly on lines of fewer
than 69 bytes; on any other line it returns a record that holds the line
itself in `LineString`, "0." followed by the trimmed columns [26,33) in
`Eccentricity`, and the trimmed columns [2,7), [8,16), [17,25), [34,42),
[43,51), [52,63), [63,68) and [68,69) in the catalog number, inclination,
right ascension, argument of perigee, mean anomaly, mean motion, revolution
number and checksum. -/
theorem ReadTLELine2_spec (line : GoString) :
    ((∃ n, ReadTLELine2 line = some (.error (.line2TooShort n))) ↔ line.length < 69) ∧
    (69 ≤ line.length →
      ∃ r, ReadTLELine2 line = some (.ok r) ∧
        r.LineString = line ∧
        r.Eccentricity = bytes "0." ++ column line 26 33 ∧
        r.SataliteID = column line 2 7 ∧
        r.Inclination = column line 8 16 ∧
        r.RightAscension = column line 17 25 ∧
        r.ArgumentOfPerigee = column line 34 42 ∧
        r.MeanAnomaly = column line 43 51 ∧
        r.MeanMotion = column line 52 63 ∧
        r.RevolutionNumber = column line 63 68 ∧
        r.Checksum = column line 68 69) := by
  constructor
  · by_cases h : line.length < 69
    · rw [ReadTLELine2_short line h]
      exact ⟨fun _ => h, fun _ => ⟨_, rfl⟩⟩
    · rw [ReadTLELine2_eq line (by omega)]
      constructor
      · rintro ⟨n, hn⟩
        cases hn
      · intro h2
        omega
  · intro h
    exact ⟨_, ReadTLELine2_eq line h, rfl, rfl, rfl, rfl, rfl, rfl, rfl, rfl, rfl, rfl⟩

/-- C5, at line 2 of the ISS example: the line has 69 bytes and
`ReadTLELine2` returns a record with eccentricity "0.0006703" and mean motion
"15.72125391". -/
theorem ReadTLELine2_spec_witness :
    69 ≤ issLine2.length ∧
    ∃ r, ReadTLELine2 issLine2 = some (.ok r) ∧
      r.LineString = issLine2 ∧
      r.Eccentricity = bytes "0.0006703" ∧
      r.MeanMotion = bytes "15.72125391" := by
  obtain ⟨r, hr, h0, h1, -, -, -, -, -, h7, -⟩ := (ReadTLELine2_spec issLine2).2 (by decide)
  refine ⟨by decide, r, hr, h0, ?_, ?_⟩
  · rw [h1]; decide
  · rw [h7]; decide

/-- C6.  `ReadTLELine1` returns the too-short error exactly on lines of fewer
than 69 bytes, but it does not return on every other line: it panics exactly
when the line has at least 69 bytes and one of the columns [33,43), [44,52),
[53,61) is one or two bytes long once trimmed.  The 69-byte line
`loneZeroBstarLine1`, whose Bstar column holds a lone `0`, is such a line. -/
theorem ReadTLELine1_panics :
    loneZeroBstarLine1.length = 69 ∧
    column loneZeroBstarLine1 53 61 = bytes "0" ∧
    ReadTLELine1 loneZeroBstarLine1 = none ∧
    (∀ line : GoString,
      (∃ n, ReadTLELine1 line = some (.error (.line1TooShort n))) ↔ line.length < 69) ∧
    (∀ line : GoString, ReadTLELine1 line = none ↔
      69 ≤ line.length ∧
      ((column line 33 43).length = 1 ∨ (column line 33 43).length = 2 ∨
       (column line 44 52).length = 1 ∨ (column line 44 52).length = 2 ∨
       (column line 53 61).length = 1 ∨ (column line 53 61).length = 2)) := by
  refine ⟨by decide, by decide, by decide, ?_, ReadTLELine1_eq_none_iff⟩
  intro line
  by_cases h : line.length < 69
  · rw [ReadTLELine1_short line h]
    exact ⟨fun _ => h, fun _ => ⟨_, rfl⟩⟩
  · constructor
    · rintro ⟨n, hn⟩
      rw [ReadTLELine1_eq line (by omega)] at hn
      cases h1 : ParseScientificNotation (column line 33 43) <;>
        cases h2 : ParseScientificNotation (column line 44 52) <;>
        cases h3 : ParseScientificNotation (column line 53 61) <;>
        rw [h1, h2, h3] at hn <;> cases hn
    · intro h2
      omega

/-- C7.  On a token of five mantissa digits and a signed one-digit exponent
with no sign in front, `ParseScientificNotation` returns a text that reads as
ten times the value the token means, `d.dddd × 10^se` for `0.ddddd × 10^se`;
with a sign in front the text reads as the value the token means. -/
theorem ParseScientificNotation_value (d1 d2 d3 d4 d5 es e : Nat)
    (h1 : isDigit d1) (h2 : isDigit d2) (h3 : isDigit d3) (h4 : isDigit d4) (h5 : isDigit d5)
    (hes : es = 43 ∨ es = 45) (he : isDigit e) :
    (∃ r v, ParseScientificNotation [d1, d2, d3, d4, d5, es, e] = some r ∧
      tokenValue [d1, d2, d3, d4, d5, es, e] = some v ∧
      decimalValue r = some (10 * v)) ∧
    (∀ sg, sg = 43 ∨ sg = 45 →
      ∃ r v, ParseScientificNotation [sg, d1, d2, d3, d4, d5, es, e] = some r ∧
        tokenValue [sg, d1, d2, d3, d4, d5, es, e] = some v ∧
        decimalValue r = some v) := by
  constructor
  · obtain ⟨v, hv, hd⟩ := value_unsigned d1 d2 d3 d4 d5 es e hes h1 h2 h3 h4 h5 he
    exact ⟨_, v, PSN_unsigned d1 d2 d3 d4 d5 es e h1 h2 h3 h4 h5, hv, hd⟩
  · intro sg hs
    obtain ⟨v, hv, hd⟩ := value_signed sg d1 d2 d3 d4 d5 es e hs hes h1 h2 h3 h4 h5 he
    exact ⟨_, v, PSN_signed sg d1 d2 d3 d4 d5 es e hs h1 h2 h3 h4 h5, hv, hd⟩

/-- C7, at the token "11606-4": it means `0.11606 × 10^-4`, and
`ParseScientificNotation` returns "1.1606e-4", which reads as
`1.1606 × 10^-4`, ten times as much. -/
theorem ParseScientificNotation_value_witness :
    ParseScientificNotation (bytes "11606-4") = some (bytes "1.1606e-4") ∧
    tokenValue (bytes "11606-4") = some (11606 / 10 ^ 9) ∧
    decimalValue (bytes "1.1606e-4") = some (11606 / 10 ^ 8) ∧
    decimalValue (bytes "1.1606e-4") ≠ tokenValue (bytes "11606-4") := by
  obtain ⟨r, v, hr, hv, hd⟩ := (ParseScientificNotation_value 49 49 54 48 54 45 52
    (by decide) (by decide) (by decide) (by decide) (by decide) (by decide) (by decide)).1
  have hr2 : ParseScientificNotation (bytes "11606-4") = some (bytes "1.1606e-4") := by decide
  have hv2 : tokenValue (bytes "11606-4") = some (11606 / 10 ^ 9) := by
    simp [tokenValue, bytes, splitSign, readDigits]
    norm_num
  have e1 : r = bytes "1.1606e-4" := Option.some.inj (hr.symm.trans hr2)
  have e2 : v = 11606 / 10 ^ 9 := Option.some.inj (hv.symm.trans hv2)
  subst e1 e2
  refine ⟨hr2, hv2, ?_, ?_⟩
  · rw [hd]
    norm_num
  · rw [hd, hv2]
    norm_num

/-- C8, counterexample.  For "-11606-4" the result is "-.11606e-4", with the
point right after the sign, and not "-1.1606e-4". -/
theorem ParseScientificNotation_sign_counterexample :
    ParseScientificNotation (bytes "-11606-4") = some (bytes "-.11606e-4") ∧
    ParseScientificNotation (bytes "-11606-4") ≠ some (bytes "-1.1606e-4") := by
  decide

/-- C8, amended.  `ParseScientificNotation` takes the last two bytes as the
exponent and the rest as the mantissa; a mantissa without `'.'` gets the point
after its first byte, whether that byte is a sign or a digit, and the result
is the mantissa, `'e'` and the exponent.  The empty input gives "0.0". -/
theorem ParseScientificNotation_point_after_first (m : GoString) (e1 e2 : Nat)
    (hm : m ≠ []) :
    ParseScientificNotation (m ++ [e1, e2])
      = some ((if 46 ∈ m then m else m.take 1 ++ bytes "." ++ m.drop 1)
          ++ bytes "e" ++ [e1, e2]) ∧
    ParseScientificNotation [] = some (bytes "0.0") := by
  refine ⟨?_, by decide⟩
  rw [ParseScientificNotation_append]
  by_cases h : 46 ∈ m
  · rw [if_pos h, if_pos h]
    simp [bytes]
  · rw [if_neg h, if_neg h]
    cases m with
    | nil => exact absurd rfl hm
    | cons c rest => simp [bytes]

/-- C8, amended, at "-11606-4": the mantissa "-11606" has no point, and the
result is "-.11606e-4". -/
theorem ParseScientificNotation_point_after_first_witness :
    bytes "-11606" ≠ [] ∧
    ParseScientificNotation (bytes "-11606" ++ bytes "-4") = some (bytes "-.11606e-4") :=
  ⟨by decide,
   (ParseScientificNotation_point_after_first (bytes "-11606") 45 52 (by decide)).1.trans
     (by decide)⟩

/-- C9, counterexample.  On "-11606-4" the first application gives
"-.11606e-4" and the second gives "-.11606ee-4", a different text. -/
theorem ParseScientificNotation_twice_counterexample :
    ParseScientificNotation (bytes "-11606-4") = some (bytes "-.11606e-4") ∧
    ParseScientificNotation (bytes "-.11606e-4") = some (bytes "-.11606ee-4") ∧
    bytes "-.11606ee-4" ≠ bytes "-.11606e-4" := by
  decide

/-- C9, amended.  `ParseScientificNotation` is not idempotent: whenever it
returns a text, applying it to that text returns a strictly longer text, so
the second result always differs from the first. -/
theorem ParseScientificNotation_twice (s r : GoString)
    (h : ParseScientificNotation s = some r) :
    ∃ r2, ParseScientificNotation r = some r2 ∧ r.length < r2.length ∧ r2 ≠ r := by
  obtain ⟨r2, h2, hl⟩ := ParseScientificNotation_again s r h
  refine ⟨r2, h2, hl, ?_⟩
  intro he
  rw [he] at hl
  exact Nat.lt_irrefl _ hl

/-- C9, amended, at "-11606-4": the first result has 10 bytes, and the second
application returns a longer text. -/
theorem ParseScientificNotation_twice_witness :
    ParseScientificNotation (bytes "-11606-4") = some (bytes "-.11606e-4") ∧
    ∃ r2, ParseScientificNotation (bytes "-.11606e-4") = some r2 ∧
      (bytes "-.11606e-4").length < r2.length ∧ r2 ≠ bytes "-.11606e-4" :=
  ⟨by decide,
   ParseScientificNotation_twice (bytes "-11606-4") (bytes "-.11606e-4") (by decide)⟩

/-- C10.  `ParseScientificNotation` panics on the one-byte input "5" and on
the two-byte input "-4"; in all it panics exactly on the inputs of one or two
bytes, and returns a text on every other input. -/
theorem ParseScientificNotation_panics :
    ParseScientificNotation (bytes "5") = none ∧
    ParseScientificNotation (bytes "-4") = none ∧
    (∀ value : GoString,
      ParseScientificNotation value = none ↔ value.length = 1 ∨ value.length = 2) :=
  ⟨by decide, by decide, ParseScientificNotation_eq_none_iff⟩

/-! ## Day of year to month and day -/

theorem monthDayLoop_month (l : List Int) (i c : Int) :
    (monthDayLoop l i c).1 = 1 ∨
      (i + 1 ≤ (monthDayLoop l i c).1 ∧ (monthDayLoop l i c).1 ≤ i + l.length) := by
  induction l generalizing i c with
  | nil => left; rfl
  | cons days rest ih =>
    rw [monthDayLoop]
    split_ifs with h
    · right
      simp only [List.length_cons]
      push_cast
      omega
    · rcases ih (i + 1) (c - days) with h1 | ⟨h1, h2⟩
      · left; exact h1
      · right
        simp only [List.length_cons]
        push_cast
        omega

theorem monthDayLoop_fits (l : List Int) (i c : Int) (hc1 : 1 ≤ c) (hc2 : c ≤ l.sum) :
    ∃ k : Nat, k < l.length ∧
      monthDayLoop l i c = (i + k + 1, c - (l.take k).sum) ∧
      1 ≤ c - (l.take k).sum ∧ c - (l.take k).sum ≤ l.getD k 0 := by
  induction l generalizing i c with
  | nil => simp at hc2; omega
  | cons days rest ih =>
    rw [monthDayLoop]
    split_ifs with h
    · exact ⟨0, by simp, by simp, by simpa using hc1, by simpa using h⟩
    · simp only [List.sum_cons] at hc2
      obtain ⟨k, hk, he, h1, h2⟩ := ih (i + 1) (c - days) (by omega) (by omega)
      refine ⟨k + 1, by simpa using hk, ?_, ?_, ?_⟩
      · rw [he]
        simp only [List.take_succ_cons, List.sum_cons]
        push_cast
        congr 1 <;> omega
      · simp only [List.take_succ_cons, List.sum_cons]
        omega
      · simp only [List.take_succ_cons, List.sum_cons, List.getD_cons_succ]
        omega

theorem daysInMonth_table (isLeap : Bool) (k : Nat) (hk : k < 12) :
    (daysInMonth isLeap).getD k 0 = monthLength isLeap (k + 1) ∧
    ((daysInMonth isLeap).take k).sum = daysBeforeMonth isLeap (k + 1) := by
  cases isLeap <;> interval_cases k <;> decide

theorem DayOfYearToMonthDay_in_year (n : Int) (isLeap : Bool) (h1 : 1 ≤ n)
    (h2 : n ≤ if isLeap then 366 else 365) :
    1 ≤ (DayOfYearToMonthDay n isLeap).1 ∧ (DayOfYearToMonthDay n isLeap).1 ≤ 12 ∧
    1 ≤ (DayOfYearToMonthDay n isLeap).2 ∧
    (DayOfYearToMonthDay n isLeap).2
      ≤ monthLength isLeap (DayOfYearToMonthDay n isLeap).1 ∧
    daysBeforeMonth isLeap (DayOfYearToMonthDay n isLeap).1
      + (DayOfYearToMonthDay n isLeap).2 = n := by
  have hs : (daysInMonth isLeap).sum = if isLeap then 366 else 365 := by
    cases isLeap <;> decide
  have hl : (daysInMonth isLeap).length = 12 := by cases isLeap <;> rfl
  obtain ⟨k, hk, he, k1, k2⟩ :=
    monthDayLoop_fits (daysInMonth isLeap) 0 n h1 (by rw [hs]; exact h2)
  rw [hl] at hk
  obtain ⟨t1, t2⟩ := daysInMonth_table isLeap k hk
  unfold DayOfYearToMonthDay
  rw [he]
  simp only [zero_add]
  rw [t1] at k2
  rw [t2] at k1 k2 ⊢
  refine ⟨by omega, by omega, k1, k2, by omega⟩

theorem DayOfYearToMonthDay_month (n : Int) (isLeap : Bool) :
    1 ≤ (DayOfYearToMonthDay n isLeap).1 ∧ (DayOfYearToMonthDay n isLeap).1 ≤ 12 := by
  have hl : (daysInMonth isLeap).length = 12 := by cases isLeap <;> rfl
  unfold DayOfYearToMonthDay
  rcases monthDayLoop_month (daysInMonth isLeap) 0 n with h | ⟨h1, h2⟩
  · omega
  · rw [hl] at h2
    push_cast at h2
    omega

/-! ## The line number and the first derivative of line 1 -/

theorem ReadTLELine1_ok_length (s : GoString) (r : TLELine1)
    (h : ReadTLELine1 s = some (.ok r)) : 69 ≤ s.length := by
  by_contra hn
  rw [ReadTLELine1_short s (by omega)] at h
  cases h

theorem ReadTLELine1_lineNumber (s : GoString) (r : TLELine1)
    (h : ReadTLELine1 s = some (.ok r)) : r.LineNumber = [] := by
  have hlen := ReadTLELine1_ok_length s r h
  rw [ReadTLELine1_eq s hlen] at h
  cases h1 : ParseScientificNotation (column s 33 43) with
  | none => rw [h1] at h; cases h
  | some fd =>
    cases h2 : ParseScientificNotation (column s 44 52) with
    | none => rw [h1, h2] at h; cases h
    | some sd =>
      cases h3 : ParseScientificNotation (column s 53 61) with
      | none => rw [h1, h2, h3] at h; cases h
      | some bs =>
        rw [h1, h2, h3] at h
        simp only [Option.some_bind, Option.some.injEq, Except.ok.injEq] at h
        subst h
        rfl

theorem TrimSpace_fraction (sg d1 d2 d3 d4 d5 d6 d7 d8 : Nat) (hs : sg = 43 ∨ sg = 45)
    (h8 : isDigit d8) :
    TrimSpace [sg, 46, d1, d2, d3, d4, d5, d6, d7, d8]
      = [sg, 46, d1, d2, d3, d4, d5, d6, d7, d8] := by
  unfold isDigit at h8
  have a1 : ¬ RuneSelf ≤ sg := by unfold RuneSelf; omega
  have a2 : asciiSpace sg = false := by rcases hs with rfl | rfl <;> rfl
  have a3 : ¬ RuneSelf ≤ d8 := by unfold RuneSelf; omega
  have a4 : asciiSpace d8 = false := by
    unfold asciiSpace
    simp
    omega
  rw [TrimSpace, if_neg a1, a2]
  simp only [Bool.false_eq_true, if_false, List.reverse_cons, List.reverse_nil, List.nil_append,
    List.cons_append, List.singleton_append]
  rw [trimSpaceEnd, if_neg a3, a4]
  simp

theorem firstDerivative_text (sg d1 d2 d3 d4 d5 d6 d7 d8 : Nat) :
    ParseScientificNotation [sg, 46, d1, d2, d3, d4, d5, d6, d7, d8]
      = some [sg, 46, d1, d2, d3, d4, d5, d6, 101, d7, d8] := by
  have := ParseScientificNotation_append [sg, 46, d1, d2, d3, d4, d5, d6] d7 d8
  rw [if_pos (by simp)] at this
  exact this

theorem readDigits_two (a b : Nat) (ha : isDigit a) (hb : isDigit b) :
    readDigits [a, b] = some ((a - 48) * 10 + (b - 48)) := by
  rw [readDigits_cons a _ ha, readDigits_one b hb]
  simp

theorem readDigits_six (a b c d e f : Nat) (ha : isDigit a) (hb : isDigit b) (hc : isDigit c)
    (hd : isDigit d) (he : isDigit e) (hf : isDigit f) :
    readDigits [a, b, c, d, e, f]
      = some ((a - 48) * 100000 + ((b - 48) * 10000 +
          ((c - 48) * 1000 + ((d - 48) * 100 + ((e - 48) * 10 + (f - 48)))))) := by
  rw [readDigits_cons a _ ha, readDigits_five b c d e f hb hc hd he hf]
  simp only [Option.map_some', List.length_cons, List.length_nil, Option.some.injEq]
  norm_num

theorem readDigits_eight (a b c d e f g h : Nat) (ha : isDigit a) (hb : isDigit b)
    (hc : isDigit c) (hd : isDigit d) (he : isDigit e) (hf : isDigit f) (hg : isDigit g)
    (hh : isDigit h) :
    readDigits [a, b, c, d, e, f, g, h]
      = some (((a - 48) * 100000 + ((b - 48) * 10000 +
          ((c - 48) * 1000 + ((d - 48) * 100 + ((e - 48) * 10 + (f - 48)))))) * 100
          + ((g - 48) * 10 + (h - 48))) := by
  rw [readDigits_cons a _ ha, readDigits_cons b _ hb, readDigits_six c d e f g h hc hd he hf hg hh]
  simp only [Option.map_some', List.length_cons, List.length_nil, Option.some.injEq]
  ring

theorem firstDerivative_value (sg d1 d2 d3 d4 d5 d6 d7 d8 : Nat) (hs : sg = 43 ∨ sg = 45)
    (h1 : isDigit d1) (h2 : isDigit d2) (h3 : isDigit d3) (h4 : isDigit d4) (h5 : isDigit d5)
    (h6 : isDigit d6) (h7 : isDigit d7) (h8 : isDigit d8) :
    ∃ m x : Nat, readDigits [d1, d2, d3, d4, d5, d6] = some m ∧
      readDigits [d7, d8] = some x ∧
      decimalValue [sg, 46, d1, d2, d3, d4, d5, d6, 101, d7, d8]
        = some ((splitSign [sg]).1 * ((m : ℚ) / 10 ^ 6) * 10 ^ x) ∧
      fractionValue [sg, 46, d1, d2, d3, d4, d5, d6, d7, d8]
        = some ((splitSign [sg]).1 * (((m * 100 + x : Nat) : ℚ) / 10 ^ 8)) := by
  refine ⟨_, _, readDigits_six d1 d2 d3 d4 d5 d6 h1 h2 h3 h4 h5 h6, readDigits_two d7 d8 h7 h8,
    ?_, ?_⟩
  · have c1 : cutAt 101 [46, d1, d2, d3, d4, d5, d6, 101, d7, d8]
        = ([46, d1, d2, d3, d4, d5, d6], [d7, d8]) := by
      unfold isDigit at *
      rw [cutAt_cons_ne _ _ _ (by omega), cutAt_cons_ne _ _ _ (by omega),
        cutAt_cons_ne _ _ _ (by omega), cutAt_cons_ne _ _ _ (by omega),
        cutAt_cons_ne _ _ _ (by omega), cutAt_cons_ne _ _ _ (by omega),
        cutAt_cons_ne _ _ _ (by omega), cutAt_cons_self]
    have c2 : cutAt 46 [46, d1, d2, d3, d4, d5, d6] = ([], [d1, d2, d3, d4, d5, d6]) :=
      cutAt_cons_self _ _
    unfold decimalValue
    simp only [splitSign_sign sg _ hs, c1, c2, splitSign_digit d7 [d8] h7]
    rw [if_neg (by simp)]
    simp only [readDigits_nil, readDigits_six d1 d2 d3 d4 d5 d6 h1 h2 h3 h4 h5 h6,
      readDigits_two d7 d8 h7 h8, Option.bind_eq_bind, Option.some_bind, List.length_cons,
      List.length_nil, Int.one_mul, zpow_natCast]
    congr 1
    push_cast
    simp
  · unfold fractionValue
    simp only [if_pos hs, readDigits_eight d1 d2 d3 d4 d5 d6 d7 d8 h1 h2 h3 h4 h5 h6 h7 h8,
      Option.bind_eq_bind, Option.some_bind, splitSign_sign sg _ hs]

/-! ## The record assembler -/

theorem ReadTLELine1_error (s : GoString) (e : TLEError)
    (h : ReadTLELine1 s = some (.error e)) : e = .line1TooShort s.length ∧ s.length < 69 := by
  by_cases hl : s.length < 69
  · rw [ReadTLELine1_short s hl] at h
    simp only [Option.some.injEq, Except.error.injEq] at h
    exact ⟨h.symm, hl⟩
  · rw [ReadTLELine1_eq s (by omega)] at h
    cases h1 : ParseScientificNotation (column s 33 43) <;>
      cases h2 : ParseScientificNotation (column s 44 52) <;>
      cases h3 : ParseScientificNotation (column s 53 61) <;>
      rw [h1, h2, h3] at h <;> cases h

theorem ReadTLELine2_error (s : GoString) (e : TLEError)
    (h : ReadTLELine2 s = some (.error e)) : e = .line2TooShort s.length ∧ s.length < 69 := by
  by_cases hl : s.length < 69
  · rw [ReadTLELine2_short s hl] at h
    simp only [Option.some.injEq, Except.error.injEq] at h
    exact ⟨h.symm, hl⟩
  · rw [ReadTLELine2_eq s (by omega)] at h
    cases h

theorem ReadTLELine2_ok_length (s : GoString) (r : TLELine2)
    (h : ReadTLELine2 s = some (.ok r)) : 69 ≤ s.length := by
  by_contra hn
  rw [ReadTLELine2_short s (by omega)] at h
  cases h

theorem HasPrefix_two_bytes (l : GoString) (a b : Nat) :
    HasPrefix l [a, b] = true ↔ ∃ t, l = a :: b :: t := by
  match l with
  | [] => simp [HasPrefix, List.isPrefixOf]
  | [c] => simp [HasPrefix, List.isPrefixOf]
  | x :: y :: t =>
    simp only [HasPrefix, List.isPrefixOf, Bool.and_true, Bool.and_eq_true, beq_iff_eq,
      List.cons.injEq]
    constructor
    · rintro ⟨rfl, rfl⟩; exact ⟨t, rfl, rfl, rfl⟩
    · rintro ⟨w, rfl, rfl, -⟩; exact ⟨rfl, rfl⟩

theorem HasPrefix_one (l : GoString) :
    HasPrefix l (bytes "1 ") = true ↔ ∃ t, l = 49 :: 32 :: t :=
  HasPrefix_two_bytes l 49 32

theorem HasPrefix_two (l : GoString) :
    HasPrefix l (bytes "2 ") = true ↔ ∃ t, l = 50 :: 32 :: t :=
  HasPrefix_two_bytes l 50 32

theorem HasPrefix_one_not_two (l : GoString) (h : HasPrefix l (bytes "1 ") = true) :
    HasPrefix l (bytes "2 ") = false := by
  obtain ⟨t, rfl⟩ := (HasPrefix_one l).1 h
  rfl

/-- What one step of the loop can return on a line. -/
theorem readStep_cases (acc : List TLE × TLE) (l : GoString) :
    readStep acc l = none ∨
    (∃ n, readStep acc l = some (.error (.line1TooShort n))) ∨
    (∃ n, readStep acc l = some (.error (.line2TooShort n))) ∨
    (∃ acc2, readStep acc l = some (.ok acc2)) := by
  unfold readStep
  split_ifs with h1 h2
  · cases h : ReadTLELine1 l with
    | none => left; rfl
    | some x =>
      cases x with
      | error e =>
        right; left
        exact ⟨_, by rw [(ReadTLELine1_error l e h).1]⟩
      | ok r => right; right; right; exact ⟨_, rfl⟩
  · cases hf : (Fields l)[1]? with
    | none => left; rfl
    | some id =>
      cases h : ReadTLELine2 l with
      | none => left; rfl
      | some x =>
        cases x with
        | error e =>
          right; right; left
          exact ⟨_, by simp only; rw [(ReadTLELine2_error l e h).1]⟩
        | ok r => right; right; right; exact ⟨_, rfl⟩
  · right; right; right; exact ⟨_, rfl⟩

/-- A data line of fewer than 69 bytes never lets the step go on. -/
theorem readStep_short (acc : List TLE × TLE) (l : GoString)
    (hd : HasPrefix l (bytes "1 ") = true ∨ HasPrefix l (bytes "2 ") = true)
    (hs : l.length < 69) (acc2 : List TLE × TLE) : readStep acc l ≠ some (.ok acc2) := by
  unfold readStep
  by_cases h1 : HasPrefix l (bytes "1 ") = true
  · rw [if_pos h1, ReadTLELine1_short l hs]
    simp
  · rw [if_neg h1]
    have h2 : HasPrefix l (bytes "2 ") = true := by tauto
    rw [if_pos h2, ReadTLELine2_short l hs]
    cases (Fields l)[1]? <;> simp

theorem readLoop_cases (lines : List GoString) (acc : List TLE × TLE) :
    readLoop lines acc = none ∨
    (∃ n, readLoop lines acc = some (.error (.line1TooShort n))) ∨
    (∃ n, readLoop lines acc = some (.error (.line2TooShort n))) ∨
    (∃ rs, readLoop lines acc = some (.ok rs)) := by
  induction lines generalizing acc with
  | nil => right; right; right; exact ⟨_, rfl⟩
  | cons l rest ih =>
    rw [readLoop]
    rcases readStep_cases acc l with h | ⟨n, h⟩ | ⟨n, h⟩ | ⟨acc2, h⟩
    · left; rw [h]
    · right; left; exact ⟨n, by rw [h]⟩
    · right; right; left; exact ⟨n, by rw [h]⟩
    · rw [h]; exact ih acc2

theorem readLoop_short (lines : List GoString) (acc : List TLE × TLE)
    (h : ∃ l ∈ lines, (HasPrefix l (bytes "1 ") = true ∨ HasPrefix l (bytes "2 ") = true) ∧
      l.length < 69) (rs : List TLE) : readLoop lines acc ≠ some (.ok rs) := by
  induction lines generalizing acc with
  | nil => simp at h
  | cons l rest ih =>
    rw [readLoop]
    obtain ⟨x, hx, hd, hs⟩ := h
    rcases List.mem_cons.1 hx with rfl | hx'
    · have := readStep_short acc x hd hs
      rcases readStep_cases acc x with h | ⟨n, h⟩ | ⟨n, h⟩ | ⟨acc2, h⟩
      · rw [h]; simp
      · rw [h]; simp
      · rw [h]; simp
      · exact absurd h (this acc2)
    · rcases readStep_cases acc l with h | ⟨n, h⟩ | ⟨n, h⟩ | ⟨acc2, h⟩
      · rw [h]; simp
      · rw [h]; simp
      · rw [h]; simp
      · rw [h]; exact ih acc2 ⟨x, hx', hd, hs⟩

theorem getLast?_filter_snoc (p : GoString → Bool) (seg : List GoString) (l : GoString) :
    ((seg ++ [l]).filter p).getLast? = if p l then some l else (seg.filter p).getLast? := by
  rw [List.filter_append]
  by_cases h : p l = true
  · simp [h]
  · simp [h]

theorem pendingFrom_zero : pendingFrom [] zeroTLE := ⟨rfl, rfl, rfl, rfl⟩

theorem readLoop_blocks (lines : List GoString) (acc : List TLE) (cur : TLE)
    (seg : List GoString) (rs : List TLE)
    (h : readLoop lines (acc, cur) = some (.ok rs)) (hp : pendingFrom seg cur) :
    ∃ rs2, rs = acc ++ rs2 ∧
      List.Forall₂ (fun r b => assembledFrom b.1 b.2 r) rs2 (blocksLoop lines seg) := by
  induction lines generalizing acc cur seg with
  | nil =>
    simp only [readLoop, Option.some.injEq, Except.ok.injEq] at h
    exact ⟨[], by simp [h], by simp [blocksLoop]⟩
  | cons l rest ih =>
    obtain ⟨p1, p2, p3, p4⟩ := hp
    rw [readLoop] at h
    unfold readStep at h
    by_cases h1 : HasPrefix l (bytes "1 ") = true
    · have h2 := HasPrefix_one_not_two l h1
      rw [if_pos h1] at h
      cases hr : ReadTLELine1 l with
      | none => rw [hr] at h; cases h
      | some x =>
        cases x with
        | error e => rw [hr] at h; cases h
        | ok l1 =>
          rw [hr] at h
          simp only at h
          rw [blocksLoop, h2]
          simp only [Bool.false_eq_true, if_false]
          refine ih acc _ (seg ++ [l]) h ⟨p1, p2, ?_, ?_⟩
          · simp only [lastLine1, getLast?_filter_snoc, h1, if_true]
            exact hr
          · simp only [lastName, getLast?_filter_snoc, h1, Bool.not_true, Bool.false_and,
              Bool.false_eq_true, if_false]
            exact p4
    · rw [if_neg h1] at h
      by_cases h2 : HasPrefix l (bytes "2 ") = true
      · rw [if_pos h2] at h
        cases hf : (Fields l)[1]? with
        | none => rw [hf] at h; cases h
        | some id =>
          cases hr : ReadTLELine2 l with
          | none => rw [hf, hr] at h; cases h
          | some x =>
            cases x with
            | error e => rw [hf, hr] at h; cases h
            | ok l2 =>
              rw [hf, hr] at h
              simp only at h
              obtain ⟨rs2, e2, f2⟩ := ih _ _ [] h pendingFrom_zero
              rw [blocksLoop, if_pos h2]
              refine ⟨{ cur with NoradID := id, Line2 := l2 } :: rs2, by rw [e2]; simp,
                List.Forall₂.cons ?_ f2⟩
              exact ⟨hr, hf, p3, p4⟩
      · rw [if_neg h2] at h
        simp only at h
        rw [blocksLoop, if_neg h2]
        refine ih acc _ (seg ++ [l]) h ⟨p1, p2, ?_, ?_⟩
        · simp only [lastLine1, getLast?_filter_snoc, h1, Bool.false_eq_true, if_false]
          exact p3
        · simp only [lastName, getLast?_filter_snoc, h1, h2, Bool.not_false, Bool.and_self,
            if_true]

theorem blocksLoop_snd (lines : List GoString) (seg : List GoString) :
    (blocksLoop lines seg).map Prod.snd = lines.filter fun l => HasPrefix l (bytes "2 ") := by
  induction lines generalizing seg with
  | nil => rfl
  | cons l rest ih =>
    rw [blocksLoop]
    by_cases h : HasPrefix l (bytes "2 ") = true
    · rw [if_pos h]
      simp [h, ih]
    · rw [if_neg h]
      simp [h, ih]

theorem asciiSpace_of_printable (c : Nat) (h : 33 ≤ c ∧ c ≤ 126) : asciiSpace c = false := by
  unfold asciiSpace
  simp
  omega

theorem IsSpace_of_printable (c : Nat) (h : 33 ≤ c ∧ c ≤ 126) : IsSpace c = false := by
  unfold IsSpace
  rw [if_pos (by omega)]
  simp
  omega

theorem DecodeRuneInString_ascii (c : Nat) (s : GoString) (h : c < 128) :
    DecodeRuneInString (c :: s) = (c, 1) := by
  rw [DecodeRuneInString, if_pos h]

theorem fieldsLoop_run (cat rest cur : GoString) (hc : ∀ c ∈ cat, 33 ≤ c ∧ c ≤ 126)
    (hne : cur ++ cat ≠ []) :
    fieldsLoop (cat ++ 32 :: rest) cur = (cur ++ cat) :: fieldsLoop rest [] := by
  induction cat generalizing cur with
  | nil =>
    simp only [List.append_nil] at hne
    simp only [List.nil_append, List.append_nil]
    rw [fieldsLoop, show asciiSpace 32 = true from rfl]
    simp [hne]
  | cons c t ih =>
    have hcs := asciiSpace_of_printable c (hc c (List.mem_cons_self _ _))
    simp only [List.cons_append]
    rw [fieldsLoop, hcs]
    simp only [Bool.false_eq_true, if_false]
    rw [ih (cur ++ [c]) (fun x hx => hc x (List.mem_cons_of_mem _ hx)) (by simp)]
    simp

theorem fieldsFuncLoop_run (cat rest cur : GoString) (fuel : Nat)
    (hc : ∀ c ∈ cat, 33 ≤ c ∧ c ≤ 126) (hne : cur ++ cat ≠ [])
    (hf : cat.length + 1 + rest.length ≤ fuel) :
    fieldsFuncLoop fuel (cat ++ 32 :: rest) cur
      = (cur ++ cat) :: fieldsFuncLoop (fuel - cat.length - 1) rest [] := by
  induction cat generalizing cur fuel with
  | nil =>
    simp only [List.append_nil] at hne
    simp only [List.nil_append, List.append_nil, List.length_nil, Nat.sub_zero]
    obtain ⟨k, rfl⟩ : ∃ k, fuel = k + 1 := ⟨fuel - 1, by simp at hf; omega⟩
    rw [fieldsFuncLoop]
    simp only [DecodeRuneInString_ascii 32 rest (by omega), show IsSpace 32 = true from rfl,
      if_true, hne, if_false, List.drop_succ_cons, List.drop_zero, Nat.add_sub_cancel]
  | cons c t ih =>
    have hp := hc c (List.mem_cons_self _ _)
    obtain ⟨k, rfl⟩ : ∃ k, fuel = k + 1 := ⟨fuel - 1, by simp at hf; omega⟩
    simp only [List.cons_append]
    rw [fieldsFuncLoop]
    simp only [DecodeRuneInString_ascii c _ (by omega), IsSpace_of_printable c hp,
      Bool.false_eq_true, if_false, List.drop_succ_cons, List.drop_zero, List.take_succ_cons,
      List.take_zero]
    rw [ih (cur ++ [c]) k (fun x hx => hc x (List.mem_cons_of_mem _ hx)) (by simp)
      (by simp at hf ⊢; omega)]
    simp only [List.append_assoc, List.singleton_append, List.length_cons]
    congr 2
    omega

/-- The second field of a line that starts with "2 ", some printable bytes
and a blank is those printable bytes. -/
theorem Fields_second (cat rest : GoString) (hc : ∀ c ∈ cat, 33 ≤ c ∧ c ≤ 126)
    (hne : cat ≠ []) :
    (Fields (bytes "2 " ++ cat ++ 32 :: rest))[1]? = some cat := by
  have e : bytes "2 " ++ cat ++ 32 :: rest = [50] ++ 32 :: (cat ++ 32 :: rest) := by
    simp [bytes]
  unfold Fields
  split_ifs
  · rw [e]
    have h1 := fieldsFuncLoop_run [50] (cat ++ 32 :: rest) [] ([50] ++ 32 :: (cat ++ 32 :: rest)).length
      (by simp) (by simp) (by simp; omega)
    rw [h1, fieldsFuncLoop_run cat rest [] _ hc (by simpa using hne) (by simp; omega)]
    simp
  · rw [e, fieldsLoop_run [50] _ [] (by simp) (by simp)]
    rw [fieldsLoop_run cat rest [] hc (by simpa using hne)]
    simp

theorem readLoop_no_line2 (tail : List GoString) (acc : List TLE) (cur : TLE)
    (rs : List TLE) (ht : ∀ l ∈ tail, HasPrefix l (bytes "2 ") = false)
    (h : readLoop tail (acc, cur) = some (.ok rs)) : rs = acc := by
  induction tail generalizing cur with
  | nil =>
    simp only [readLoop, Option.some.injEq, Except.ok.injEq] at h
    exact h.symm
  | cons l rest ih =>
    have h2 := ht l (List.mem_cons_self _ _)
    rw [readLoop] at h
    unfold readStep at h
    rw [h2] at h
    by_cases h1 : HasPrefix l (bytes "1 ") = true
    · rw [if_pos h1] at h
      cases hr : ReadTLELine1 l with
      | none => rw [hr] at h; cases h
      | some x =>
        cases x with
        | error e => rw [hr] at h; cases h
        | ok l1 =>
          rw [hr] at h
          exact ih _ (fun x hx => ht x (List.mem_cons_of_mem _ hx)) h
    · rw [if_neg h1] at h
      simp only [Bool.false_eq_true, if_false] at h
      exact ih _ (fun x hx => ht x (List.mem_cons_of_mem _ hx)) h

theorem readLoop_append_tail (lines tail : List GoString) (acc : List TLE × TLE)
    (rs rs2 : List TLE) (ht : ∀ l ∈ tail, HasPrefix l (bytes "2 ") = false)
    (h : readLoop lines acc = some (.ok rs))
    (h2 : readLoop (lines ++ tail) acc = some (.ok rs2)) : rs2 = rs := by
  induction lines generalizing acc with
  | nil =>
    simp only [readLoop, Option.some.injEq, Except.ok.injEq] at h
    rw [← h]
    exact readLoop_no_line2 tail acc.1 acc.2 rs2 ht h2
  | cons l rest ih =>
    rw [List.cons_append, readLoop] at h2
    rw [readLoop] at h
    rcases readStep_cases acc l with e | ⟨n, e⟩ | ⟨n, e⟩ | ⟨acc2, e⟩
    · rw [e] at h; cases h
    · rw [e] at h; cases h
    · rw [e] at h; cases h
    · rw [e] at h h2
      exact ih acc2 h h2

theorem assembled_lineString (rs : List TLE) (bs : List (List GoString × GoString))
    (h : List.Forall₂ (fun r b => assembledFrom b.1 b.2 r) rs bs) :
    rs.map (fun r => r.Line2.LineString) = bs.map Prod.snd := by
  induction h with
  | nil => rfl
  | @cons r b rs bs hab _ ih =>
    have hl := ReadTLELine2_ok_length b.2 r.Line2 hab.1
    have he := hab.1
    rw [ReadTLELine2_eq b.2 hl] at he
    simp only [Option.some.injEq, Except.ok.injEq] at he
    simp only [List.map_cons, ih, ← he]

theorem ReadTLEFile_three (name l1 cat rest : GoString)
    (hn1 : HasPrefix name (bytes "1 ") = false) (hn2 : HasPrefix name (bytes "2 ") = false)
    (h1 : HasPrefix l1 (bytes "1 ") = true) (hl1 : l1.length = 69)
    (hl2 : (bytes "2 " ++ cat ++ 32 :: rest).length = 69)
    (hc : ∀ c ∈ cat, 33 ≤ c ∧ c ≤ 126) (hne : cat ≠ [])
    (hp : ReadTLELine1 l1 ≠ none) :
    ∃ r, ReadTLEFile [name, l1, bytes "2 " ++ cat ++ 32 :: rest] = some (.ok [r]) ∧
      r.Name = TrimSpace name ∧ r.NoradID = cat := by
  obtain ⟨x, hx⟩ : ∃ x, ReadTLELine1 l1 = some (.ok x) := by
    cases h : ReadTLELine1 l1 with
    | none => exact absurd h hp
    | some y =>
      cases y with
      | error e =>
        have := (ReadTLELine1_error l1 e h).2
        omega
      | ok x => exact ⟨x, rfl⟩
  have h21 : HasPrefix (bytes "2 " ++ cat ++ 32 :: rest) (bytes "1 ") = false := by
    simp [bytes, HasPrefix, List.isPrefixOf]
  have h22 : HasPrefix (bytes "2 " ++ cat ++ 32 :: rest) (bytes "2 ") = true := by
    simp [bytes, HasPrefix, List.isPrefixOf]
  obtain ⟨y, hy⟩ : ∃ y, ReadTLELine2 (bytes "2 " ++ cat ++ 32 :: rest) = some (.ok y) :=
    ⟨_, ReadTLELine2_eq _ (le_of_eq hl2.symm)⟩
  refine ⟨{ Name := TrimSpace name, NoradID := cat, Line1 := x, Line2 := y }, ?_, rfl, rfl⟩
  unfold ReadTLEFile
  simp only [readLoop, readStep, hn1, hn2, h1, h21, h22, hx, hy, Bool.false_eq_true, if_false,
    if_true, Fields_second cat rest hc hne, List.nil_append]

/-! ## The claims on the assembler, the calendar helper and the line number -/

/-- C14.  The canonical ISS (ZARYA) three-line example gives exactly one
record, with Name "ISS (ZARYA)" and NoradID "25544", and so does every name
line followed by a 69-byte "1 " line on which `ReadTLELine1` returns and a
69-byte "2 " line whose columns 2 to 6 hold a catalog number of printable bytes
followed by a blank.  With the 69-byte "1 " line `loneZeroBstarLine1` in the
place of the ISS line 1, the loop panics and returns no record. -/
theorem ReadTLEFile_three_lines :
    (∃ r, ReadTLEFile [issName, issLine1, issLine2] = some (.ok [r]) ∧
      r.Name = bytes "ISS (ZARYA)" ∧ r.NoradID = bytes "25544") ∧
    (∀ name l1 cat rest : GoString,
      HasPrefix name (bytes "1 ") = false → HasPrefix name (bytes "2 ") = false →
      HasPrefix l1 (bytes "1 ") = true → l1.length = 69 →
      cat.length = 5 → (∀ c ∈ cat, 33 ≤ c ∧ c ≤ 126) →
      (bytes "2 " ++ cat ++ 32 :: rest).length = 69 →
      ReadTLELine1 l1 ≠ none →
      ∃ r, ReadTLEFile [name, l1, bytes "2 " ++ cat ++ 32 :: rest] = some (.ok [r]) ∧
        r.Name = TrimSpace name ∧ r.NoradID = cat) ∧
    (HasPrefix issName (bytes "1 ") = false ∧ HasPrefix issName (bytes "2 ") = false ∧
      HasPrefix loneZeroBstarLine1 (bytes "1 ") = true ∧ loneZeroBstarLine1.length = 69 ∧
      issLine2 = bytes "2 " ++ bytes "25544" ++ 32 :: issLine2.drop 8 ∧
      issLine2.length = 69 ∧
      ReadTLEFile [issName, loneZeroBstarLine1, issLine2] = none) := by
  refine ⟨⟨_, rfl, by decide, by decide⟩, ?_, by decide⟩
  intro name l1 cat rest hn1 hn2 h1 hl1 hcl hc hl2 hp
  exact ReadTLEFile_three name l1 cat rest hn1 hn2 h1 hl1 hl2 hc
    (by intro h; rw [h] at hcl; cases hcl) hp

/-- C16.  An input with a line that starts with "1 " or "2 " and has fewer than
69 bytes never gives records: the loop returns a too-short error or panics.
It panics on the one-line input "2 ", where `components[1]` is out of range
before `ReadTLELine2` is called. -/
theorem ReadTLEFile_short_line :
    ReadTLEFile [bytes "2 "] = none ∧
    (∀ lines : List GoString,
      (∃ l ∈ lines, (HasPrefix l (bytes "1 ") = true ∨ HasPrefix l (bytes "2 ") = true) ∧
        l.length < 69) →
      ReadTLEFile lines = none ∨
      (∃ n, ReadTLEFile lines = some (.error (.line1TooShort n))) ∨
      (∃ n, ReadTLEFile lines = some (.error (.line2TooShort n)))) := by
  refine ⟨by decide, ?_⟩
  intro lines h
  rcases readLoop_cases lines ([], zeroTLE) with e | e | e | ⟨rs, e⟩
  · left; exact e
  · right; left; exact e
  · right; right; exact e
  · exact absurd e (readLoop_short lines _ h rs)

/-- C17.  The record `ReadTLELine1` returns never has its `LineNumber` set: the
field is empty on every line, also on the ISS line 1, which starts with `'1'`. -/
theorem ReadTLELine1_line_number_empty :
    (index issLine1 0 = some 49 ∧ 69 ≤ issLine1.length ∧
      ∃ r, ReadTLELine1 issLine1 = some (.ok r) ∧ r.LineNumber = [] ∧
        r.LineNumber ≠ bytes "1") ∧
    (∀ (line : GoString) (r : TLELine1),
      ReadTLELine1 line = some (.ok r) → r.LineNumber = []) := by
  refine ⟨⟨by decide, by decide, _, rfl, by decide, by decide⟩, ReadTLELine1_lineNumber⟩

/-- C18.  When the loop of `ReadTLEFile` succeeds, its records are, in input
order, one for each line that starts with "2 ": the raw text of the record's
`Line2` is that line, its `Line1` is the parse of the last "1 " line since the
previous "2 " line (the zero value when there is none) and its `Name` the
trimmed last other line since then (empty when there is none).  Lines after
the last "2 " line add nothing to the output. -/
theorem ReadTLEFile_blocks (lines : List GoString) (rs : List TLE)
    (h : ReadTLEFile lines = some (.ok rs)) :
    rs.length = (lines.filter fun l => HasPrefix l (bytes "2 ")).length ∧
    rs.map (fun r => r.Line2.LineString) = (lines.filter fun l => HasPrefix l (bytes "2 ")) ∧
    (blocks lines).map Prod.snd = (lines.filter fun l => HasPrefix l (bytes "2 ")) ∧
    List.Forall₂ (fun r b => assembledFrom b.1 b.2 r) rs (blocks lines) ∧
    (∀ (tail : List GoString) (rs2 : List TLE),
      (∀ l ∈ tail, HasPrefix l (bytes "2 ") = false) →
      ReadTLEFile (lines ++ tail) = some (.ok rs2) → rs2 = rs) := by
  obtain ⟨rs2, e, f⟩ := readLoop_blocks lines [] zeroTLE [] rs h pendingFrom_zero
  rw [List.nil_append] at e
  subst e
  have hm := assembled_lineString rs (blocks lines) f
  rw [blocks, blocksLoop_snd] at hm
  refine ⟨?_, hm, blocksLoop_snd lines [], f, ?_⟩
  · rw [← hm, List.length_map]
  · intro tail rs2 ht h2
    exact readLoop_append_tail lines tail _ rs rs2 ht h h2

/-- C18, at the ISS example followed by a further name line: the loop returns
one record, for the one "2 " line, with the parse of the ISS line 1 and the
name "ISS (ZARYA)"; the trailing name line gives no record. -/
theorem ReadTLEFile_blocks_witness :
    ∃ r l1, ReadTLEFile [issName, issLine1, issLine2, bytes "NEXT"] = some (.ok [r]) ∧
      blocks [issName, issLine1, issLine2, bytes "NEXT"] = [([issName, issLine1], issLine2)] ∧
      r.Line2.LineString = issLine2 ∧
      ReadTLELine1 issLine1 = some (.ok l1) ∧ r.Line1 = l1 ∧
      r.Name = bytes "ISS (ZARYA)" := by
  have h : ∃ r, ReadTLEFile [issName, issLine1, issLine2, bytes "NEXT"] = some (.ok [r]) :=
    ⟨_, rfl⟩
  obtain ⟨r, hr⟩ := h
  obtain ⟨-, h2, -, h4, -⟩ := ReadTLEFile_blocks _ _ hr
  have hb : blocks [issName, issLine1, issLine2, bytes "NEXT"]
      = [([issName, issLine1], issLine2)] := by decide
  rw [hb] at h4
  obtain ⟨-, -, a3, a4⟩ := (List.forall₂_cons.1 h4).1
  have e1 : lastLine1 [issName, issLine1] = some issLine1 := by decide
  have e2 : lastName [issName, issLine1] = some issName := by decide
  simp only [e1, e2] at a3 a4
  refine ⟨r, r.Line1, hr, hb, ?_, a3, rfl, ?_⟩
  · have hf : ([issName, issLine1, issLine2, bytes "NEXT"].filter
        fun l => HasPrefix l (bytes "2 ")) = [issLine2] := by decide
    rw [hf] at h2
    simpa using h2
  · rw [a4]; decide

/-- C19.  For a day of the year between 1 and 365, or 366 under the leap flag,
`DayOfYearToMonthDay` returns a month between 1 and 12 and a day between 1 and
the length of that month, and the days of the months before it plus the day
give the day of the year back.  For any day of the year whatever the month
returned is between 1 and 12, and so never 13. -/
theorem DayOfYearToMonthDay_spec (n : Int) (isLeap : Bool) (h1 : 1 ≤ n)
    (h2 : n ≤ if isLeap then 366 else 365) :
    (1 ≤ (DayOfYearToMonthDay n isLeap).1 ∧ (DayOfYearToMonthDay n isLeap).1 ≤ 12 ∧
      1 ≤ (DayOfYearToMonthDay n isLeap).2 ∧
      (DayOfYearToMonthDay n isLeap).2
        ≤ monthLength isLeap (DayOfYearToMonthDay n isLeap).1 ∧
      daysBeforeMonth isLeap (DayOfYearToMonthDay n isLeap).1
        + (DayOfYearToMonthDay n isLeap).2 = n) ∧
    (∀ (k : Int) (leap : Bool),
      1 ≤ (DayOfYearToMonthDay k leap).1 ∧ (DayOfYearToMonthDay k leap).1 ≤ 12 ∧
      (DayOfYearToMonthDay k leap).1 ≠ 13) := by
  refine ⟨DayOfYearToMonthDay_in_year n isLeap h1 h2, ?_⟩
  intro k leap
  have := DayOfYearToMonthDay_month k leap
  omega

/-- C19, at day 264 of a leap year: it is 20 September, 244 days lying before
September. -/
theorem DayOfYearToMonthDay_spec_witness :
    DayOfYearToMonthDay 264 true = (9, 20) ∧
    monthLength true 9 = 30 ∧ daysBeforeMonth true 9 = 244 ∧
    daysBeforeMonth true (DayOfYearToMonthDay 264 true).1
      + (DayOfYearToMonthDay 264 true).2 = 264 :=
  ⟨by decide, by decide, by decide,
   (DayOfYearToMonthDay_spec 264 true (by decide) (by decide)).1.2.2.2.2⟩

/-- C20.  When columns 33 to 42 of a line hold a sign, a point and eight
digits, the `FirstDerivative` that `ReadTLELine1` returns is the sign, the
point, the first six digits, an `'e'` and the last two digits: read as a
decimal number with exponent it is the six-digit fraction times ten to the
power of the last two digits, not the eight-digit fraction of the column. -/
theorem ReadTLELine1_first_derivative (line : GoString) (r : TLELine1)
    (sg d1 d2 d3 d4 d5 d6 d7 d8 : Nat)
    (hcol : (line.drop 33).take 10 = [sg, 46, d1, d2, d3, d4, d5, d6, d7, d8])
    (hs : sg = 43 ∨ sg = 45)
    (h1 : isDigit d1) (h2 : isDigit d2) (h3 : isDigit d3) (h4 : isDigit d4) (h5 : isDigit d5)
    (h6 : isDigit d6) (h7 : isDigit d7) (h8 : isDigit d8)
    (h : ReadTLELine1 line = some (.ok r)) :
    r.FirstDerivative = [sg, 46, d1, d2, d3, d4, d5, d6, 101, d7, d8] ∧
    ∃ m x : Nat, readDigits [d1, d2, d3, d4, d5, d6] = some m ∧
      readDigits [d7, d8] = some x ∧
      decimalValue r.FirstDerivative = some ((splitSign [sg]).1 * ((m : ℚ) / 10 ^ 6) * 10 ^ x) ∧
      fractionValue [sg, 46, d1, d2, d3, d4, d5, d6, d7, d8]
        = some ((splitSign [sg]).1 * (((m * 100 + x : Nat) : ℚ) / 10 ^ 8)) := by
  have hlen := ReadTLELine1_ok_length line r h
  have hf := (ReadTLELine1_fields_of_ok line r hlen h).2.2.2.2.2.2.2.2.2.2.2.1
  have hc : column line 33 43 = [sg, 46, d1, d2, d3, d4, d5, d6, d7, d8] := by
    unfold column
    rw [hcol]
    exact TrimSpace_fraction sg d1 d2 d3 d4 d5 d6 d7 d8 hs h8
  rw [hc, firstDerivative_text] at hf
  have he : r.FirstDerivative = [sg, 46, d1, d2, d3, d4, d5, d6, 101, d7, d8] :=
    (Option.some.inj hf).symm
  rw [he]
  exact ⟨rfl, firstDerivative_value sg d1 d2 d3 d4 d5 d6 d7 d8 hs h1 h2 h3 h4 h5 h6 h7 h8⟩

/-- C20, at the ISS line 1: columns 33 to 42 hold "-.00002182", which denotes
`-2182/10^8`; the `FirstDerivative` returned is "-.000021e82", which reads as
`-21/10^6 × 10^82`. -/
theorem ReadTLELine1_first_derivative_witness :
    (issLine1.drop 33).take 10 = bytes "-.00002182" ∧
    ∃ r, ReadTLELine1 issLine1 = some (.ok r) ∧
      r.FirstDerivative = bytes "-.000021e82" ∧
      decimalValue r.FirstDerivative = some (-(21 / 10 ^ 6) * 10 ^ 82) ∧
      fractionValue (bytes "-.00002182") = some (-(2182 / 10 ^ 8)) ∧
      decimalValue r.FirstDerivative ≠ fractionValue (bytes "-.00002182") := by
  have hr : ∃ r, ReadTLELine1 issLine1 = some (.ok r) := ⟨_, rfl⟩
  obtain ⟨r, hr⟩ := hr
  obtain ⟨e, m, x, hm, hx, hd, hv⟩ := ReadTLELine1_first_derivative issLine1 r
    45 48 48 48 48 50 49 56 50 (by decide) (by decide) (by decide) (by decide) (by decide)
    (by decide) (by decide) (by decide) (by decide) (by decide) hr
  have em : m = 21 := by
    have : readDigits [48, 48, 48, 48, 50, 49] = some 21 := by decide
    rw [this] at hm
    exact (Option.some.inj hm).symm
  have ex : x = 82 := by
    have : readDigits [56, 50] = some 82 := by decide
    rw [this] at hx
    exact (Option.some.inj hx).symm
  subst em ex
  have es : (splitSign [45]).1 = -1 := rfl
  rw [es] at hd hv
  have hv2 : fractionValue (bytes "-.00002182") = some (-(2182 / 10 ^ 8)) := by
    rw [show bytes "-.00002182" = [45, 46, 48, 48, 48, 48, 50, 49, 56, 50] by decide, hv]
    norm_num
  refine ⟨by decide, r, hr, by rw [e]; decide, ?_, hv2, ?_⟩
  · rw [hd]
    norm_num
  · rw [hd, hv2]
    norm_num

/-! ## Rounding to `float64` -/

theorem roundHalfEven_le (a b : Nat) : 2 * (b * roundHalfEven a b) ≤ 2 * a + b := by
  have h := Nat.div_add_mod a b
  unfold roundHalfEven
  split_ifs <;> (try simp only [Nat.mul_add, Nat.mul_one]) <;> omega

theorem ilog2Loop_spec (fuel : Nat) :
    ∀ n, n ≤ fuel → (0 < n → 2 ^ ilog2Loop fuel n ≤ n) ∧ n < 2 ^ (ilog2Loop fuel n + 1) := by
  induction fuel with
  | zero =>
    intro n hn
    have : n = 0 := by omega
    subst this
    simp [ilog2Loop]
  | succ f ih =>
    intro n hn
    unfold ilog2Loop
    by_cases h2 : n < 2
    · rw [if_pos h2]
      constructor
      · intro h; simpa using h
      · simpa using h2
    · rw [if_neg h2]
      obtain ⟨a, b⟩ := ih (n / 2) (by omega)
      have a1 := a (by omega)
      constructor
      · intro _
        rw [pow_succ]
        omega
      · rw [pow_succ]
        omega

theorem ilog2_self_le (n : Nat) (hn : 0 < n) : 2 ^ ilog2 n ≤ n :=
  (ilog2Loop_spec n n (le_refl n)).1 hn

theorem lt_ilog2_self (n : Nat) : n < 2 ^ (ilog2 n + 1) :=
  (ilog2Loop_spec n n (le_refl n)).2

theorem two_zpow_pred_le (n d : Nat) (hn : 0 < n) :
    (2 : ℚ) ^ ((ilog2 n : Int) - (ilog2 d : Int) - 1) * d ≤ n := by
  have h1 : 2 ^ ilog2 n ≤ n := ilog2_self_le n hn
  have h2 : d < 2 ^ (ilog2 d + 1) := lt_ilog2_self d
  have h1q : (2 : ℚ) ^ (ilog2 n) ≤ n := by exact_mod_cast h1
  have h2q : (d : ℚ) < 2 ^ (ilog2 d + 1) := by exact_mod_cast h2
  have e : (2 : ℚ) ^ ((ilog2 n : Int) - (ilog2 d : Int) - 1) * 2 ^ (ilog2 d + 1)
      = 2 ^ ilog2 n := by
    rw [← zpow_natCast (2 : ℚ) (ilog2 d + 1), ← zpow_natCast (2 : ℚ) (ilog2 n),
      ← zpow_add₀ (by norm_num : (2 : ℚ) ≠ 0)]
    congr 1
    push_cast
    ring
  have hp : (0 : ℚ) < 2 ^ ((ilog2 n : Int) - (ilog2 d : Int) - 1) := by positivity
  calc (2 : ℚ) ^ ((ilog2 n : Int) - (ilog2 d : Int) - 1) * d
      ≤ 2 ^ ((ilog2 n : Int) - (ilog2 d : Int) - 1) * 2 ^ (ilog2 d + 1) :=
        mul_le_mul_of_nonneg_left h2q.le hp.le
    _ = 2 ^ ilog2 n := e
    _ ≤ n := h1q

theorem floorLog2_le (n d : Nat) (hn : 0 < n) (hd : 0 < d) :
    (2 : ℚ) ^ (floorLog2 n d) ≤ (n : ℚ) / d := by
  have hdq : (0 : ℚ) < d := by exact_mod_cast hd
  rw [le_div_iff₀ hdq]
  unfold floorLog2
  generalize hl : (ilog2 n : Int) - (ilog2 d : Int) = l
  have hpred := two_zpow_pred_le n d hn
  rw [hl] at hpred
  simp only
  by_cases h0 : 0 ≤ l
  · simp only [h0, if_true]
    by_cases hc : d * 2 ^ l.toNat ≤ n
    · simp only [hc, if_true]
      have : ((d * 2 ^ l.toNat : Nat) : ℚ) ≤ n := by exact_mod_cast hc
      push_cast at this
      rw [← zpow_natCast, Int.toNat_of_nonneg h0] at this
      linarith
    · simp only [hc, if_false]
      exact hpred
  · simp only [h0, if_false]
    by_cases hc : d ≤ n * 2 ^ (-l).toNat
    · simp only [hc, if_true]
      have : ((d : Nat) : ℚ) ≤ ((n * 2 ^ (-l).toNat : Nat) : ℚ) := by exact_mod_cast hc
      push_cast at this
      rw [← zpow_natCast, Int.toNat_of_nonneg (by omega), zpow_neg] at this
      have hp : (0 : ℚ) < 2 ^ l := by positivity
      calc (2 : ℚ) ^ l * d ≤ 2 ^ l * (n * (2 ^ l)⁻¹) :=
            mul_le_mul_of_nonneg_left this hp.le
        _ = n := by field_simp
    · simp only [hc, if_false]
      exact hpred

theorem roundFloat64_exp (n d : Nat) (hn : 0 < n) :
    (roundFloat64 n d).2 = max (floorLog2 n d - 52) (-1074) := by
  unfold roundFloat64
  rw [if_neg (by omega)]
  simp only
  split_ifs <;> rfl

theorem roundFloat64_le_add (n d : Nat) (hn : 0 < n) (hd : 0 < d) :
    (roundFloat64 n d).toRat ≤ (n : ℚ) / d + 2 ^ (roundFloat64 n d).2 / 2 := by
  have hdq : (0 : ℚ) < d := by exact_mod_cast hd
  unfold roundFloat64 Float64.toRat
  rw [if_neg (by omega)]
  generalize max (floorLog2 n d - 52) (-1074) = e
  simp only
  by_cases he : 0 ≤ e
  · simp only [he, if_true]
    have h := roundHalfEven_le n (d * 2 ^ e.toNat)
    have hq : (2 : ℚ) * ((d * 2 ^ e.toNat) * (roundHalfEven n (d * 2 ^ e.toNat) : ℚ))
        ≤ 2 * n + d * 2 ^ e.toNat := by exact_mod_cast h
    rw [← zpow_natCast (2 : ℚ) e.toNat, Int.toNat_of_nonneg he] at hq
    have hp : (0 : ℚ) < 2 ^ e := by positivity
    rw [← sub_nonneg]
    have : (n : ℚ) / d + 2 ^ e / 2 - (roundHalfEven n (d * 2 ^ e.toNat) : ℚ) * 2 ^ e
        = (2 * n + d * 2 ^ e
            - 2 * ((d * 2 ^ e) * (roundHalfEven n (d * 2 ^ e.toNat) : ℚ))) / (2 * d) := by
      field_simp
      ring
    rw [this]
    apply div_nonneg _ (by positivity)
    linarith
  · simp only [he, if_false]
    have h := roundHalfEven_le (n * 2 ^ (-e).toNat) d
    have hq : (2 : ℚ) * (d * (roundHalfEven (n * 2 ^ (-e).toNat) d : ℚ))
        ≤ 2 * (n * 2 ^ (-e).toNat) + d := by exact_mod_cast h
    rw [← zpow_natCast (2 : ℚ) (-e).toNat, Int.toNat_of_nonneg (by omega), zpow_neg] at hq
    have hp : (0 : ℚ) < 2 ^ e := by positivity
    rw [← sub_nonneg]
    have : (n : ℚ) / d + 2 ^ e / 2 - (roundHalfEven (n * 2 ^ (-e).toNat) d : ℚ) * 2 ^ e
        = (2 * (n * (2 ^ e)⁻¹) + d
            - 2 * (d * (roundHalfEven (n * 2 ^ (-e).toNat) d : ℚ))) * 2 ^ e / (2 * d) := by
      field_simp
      ring
    rw [this]
    apply div_nonneg _ (by positivity)
    apply mul_nonneg _ hp.le
    linarith

/-- The error of rounding to `float64` from above: a relative part of
`2^-53` and an absolute part of `2^-1075`. -/
theorem roundFloat64_le (n d : Nat) (hd : 0 < d) :
    (roundFloat64 n d).toRat ≤ (n : ℚ) / d * (1 + 2 ^ (-53 : Int)) + 2 ^ (-1075 : Int) := by
  have hdq : (0 : ℚ) < d := by exact_mod_cast hd
  by_cases hn : n = 0
  · subst hn
    simp only [roundFloat64, if_true, Float64.toRat, Nat.cast_zero, zero_mul, zero_div, zero_add]
    positivity
  · have hn' : 0 < n := by omega
    have h1 := roundFloat64_le_add n d hn' hd
    have h2 := roundFloat64_exp n d hn'
    have h3 := floorLog2_le n d hn' hd
    have hq : (0 : ℚ) ≤ (n : ℚ) / d := by positivity
    rw [h2] at h1
    rcases max_cases (floorLog2 n d - 52) (-1074) with ⟨hm, -⟩ | ⟨hm, -⟩
    · rw [hm] at h1
      have e : (2 : ℚ) ^ (floorLog2 n d - 52) / 2
          = 2 ^ (floorLog2 n d) * 2 ^ (-53 : Int) := by
        rw [show floorLog2 n d - 52 = floorLog2 n d + (-53) + 1 by ring,
          zpow_add₀ (by norm_num : (2 : ℚ) ≠ 0), zpow_add₀ (by norm_num : (2 : ℚ) ≠ 0)]
        norm_num
      rw [e] at h1
      have hpos : (0 : ℚ) < 2 ^ (-53 : Int) := by positivity
      have hpos2 : (0 : ℚ) < 2 ^ (-1075 : Int) := by positivity
      nlinarith [mul_le_mul_of_nonneg_right h3 hpos.le]
    · rw [hm] at h1
      have e : (2 : ℚ) ^ (-1074 : Int) / 2 = 2 ^ (-1075 : Int) := by
        rw [show (-1074 : Int) = -1075 + 1 by norm_num,
          zpow_add₀ (by norm_num : (2 : ℚ) ≠ 0)]
        norm_num
      rw [e] at h1
      have hpos : (0 : ℚ) < 2 ^ (-53 : Int) := by positivity
      nlinarith [mul_nonneg hq hpos.le]

theorem Float64.toRat_nonneg (x : Float64) : 0 ≤ x.toRat := by
  unfold Float64.toRat
  positivity

theorem Float64.ltOne_iff (x : Float64) : x.ltOne = true ↔ x.toRat < 1 := by
  unfold Float64.ltOne Float64.toRat
  by_cases he : 0 ≤ x.2
  · simp only [he, if_true, decide_eq_true_eq]
    rw [← Int.toNat_of_nonneg he, zpow_natCast]
    constructor
    · intro h
      exact_mod_cast h
    · intro h
      exact_mod_cast h
  · simp only [he, if_false, decide_eq_true_eq]
    have hp : (0 : ℚ) < 2 ^ (-x.2).toNat := by positivity
    have e : (2 : ℚ) ^ x.2 = (2 ^ (-x.2).toNat)⁻¹ := by
      rw [← zpow_natCast, Int.toNat_of_nonneg (by omega), zpow_neg, inv_inv]
    rw [e, ← div_eq_mul_inv, div_lt_one hp]
    constructor
    · intro h
      exact_mod_cast h
    · intro h
      exact_mod_cast h

theorem Float64.mulNat_le (x : Float64) (c : Nat) :
    (x.mulNat c).toRat ≤ x.toRat * c * (1 + 2 ^ (-53 : Int)) + 2 ^ (-1075 : Int) := by
  unfold Float64.mulNat
  by_cases he : 0 ≤ x.2
  · simp only [he, if_true]
    have h := roundFloat64_le (x.1 * c * 2 ^ x.2.toNat) 1 (by omega)
    have e : ((x.1 * c * 2 ^ x.2.toNat : Nat) : ℚ) / (1 : Nat) = x.toRat * c := by
      unfold Float64.toRat
      push_cast
      rw [← zpow_natCast (2 : ℚ) x.2.toNat, Int.toNat_of_nonneg he]
      ring
    rw [e] at h
    exact h
  · simp only [he, if_false]
    have h := roundFloat64_le (x.1 * c) (2 ^ (-x.2).toNat) (by positivity)
    have e : ((x.1 * c : Nat) : ℚ) / ((2 ^ (-x.2).toNat : Nat) : ℚ) = x.toRat * c := by
      unfold Float64.toRat
      push_cast
      rw [← zpow_natCast (2 : ℚ) (-x.2).toNat, Int.toNat_of_nonneg (by omega), zpow_neg]
      field_simp
      ring
    rw [e] at h
    exact h

theorem Float64.round_le (x : Float64) : (x.round : ℚ) ≤ x.toRat + 1 / 2 := by
  unfold Float64.round Float64.toRat
  by_cases he : 0 ≤ x.2
  · simp only [he, if_true]
    push_cast
    rw [← zpow_natCast (2 : ℚ) x.2.toNat, Int.toNat_of_nonneg he]
    linarith
  · simp only [he, if_false]
    have hp : (0 : ℚ) < 2 ^ (-x.2).toNat := by positivity
    have e : (2 : ℚ) ^ x.2 = (2 ^ (-x.2).toNat)⁻¹ := by
      rw [← zpow_natCast, Int.toNat_of_nonneg (by omega), zpow_neg, inv_inv]
    rw [e]
    have h1 : (((2 * x.1 + 2 ^ (-x.2).toNat) / (2 * 2 ^ (-x.2).toNat) : Nat) : ℚ)
        ≤ ((2 * x.1 + 2 ^ (-x.2).toNat : Nat) : ℚ) / ((2 * 2 ^ (-x.2).toNat : Nat) : ℚ) :=
      Nat.cast_div_le
    refine h1.trans (le_of_eq ?_)
    push_cast
    field_simp
    ring

/-! ## The calendar -/

theorem isLeapYear_iff (y : Int) :
    isLeapYear y = true ↔ y % 4 = 0 ∧ (y % 100 ≠ 0 ∨ y % 400 = 0) := by
  simp [isLeapYear]

theorem instant_div (a k r : Int) (hr0 : 0 ≤ r) (hr : r < 86400000000000) :
    (a * 86400000000000 + k * 86400000000000 + r) / 86400000000000 = a + k := by
  omega

/-- The cycles of 400, 100, 4 and 1 years on a day count: for the day `k` of a
year between 1957 and 2056, written as `4 q + s + 1`. -/
theorem yearCycles (q s k : Int) (hs0 : 0 ≤ s) (hs : s ≤ 3) (hq1 : 489 ≤ q) (hq2 : q ≤ 513)
    (hk0 : 0 ≤ k) (hk : k < 365 ∨ (k = 365 ∧ s = 3)) :
    let d0 := 1461 * q + 365 * s - 15 + k
    let n400 := d0 / 146097
    let d1 := d0 - 146097 * n400
    let n100 := d1 / 36524 - d1 / 36524 / 4
    let d2 := d1 - 36524 * n100
    let n4 := d2 / 1461
    let d3 := d2 - 1461 * n4
    let n1 := d3 / 365 - d3 / 365 / 4
    400 * n400 + 100 * n100 + 4 * n4 + n1 + 1 = 4 * q + s + 1 ∧ d3 - 365 * n1 = k := by
  intro d0 n400 d1 n100 d2 n4 d3 n1
  by_cases hc : q ≤ 499
  · have h400 : n400 = 4 := by simp only [n400, d0]; omega
    have h100 : n100 = 3 := by simp only [n100, d1, h400, d0]; omega
    have h4 : n4 = q - 475 := by simp only [n4, d2, h100, d1, h400, d0]; omega
    have hd3 : d3 = 365 * s + k := by simp only [d3, h4, d2, h100, d1, h400, d0]; omega
    have h1 : n1 = s := by simp only [n1, hd3]; omega
    rw [h400, h100, h4, h1, hd3]
    constructor <;> omega
  · have h400 : n400 = 5 := by simp only [n400, d0]; omega
    have h100 : n100 = 0 := by simp only [n100, d1, h400, d0]; omega
    have h4 : n4 = q - 500 := by simp only [n4, d2, h100, d1, h400, d0]; omega
    have hd3 : d3 = 365 * s + k := by simp only [d3, h4, d2, h100, d1, h400, d0]; omega
    have h1 : n1 = s := by simp only [n1, hd3]; omega
    rw [h400, h100, h4, h1, hd3]
    constructor <;> omega

/-- The year and the day of the year of an instant within a year between 1957
and 2056. -/
theorem yearAndDay_in_year (y k r : Int) (hy1 : 1957 ≤ y) (hy2 : y ≤ 2056)
    (hk0 : 0 ≤ k) (hk : k < if isLeapYear y then 366 else 365)
    (hr0 : 0 ≤ r) (hr : r < nanosInDay) :
    yearAndDay (startOfYear y + k * nanosInDay + r) = (y, k) := by
  have hl := isLeapYear_iff y
  have hk2 : k < 365 ∨ (k = 365 ∧ (y - 1) % 4 = 3) := by
    by_cases h : isLeapYear y = true
    · rw [if_pos h] at hk
      have := (hl.1 h).1
      omega
    · rw [if_neg h] at hk
      omega
  have ey : 4 * ((y - 1) / 4) + (y - 1) % 4 + 1 = y := by omega
  have hq1 : 489 ≤ (y - 1) / 4 := by omega
  have hq2 : (y - 1) / 4 ≤ 513 := by omega
  have hs1 : 0 ≤ (y - 1) % 4 := by omega
  have hs2 : (y - 1) % 4 ≤ 3 := by omega
  have ed : (startOfYear y + k * nanosInDay + r) / nanosInDay + 719162
      = 1461 * ((y - 1) / 4) + 365 * ((y - 1) % 4) - 15 + k := by
    unfold startOfYear daysBeforeYear nanosInDay at *
    simp only [Nat.cast_ofNat] at *
    rw [instant_div _ k r hr0 hr]
    omega
  have hc := yearCycles ((y - 1) / 4) ((y - 1) % 4) k hs1 hs2 hq1 hq2 hk0 hk2
  unfold yearAndDay
  simp only [ed]
  simp only at hc
  rw [Prod.mk.injEq]
  exact ⟨hc.1.trans ey, hc.2⟩

/-! ## Digit strings -/

theorem readDigits_all (s : GoString) (h : ∀ c ∈ s, isDigit c) :
    ∃ n, readDigits s = some n ∧ n < 10 ^ s.length := by
  induction s with
  | nil => exact ⟨0, rfl, by simp⟩
  | cons c t ih =>
    obtain ⟨n, hn, hl⟩ := ih (fun x hx => h x (List.mem_cons_of_mem _ hx))
    have hc := h c (List.mem_cons_self _ _)
    rw [readDigits_cons c t hc, hn]
    refine ⟨_, rfl, ?_⟩
    unfold isDigit at hc
    have h9 : c - 48 ≤ 9 := by omega
    calc (c - 48) * 10 ^ t.length + n < (c - 48) * 10 ^ t.length + 10 ^ t.length := by omega
      _ = (c - 48 + 1) * 10 ^ t.length := by ring
      _ ≤ 10 * 10 ^ t.length := Nat.mul_le_mul_right _ (by omega)
      _ = 10 ^ (c :: t).length := by rw [List.length_cons, pow_succ]; ring

theorem underscoreOK_digits (s : GoString) (saw : Nat) (h : ∀ c ∈ s, isDigit c)
    (hs : saw ≠ 95) : underscoreOK s saw = true := by
  induction s generalizing saw with
  | nil => simp [underscoreOK, hs]
  | cons c t ih =>
    have hc := h c (List.mem_cons_self _ _)
    unfold isDigit at hc
    rw [underscoreOK, if_pos hc]
    exact ih 48 (fun x hx => h x (List.mem_cons_of_mem _ hx)) (by omega)

theorem mantissa_digits (s : GoString) (h : ∀ c ∈ s, isDigit c) :
    (s.takeWhile fun c => (decide (48 ≤ c) && decide (c ≤ 57)) || decide (c = 95)) = s ∧
    (s.dropWhile fun c => (decide (48 ≤ c) && decide (c ≤ 57)) || decide (c = 95)) = [] ∧
    (s.filter fun c => c != 95) = s := by
  refine ⟨?_, ?_, ?_⟩
  · rw [List.takeWhile_eq_self_iff]
    intro x hx
    have := h x hx
    unfold isDigit at this
    simp [this.1, this.2]
  · rw [List.dropWhile_eq_nil_iff]
    intro x hx
    have := h x hx
    unfold isDigit at this
    simp [this.1, this.2]
  · rw [List.filter_eq_self]
    intro x hx
    have := h x hx
    unfold isDigit at this
    simp
    omega

theorem Atoi_digits (c : Nat) (t : GoString) (n : Nat) (hc : isDigit c)
    (hr : readDigits (c :: t) = some n) (hn : n ≤ 999) : Atoi (c :: t) = some (n : Int) := by
  have h1 : ¬ (c = 45 ∨ c = 43) := by unfold isDigit at hc; omega
  have h2 : ¬ c = 45 := by unfold isDigit at hc; omega
  have g1 : (0 : Int) ≤ (n : Int) := Int.ofNat_nonneg _
  have g2 : (n : Int) ≤ 999 := by exact_mod_cast hn
  unfold Atoi
  simp only
  rw [if_neg h1, if_neg (by simp), hr]
  simp only
  rw [if_neg h2, if_pos ⟨by omega, by omega⟩]

theorem Atoi_two (a b : Nat) (ha : isDigit a) (hb : isDigit b) :
    Atoi [a, b] = some (((a - 48) * 10 + (b - 48) : Nat) : Int) := by
  apply Atoi_digits a [b] _ ha (readDigits_two a b ha hb)
  unfold isDigit at ha hb
  omega

theorem readDigits_three (a b c : Nat) (ha : isDigit a) (hb : isDigit b) (hc : isDigit c) :
    readDigits [a, b, c] = some ((a - 48) * 100 + ((b - 48) * 10 + (c - 48))) := by
  rw [readDigits_cons a _ ha, readDigits_two b c hb hc]
  simp

theorem Atoi_three (a b c : Nat) (ha : isDigit a) (hb : isDigit b) (hc : isDigit c) :
    Atoi [a, b, c] = some (((a - 48) * 100 + ((b - 48) * 10 + (c - 48)) : Nat) : Int) := by
  apply Atoi_digits a [b, c] _ ha (readDigits_three a b c ha hb hc)
  unfold isDigit at ha hb hc
  omega

theorem cutAt_epoch (y1 y2 d1 d2 d3 : Nat) (part : GoString)
    (h1 : isDigit y1) (h2 : isDigit y2) (h3 : isDigit d1) (h4 : isDigit d2) (h5 : isDigit d3) :
    cutAt 46 ([y1, y2] ++ ([d1, d2, d3, 46] ++ part)) = ([y1, y2, d1, d2, d3], part) := by
  unfold isDigit at *
  simp only [List.cons_append, List.nil_append]
  rw [cutAt_cons_ne _ _ _ (by omega), cutAt_cons_ne _ _ _ (by omega),
    cutAt_cons_ne _ _ _ (by omega), cutAt_cons_ne _ _ _ (by omega),
    cutAt_cons_ne _ _ _ (by omega), cutAt_cons_self]

/-! ## The epoch -/

theorem parseFloatFraction_digits (part : GoString) (n : Nat)
    (h : ∀ c ∈ part, isDigit c) (hn : readDigits part = some n)
    (hlt : (roundFloat64 n (10 ^ part.length)).toRat < 2 ^ 1024) :
    parseFloatFraction part = some (roundFloat64 n (10 ^ part.length)) := by
  obtain ⟨m1, m2, m3⟩ := mantissa_digits part h
  have hu : underscoreOK (bytes "0." ++ part) 33 = true := by
    have : bytes "0." ++ part = 48 :: 46 :: part := rfl
    rw [this, underscoreOK, if_pos (by omega), underscoreOK, if_neg (by omega),
      if_neg (by omega), if_neg (by omega)]
    exact underscoreOK_digits part 33 h (by omega)
  unfold parseFloatFraction
  simp only [m1, m2, m3, readExponent, hn, hu, if_true, Bool.false_eq_true, if_false,
    pow_zero, mul_one]
  rw [if_neg]
  rintro ⟨he, ho⟩
  have : ((roundFloat64 n (10 ^ part.length)).1 * 2 ^ (roundFloat64 n (10 ^ part.length)).2.toNat
      : ℚ) = (roundFloat64 n (10 ^ part.length)).toRat := by
    unfold Float64.toRat
    rw [← zpow_natCast (2 : ℚ), Int.toNat_of_nonneg he]
  have ho' : ((2 ^ 1024 : Nat) : ℚ) ≤
      (((roundFloat64 n (10 ^ part.length)).1 *
        2 ^ (roundFloat64 n (10 ^ part.length)).2.toNat : Nat) : ℚ) := by
    exact_mod_cast ho
  push_cast at ho'
  rw [this] at ho'
  linarith

/-- For a fraction of at most 14 digits the `float64` read is below 1 and the
nanoseconds it gives are fewer than those of a day. -/
theorem fraction_bounds (n len : Nat) (hn : n < 10 ^ len) (hl : len ≤ 14) :
    (roundFloat64 n (10 ^ len)).toRat < 1 ∧
    ((roundFloat64 n (10 ^ len)).mulNat nanosInDay).round < nanosInDay := by
  have hq : (n : ℚ) / ((10 ^ len : Nat) : ℚ) ≤ 1 - 1 / 10 ^ 14 := by
    have h1 : (n : ℚ) + 1 ≤ ((10 ^ len : Nat) : ℚ) := by exact_mod_cast hn
    have hp : (0 : ℚ) < ((10 ^ len : Nat) : ℚ) := by positivity
    have h2 : ((10 ^ len : Nat) : ℚ) ≤ 10 ^ 14 := by
      have : 10 ^ len ≤ 10 ^ 14 := Nat.pow_le_pow_right (by omega) hl
      exact_mod_cast this
    rw [div_le_iff₀ hp]
    have h3 : (1 : ℚ) / 10 ^ 14 * ((10 ^ len : Nat) : ℚ) ≤ 1 := by
      rw [div_mul_eq_mul_div, one_mul, div_le_one (by positivity)]
      exact h2
    nlinarith
  have hq0 : (0 : ℚ) ≤ (n : ℚ) / ((10 ^ len : Nat) : ℚ) := by positivity
  have h1 := roundFloat64_le n (10 ^ len) (by positivity)
  have h2 := Float64.mulNat_le (roundFloat64 n (10 ^ len)) nanosInDay
  have h3 := Float64.round_le ((roundFloat64 n (10 ^ len)).mulNat nanosInDay)
  have h0 := Float64.toRat_nonneg (roundFloat64 n (10 ^ len))
  have e1 : (2 : ℚ) ^ (-53 : Int) = 1 / 9007199254740992 := by norm_num [zpow_neg]
  have e2 : (2 : ℚ) ^ (-1075 : Int) ≤ 1 / 10 ^ 30 := by
    have e3 : (2 : ℚ) ^ (-1075 : Int) = 1 / 2 ^ 1075 := by
      rw [zpow_neg, inv_eq_one_div, ← zpow_natCast]
      norm_cast
    rw [e3]
    apply one_div_le_one_div_of_le (by positivity)
    calc (10 : ℚ) ^ 30 ≤ 16 ^ 30 := by gcongr; norm_num
      _ = 2 ^ 120 := by rw [show (16 : ℚ) = 2 ^ 4 by norm_num, ← pow_mul]
      _ ≤ 2 ^ 1075 := pow_le_pow_right₀ (by norm_num) (by norm_num)
  have hN : ((nanosInDay : Nat) : ℚ) = 86400000000000 := by norm_num [nanosInDay]
  rw [e1] at h1 h2
  rw [hN] at h2
  have f1 : (roundFloat64 n (10 ^ len)).toRat ≤ 1 - 9 / 10 ^ 15 := by
    have : (roundFloat64 n (10 ^ len)).toRat
        ≤ (1 - 1 / 10 ^ 14) * (1 + 1 / 9007199254740992) + 1 / 10 ^ 30 := by
      have := mul_le_mul_of_nonneg_right hq
        (by norm_num : (0 : ℚ) ≤ 1 + 1 / 9007199254740992)
      linarith
    refine this.trans ?_
    norm_num
  constructor
  · have : (1 : ℚ) - 9 / 10 ^ 15 < 1 := by norm_num
    linarith
  · have f2 : ((roundFloat64 n (10 ^ len)).mulNat nanosInDay).toRat
        ≤ (1 - 9 / 10 ^ 15) * 86400000000000 * (1 + 1 / 9007199254740992) + 1 / 10 ^ 30 := by
      have := mul_le_mul_of_nonneg_right
        (mul_le_mul_of_nonneg_right f1 (by norm_num : (0 : ℚ) ≤ 86400000000000))
        (by norm_num : (0 : ℚ) ≤ 1 + 1 / 9007199254740992)
      linarith
    have f3 : (((roundFloat64 n (10 ^ len)).mulNat nanosInDay).round : ℚ) < 86400000000000 := by
      have : (1 - 9 / 10 ^ 15) * 86400000000000 * (1 + 1 / 9007199254740992) + 1 / 10 ^ 30
          + 1 / 2 < (86400000000000 : ℚ) := by norm_num
      linarith
    have : (((roundFloat64 n (10 ^ len)).mulNat nanosInDay).round : ℚ)
        < ((nanosInDay : Nat) : ℚ) := by rw [hN]; exact f3
    exact_mod_cast this

theorem roundFloat64_digits_lt (n len : Nat) (hn : n < 10 ^ len) :
    (roundFloat64 n (10 ^ len)).toRat < 2 ^ 1024 := by
  have h1 := roundFloat64_le n (10 ^ len) (by positivity)
  have hq : (n : ℚ) / ((10 ^ len : Nat) : ℚ) ≤ 1 := by
    rw [div_le_one (by positivity)]
    exact_mod_cast hn.le
  have e1 : (2 : ℚ) ^ (-53 : Int) ≤ 1 := zpow_le_one_of_nonpos₀ (by norm_num) (by norm_num)
  have e2 : (2 : ℚ) ^ (-1075 : Int) ≤ 1 := zpow_le_one_of_nonpos₀ (by norm_num) (by norm_num)
  have e3 : (0 : ℚ) ≤ (2 : ℚ) ^ (-53 : Int) := by positivity
  have h2 : (roundFloat64 n (10 ^ len)).toRat ≤ 3 := by
    have := mul_le_mul hq (by linarith : 1 + (2 : ℚ) ^ (-53 : Int) ≤ 2) (by linarith)
      (by norm_num : (0 : ℚ) ≤ 1)
    linarith
  have h3 : (3 : ℚ) < 2 ^ 1024 :=
    calc (3 : ℚ) < 2 ^ 2 := by norm_num
      _ ≤ 2 ^ 1024 := pow_le_pow_right₀ (by norm_num) (by norm_num)
  linarith

/-- What `Time` does on a two-digit year and a day that starts with three
digits and a point. -/
theorem Time_day (t : TLE) (y1 y2 d1 d2 d3 : Nat) (part : GoString)
    (hy : t.Line1.EpochYear = [y1, y2]) (hd : t.Line1.EpochDay = [d1, d2, d3, 46] ++ part)
    (h1 : isDigit y1) (h2 : isDigit y2) (h3 : isDigit d1) (h4 : isDigit d2) (h5 : isDigit d3) :
    t.Time =
      if (((d1 - 48) * 100 + ((d2 - 48) * 10 + (d3 - 48)) : Nat) : Int) < 1 ∨
          (((d1 - 48) * 100 + ((d2 - 48) * 10 + (d3 - 48)) : Nat) : Int) > 366 then
        .error (.dayOutOfRange (((d1 - 48) * 100 + ((d2 - 48) * 10 + (d3 - 48)) : Nat) : Int))
      else
        match parseFloatFraction part with
        | none => .error .fractionSyntax
        | some fractionalDay =>
          if !fractionalDay.ltOne then .error .fractionOutOfRange
          else
            .ok (startOfYear
                (if ((((y1 - 48) * 10 + (y2 - 48) : Nat) : Int)) ≥ 57
                  then 1900 + ((((y1 - 48) * 10 + (y2 - 48) : Nat) : Int))
                  else 2000 + ((((y1 - 48) * 10 + (y2 - 48) : Nat) : Int)))
              + ((((d1 - 48) * 100 + ((d2 - 48) * 10 + (d3 - 48)) : Nat) : Int) - 1) * nanosInDay
              + (fractionalDay.mulNat nanosInDay).round) := by
  have hm : ¬ (46 ∉ [y1, y2] ++ ([d1, d2, d3, 46] ++ part)) := by simp
  unfold TLE.Time
  simp only [hy, hd]
  rw [if_neg hm, cutAt_epoch y1 y2 d1 d2 d3 part h1 h2 h3 h4 h5]
  simp only [List.length_cons, List.length_nil, ne_eq, not_true_eq_false, if_false,
    List.take, List.drop, Nat.reduceAdd]
  rw [Atoi_two y1 y2 h1 h2, Atoi_three d1 d2 d3 h3 h4 h5]

/-- With a fraction of digits, at most 14 of them, and a day from 1 to 366,
`Time` returns an instant: the start of the day plus less than a day. -/
theorem Time_digits (t : TLE) (y1 y2 d1 d2 d3 : Nat) (part : GoString)
    (hy : t.Line1.EpochYear = [y1, y2]) (hd : t.Line1.EpochDay = [d1, d2, d3, 46] ++ part)
    (h1 : isDigit y1) (h2 : isDigit y2) (h3 : isDigit d1) (h4 : isDigit d2) (h5 : isDigit d3)
    (hp : ∀ c ∈ part, isDigit c) (hl : part.length ≤ 14)
    (hlo : 1 ≤ (d1 - 48) * 100 + ((d2 - 48) * 10 + (d3 - 48)))
    (hhi : (d1 - 48) * 100 + ((d2 - 48) * 10 + (d3 - 48)) ≤ 366) :
    ∃ r : Nat, r < nanosInDay ∧
      t.Time = .ok (startOfYear
          (if ((((y1 - 48) * 10 + (y2 - 48) : Nat) : Int)) ≥ 57
            then 1900 + ((((y1 - 48) * 10 + (y2 - 48) : Nat) : Int))
            else 2000 + ((((y1 - 48) * 10 + (y2 - 48) : Nat) : Int)))
        + ((((d1 - 48) * 100 + ((d2 - 48) * 10 + (d3 - 48)) : Nat) : Int) - 1) * nanosInDay
        + (r : Int)) := by
  obtain ⟨n, hn, hlt⟩ := readDigits_all part hp
  have hb := fraction_bounds n part.length hlt hl
  have hpf := parseFloatFraction_digits part n hp hn (roundFloat64_digits_lt n _ hlt)
  refine ⟨((roundFloat64 n (10 ^ part.length)).mulNat nanosInDay).round, hb.2, ?_⟩
  rw [Time_day t y1 y2 d1 d2 d3 part hy hd h1 h2 h3 h4 h5, if_neg, hpf]
  · simp only
    rw [(Float64.ltOne_iff _).2 hb.1]
    simp
  · rintro (h | h)
    · have : ((1 : Nat) : Int) ≤ _ := Int.ofNat_le.2 hlo
      omega
    · have : _ ≤ ((366 : Nat) : Int) := Int.ofNat_le.2 hhi
      omega

theorem pivot_range (yy : Int) (h0 : 0 ≤ yy) (h1 : yy ≤ 99) :
    1957 ≤ (if yy ≥ 57 then 1900 + yy else 2000 + yy) ∧
    (if yy ≥ 57 then 1900 + yy else 2000 + yy) ≤ 2056 := by
  split_ifs <;> omega

theorem Atoi_two_range (a b : Nat) (yy : Int) (ha : isDigit a) (hb : isDigit b)
    (h : Atoi [a, b] = some yy) :
    yy = (((a - 48) * 10 + (b - 48) : Nat) : Int) ∧ 0 ≤ yy ∧ yy ≤ 99 := by
  rw [Atoi_two a b ha hb] at h
  have e := (Option.some.inj h).symm
  unfold isDigit at ha hb
  refine ⟨e, ?_, ?_⟩ <;> omega

theorem Atoi_three_eq (a b c : Nat) (n : Int) (ha : isDigit a) (hb : isDigit b)
    (hc : isDigit c) (h : Atoi [a, b, c] = some n) :
    n = (((a - 48) * 100 + ((b - 48) * 10 + (c - 48)) : Nat) : Int) := by
  rw [Atoi_three a b c ha hb hc] at h
  exact (Option.some.inj h).symm

theorem startOfYear_succ (y : Int) (h : isLeapYear y = false) :
    startOfYear (y + 1) = startOfYear y + 365 * nanosInDay := by
  have hl := isLeapYear_iff y
  rw [h] at hl
  have hn : ¬ (y % 4 = 0 ∧ (y % 100 ≠ 0 ∨ y % 400 = 0)) := fun c => by simpa using hl.2 c
  have e : daysBeforeYear (y + 1) = daysBeforeYear y + 365 := by
    unfold daysBeforeYear
    omega
  unfold startOfYear
  rw [e]
  ring

/-- The year of the instant `Time` returns, for a day within the year's
length and a fraction of at most 14 digits. -/
theorem Time_in_year (t : TLE) (y1 y2 d1 d2 d3 : Nat) (part : GoString) (yy doy : Int)
    (hy : t.Line1.EpochYear = [y1, y2]) (hd : t.Line1.EpochDay = [d1, d2, d3, 46] ++ part)
    (h1 : isDigit y1) (h2 : isDigit y2) (h3 : isDigit d1) (h4 : isDigit d2) (h5 : isDigit d3)
    (hp : ∀ c ∈ part, isDigit c) (hl : part.length ≤ 14)
    (hyy : Atoi [y1, y2] = some yy) (hdoy : Atoi [d1, d2, d3] = some doy)
    (hlo : 1 ≤ doy)
    (hhi : doy ≤ if isLeapYear (if yy ≥ 57 then 1900 + yy else 2000 + yy) then 366 else 365) :
    ∃ i, t.Time = .ok i ∧
      yearAndDay i = ((if yy ≥ 57 then 1900 + yy else 2000 + yy), doy - 1) := by
  obtain ⟨ey, y0, y99⟩ := Atoi_two_range y1 y2 yy h1 h2 hyy
  have ed := Atoi_three_eq d1 d2 d3 doy h3 h4 h5 hdoy
  have hr := pivot_range yy y0 y99
  have hhi2 : doy ≤ 366 := by
    split_ifs at hhi <;> omega
  obtain ⟨r, hr1, hr2⟩ := Time_digits t y1 y2 d1 d2 d3 part hy hd h1 h2 h3 h4 h5 hp hl
    (by omega) (by omega)
  rw [← ey, ← ed] at hr2
  refine ⟨_, hr2, ?_⟩
  apply yearAndDay_in_year _ _ _ hr.1 hr.2 (by omega) _ (Int.ofNat_nonneg r)
    (by exact_mod_cast hr1)
  split_ifs at hhi ⊢ <;> omega

/-- The instant `Time` returns for day 366: the last day of a leap year, the
first day of the next year otherwise. -/
theorem Time_366 (t : TLE) (y1 y2 : Nat) (part : GoString) (yy : Int)
    (hy : t.Line1.EpochYear = [y1, y2]) (hd : t.Line1.EpochDay = bytes "366." ++ part)
    (h1 : isDigit y1) (h2 : isDigit y2)
    (hp : ∀ c ∈ part, isDigit c) (hl : part.length ≤ 14)
    (hyy : Atoi [y1, y2] = some yy) :
    ∃ i, t.Time = .ok i ∧
      dateOf i =
        if isLeapYear (if yy ≥ 57 then 1900 + yy else 2000 + yy)
        then ((if yy ≥ 57 then 1900 + yy else 2000 + yy), 12, 31)
        else ((if yy ≥ 57 then 1900 + yy else 2000 + yy) + 1, 1, 1) := by
  obtain ⟨ey, y0, y99⟩ := Atoi_two_range y1 y2 yy h1 h2 hyy
  have hr := pivot_range yy y0 y99
  have hd2 : t.Line1.EpochDay = [51, 54, 54, 46] ++ part := hd
  obtain ⟨r, hr1, hr2⟩ := Time_digits t y1 y2 51 54 54 part hy hd2 h1 h2
    (by decide) (by decide) (by decide) hp hl (by decide) (by decide)
  rw [← ey] at hr2
  have hr1z : (r : Int) < nanosInDay := by exact_mod_cast hr1
  have e365 : ((((51 - 48) * 100 + ((54 - 48) * 10 + (54 - 48)) : Nat) : Int) - 1) = 365 := by
    decide
  rw [e365] at hr2
  refine ⟨_, hr2, ?_⟩
  generalize (if yy ≥ 57 then 1900 + yy else 2000 + yy) = y at hr hr2 ⊢
  unfold dateOf
  cases hleap : isLeapYear y
  · have e : startOfYear y + 365 * ↑nanosInDay + ↑r
        = startOfYear (y + 1) + 0 * ↑nanosInDay + ↑r := by
      rw [startOfYear_succ y hleap]; ring
    have hy56 : y ≠ 2056 := by
      rintro rfl
      revert hleap
      decide
    have hya := yearAndDay_in_year (y + 1) 0 r (by omega) (by omega) (le_refl 0)
      (by split_ifs <;> omega) (Int.ofNat_nonneg r) hr1z
    rw [e, hya]
    simp only [Bool.false_eq_true, if_false]
    cases isLeapYear (y + 1) <;> rfl
  · have hya := yearAndDay_in_year y 365 r hr.1 hr.2 (by omega)
      (by rw [hleap]; simp) (Int.ofNat_nonneg r) hr1z
    rw [hya]
    simp only [hleap, if_true]
    rfl

/-- Day 000 and day 367 are refused, whatever follows the point. -/
theorem Time_day_out_of_range (t : TLE) (y1 y2 : Nat) (part : GoString)
    (hy : t.Line1.EpochYear = [y1, y2]) (h1 : isDigit y1) (h2 : isDigit y2) :
    (t.Line1.EpochDay = bytes "000." ++ part → t.Time = .error (.dayOutOfRange 0)) ∧
    (t.Line1.EpochDay = bytes "367." ++ part → t.Time = .error (.dayOutOfRange 367)) := by
  constructor
  · intro hd
    have hd2 : t.Line1.EpochDay = [48, 48, 48, 46] ++ part := hd
    rw [Time_day t y1 y2 48 48 48 part hy hd2 h1 h2 (by decide) (by decide) (by decide)]
    rfl
  · intro hd
    have hd2 : t.Line1.EpochDay = [51, 54, 55, 46] ++ part := hd
    rw [Time_day t y1 y2 51 54 55 part hy hd2 h1 h2 (by decide) (by decide) (by decide)]
    rfl

theorem Time_iss_value (t : TLE) (hy : t.Line1.EpochYear = bytes "08")
    (hd : t.Line1.EpochDay = bytes "264.51782528") :
    t.Time = .ok 1221913540104192000 := by
  have hy2 : t.Line1.EpochYear = [48, 56] := hy
  have hd2 : t.Line1.EpochDay = [50, 54, 52, 46] ++ bytes "51782528" := hd
  rw [Time_day t 48 56 50 54 52 _ hy2 hd2 (by decide) (by decide) (by decide) (by decide)
    (by decide)]
  decide

/-! ## Rendering a record and reading it again -/

theorem ReadTLELine1_lineString (s : GoString) (r : TLELine1)
    (h : ReadTLELine1 s = some (.ok r)) : r.LineString = s := by
  have hlen := ReadTLELine1_ok_length s r h
  rw [ReadTLELine1_eq s hlen] at h
  cases h1 : ParseScientificNotation (column s 33 43) with
  | none => rw [h1] at h; cases h
  | some fd =>
    cases h2 : ParseScientificNotation (column s 44 52) with
    | none => rw [h1, h2] at h; cases h
    | some sd =>
      cases h3 : ParseScientificNotation (column s 53 61) with
      | none => rw [h1, h2, h3] at h; cases h
      | some bs =>
        rw [h1, h2, h3] at h
        simp only [Option.bind_eq_bind, Option.some_bind, Option.some.injEq,
          Except.ok.injEq] at h
        rw [← h]

theorem ReadTLELine2_lineString (s : GoString) (r : TLELine2)
    (h : ReadTLELine2 s = some (.ok r)) : r.LineString = s := by
  have hlen := ReadTLELine2_ok_length s r h
  rw [ReadTLELine2_eq s hlen] at h
  simp only [Option.some.injEq, Except.ok.injEq] at h
  rw [← h]

theorem blocksLoop_mem (lines seg : List GoString) (b : List GoString × GoString)
    (hb : b ∈ blocksLoop lines seg) :
    b.2 ∈ lines ∧ HasPrefix b.2 (bytes "2 ") = true ∧ ∀ x ∈ b.1, x ∈ seg ∨ x ∈ lines := by
  induction lines generalizing seg with
  | nil => simp [blocksLoop] at hb
  | cons l rest ih =>
    rw [blocksLoop] at hb
    by_cases h : HasPrefix l (bytes "2 ") = true
    · rw [if_pos h] at hb
      rcases List.mem_cons.1 hb with e | hm
      · subst e
        exact ⟨List.mem_cons_self _ _, h, fun x hx => Or.inl hx⟩
      · obtain ⟨a1, a2, a3⟩ := ih [] hm
        refine ⟨List.mem_cons_of_mem _ a1, a2, fun x hx => ?_⟩
        rcases a3 x hx with c | c
        · simp at c
        · exact Or.inr (List.mem_cons_of_mem _ c)
    · rw [if_neg h] at hb
      obtain ⟨a1, a2, a3⟩ := ih (seg ++ [l]) hb
      refine ⟨List.mem_cons_of_mem _ a1, a2, fun x hx => ?_⟩
      rcases a3 x hx with c | c
      · rcases List.mem_append.1 c with d | d
        · exact Or.inl d
        · right
          rw [List.mem_singleton.1 d]
          exact List.mem_cons_self _ _
      · exact Or.inr (List.mem_cons_of_mem _ c)

theorem getLast?_filter_mem (p : GoString → Bool) (seg : List GoString) (l : GoString)
    (h : (seg.filter p).getLast? = some l) : l ∈ seg ∧ p l = true := by
  have hm : l ∈ seg.filter p := List.mem_of_getLast?_eq_some h
  exact List.mem_filter.1 hm

theorem forall₂_mem (R : TLE → List GoString × GoString → Prop) (rs : List TLE)
    (bs : List (List GoString × GoString)) (h : List.Forall₂ R rs bs) (r : TLE)
    (hr : r ∈ rs) : ∃ b ∈ bs, R r b := by
  induction h with
  | nil => simp at hr
  | @cons a b as bs hab _ ih =>
    rcases List.mem_cons.1 hr with e | hm
    · subst e
      exact ⟨b, List.mem_cons_self _ _, hab⟩
    · obtain ⟨c, hc, hR⟩ := ih hm
      exact ⟨c, List.mem_cons_of_mem _ hc, hR⟩

/-! ### `TrimSpace` on ASCII text -/

theorem trimSpaceEnd_ascii (rev : GoString) (h : ∀ c ∈ rev, c < 128) :
    trimSpaceEnd rev = (rev.dropWhile asciiSpace).reverse := by
  induction rev with
  | nil => rfl
  | cons c rev ih =>
    have hc : ¬ RuneSelf ≤ c := by
      have := h c (List.mem_cons_self _ _)
      unfold RuneSelf
      omega
    rw [trimSpaceEnd, if_neg hc]
    by_cases hs : asciiSpace c = true
    · rw [if_pos hs, List.dropWhile_cons_of_pos hs]
      exact ih fun x hx => h x (List.mem_cons_of_mem _ hx)
    · rw [if_neg hs, List.dropWhile_cons_of_neg hs]

theorem TrimSpace_ascii (s : GoString) (h : ∀ c ∈ s, c < 128) :
    TrimSpace s = (((s.dropWhile asciiSpace).reverse).dropWhile asciiSpace).reverse := by
  induction s with
  | nil => rfl
  | cons c s ih =>
    have hc : ¬ RuneSelf ≤ c := by
      have := h c (List.mem_cons_self _ _)
      unfold RuneSelf
      omega
    rw [TrimSpace, if_neg hc]
    by_cases hs : asciiSpace c = true
    · rw [if_pos hs, List.dropWhile_cons_of_pos hs]
      exact ih fun x hx => h x (List.mem_cons_of_mem _ hx)
    · rw [if_neg hs, List.dropWhile_cons_of_neg hs]
      exact trimSpaceEnd_ascii _ fun x hx => h x (List.mem_reverse.1 hx)

theorem dropWhile_append_keep (p : Nat → Bool) (l : List Nat) (x : Nat) (hx : ¬ p x = true) :
    ∃ m, (l ++ [x]).dropWhile p = m ++ [x] := by
  induction l with
  | nil => exact ⟨[], by simp [List.dropWhile_cons_of_neg hx]⟩
  | cons a l ih =>
    by_cases ha : p a = true
    · rw [List.cons_append, List.dropWhile_cons_of_pos ha]
      exact ih
    · rw [List.cons_append, List.dropWhile_cons_of_neg ha]
      exact ⟨a :: l, rfl⟩

theorem dropWhile_head (p : Nat → Bool) (l : List Nat) :
    l.dropWhile p = [] ∨ ∃ x t, l.dropWhile p = x :: t ∧ ¬ p x = true := by
  induction l with
  | nil => left; rfl
  | cons a l ih =>
    by_cases ha : p a = true
    · rw [List.dropWhile_cons_of_pos ha]
      exact ih
    · rw [List.dropWhile_cons_of_neg ha]
      exact Or.inr ⟨a, l, rfl, ha⟩

/-- Trimming an ASCII text that is already trimmed changes nothing. -/
theorem TrimSpace_ascii_twice (s : GoString) (h : ∀ c ∈ s, c < 128) :
    TrimSpace (TrimSpace s) = TrimSpace s := by
  have hsub : ∀ c ∈ TrimSpace s, c < 128 := by
    intro c hc
    rw [TrimSpace_ascii s h] at hc
    exact h c ((List.dropWhile_sublist _).subset
      (List.mem_reverse.1 ((List.dropWhile_sublist _).subset (List.mem_reverse.1 hc))))
  rw [TrimSpace_ascii (TrimSpace s) hsub, TrimSpace_ascii s h]
  rcases dropWhile_head asciiSpace s with e | ⟨x, t, e, hx⟩
  · rw [e]
    rfl
  · rw [e, List.reverse_cons]
    obtain ⟨m, hm⟩ := dropWhile_append_keep asciiSpace t.reverse x hx
    rcases dropWhile_head asciiSpace (t.reverse ++ [x]) with e2 | ⟨z, u, e2, hz⟩
    · rw [hm] at e2
      simp at e2
    · have e3 : ((t.reverse ++ [x]).dropWhile asciiSpace).reverse = x :: m.reverse := by
        rw [hm]; simp
      rw [e3, List.dropWhile_cons_of_neg hx, ← e3, List.reverse_reverse, e2,
        List.dropWhile_cons_of_neg hz]

/-- A trimmed ASCII text holds bytes of the text only and does not end in a
carriage return. -/
theorem TrimSpace_ascii_bytes (s : GoString) (h : ∀ c ∈ s, c < 128) :
    (∀ c ∈ TrimSpace s, c ∈ s) ∧ (TrimSpace s).getLast? ≠ some 13 := by
  rw [TrimSpace_ascii s h]
  constructor
  · intro c hc
    exact (List.dropWhile_sublist _).subset
      (List.mem_reverse.1 ((List.dropWhile_sublist _).subset (List.mem_reverse.1 hc)))
  · rw [List.getLast?_reverse]
    rcases dropWhile_head asciiSpace (s.dropWhile asciiSpace).reverse with e | ⟨x, t, e, hx⟩
    · rw [e]
      simp
    · rw [e]
      simp only [List.head?_cons, ne_eq, Option.some.injEq]
      rintro rfl
      exact hx (by decide)

/-! ### The scanner on a rendered record -/

theorem scanLinesLoop_append (a rest cur : GoString) (h : 10 ∉ a) :
    scanLinesLoop (a ++ rest) cur = scanLinesLoop rest (cur ++ a) := by
  induction a generalizing cur with
  | nil => simp
  | cons c a ih =>
    have hc : ¬ c = 10 := fun e => h (e ▸ List.mem_cons_self _ _)
    rw [List.cons_append, scanLinesLoop, if_neg hc, ih _ fun hm => h (List.mem_cons_of_mem _ hm)]
    simp

theorem dropCR_eq (s : GoString) (h : s.getLast? ≠ some 13) : dropCR s = s := by
  unfold dropCR
  rw [if_neg h]

/-- The scanner gives the three parts of a rendered record back, when none
holds a newline or ends in a carriage return and the last is not empty. -/
theorem scanLines_three (a b c : GoString) (ha : 10 ∉ a) (hb : 10 ∉ b) (hc : 10 ∉ c)
    (ha2 : a.getLast? ≠ some 13) (hb2 : b.getLast? ≠ some 13) (hc2 : c.getLast? ≠ some 13)
    (hne : c ≠ []) :
    scanLines (a ++ bytes "\n" ++ b ++ bytes "\n" ++ c) = [a, b, c] := by
  have e : a ++ bytes "\n" ++ b ++ bytes "\n" ++ c = a ++ (10 :: (b ++ (10 :: (c ++ [])))) := by
    simp [bytes]
  unfold scanLines
  rw [e, scanLinesLoop_append a _ [] ha, scanLinesLoop, if_pos rfl,
    scanLinesLoop_append b _ [] hb, scanLinesLoop, if_pos rfl,
    scanLinesLoop_append c _ [] hc, scanLinesLoop, if_neg (by simpa using hne)]
  simp only [List.nil_append]
  rw [dropCR_eq a ha2, dropCR_eq b hb2, dropCR_eq c hc2]

theorem HasPrefix_two_not_one (l : GoString) (h : HasPrefix l (bytes "2 ") = true) :
    HasPrefix l (bytes "1 ") = false := by
  obtain ⟨t, rfl⟩ := (HasPrefix_two l).1 h
  rfl

/-- The loop on the three parts of a rendered record gives the record back,
when the name is trimmed and starts like no element line, the second line
reads as the record's `Line2`, and the first line reads as its `Line1` or is
empty next to an empty name. -/
theorem readLoop_rendered (r : TLE)
    (hn1 : HasPrefix r.Name (bytes "1 ") = false) (hn2 : HasPrefix r.Name (bytes "2 ") = false)
    (ht : TrimSpace r.Name = r.Name)
    (h2p : HasPrefix r.Line2.LineString (bytes "2 ") = true)
    (h2r : ReadTLELine2 r.Line2.LineString = some (.ok r.Line2))
    (h2f : (Fields r.Line2.LineString)[1]? = some r.NoradID)
    (h1 : (HasPrefix r.Line1.LineString (bytes "1 ") = true ∧
        ReadTLELine1 r.Line1.LineString = some (.ok r.Line1)) ∨
      (r.Line1 = zeroLine1 ∧ r.Name = [])) :
    ReadTLEFile [r.Name, r.Line1.LineString, r.Line2.LineString] = some (.ok [r]) := by
  have h21 := HasPrefix_two_not_one _ h2p
  obtain ⟨name, id, l1, l2⟩ := r
  simp only at hn1 hn2 ht h2p h2r h2f h1 h21
  rcases h1 with ⟨h1p, h1r⟩ | ⟨hz, he⟩
  · simp only [ReadTLEFile, readLoop, readStep, hn1, hn2, h1p, h1r, h21, h2p, h2r, h2f, ht,
      Bool.false_eq_true, if_false, if_true, List.nil_append, zeroTLE]
  · subst hz
    subst he
    have z1 : HasPrefix zeroLine1.LineString (bytes "1 ") = false := rfl
    have z2 : HasPrefix zeroLine1.LineString (bytes "2 ") = false := rfl
    have z3 : TrimSpace zeroLine1.LineString = [] := rfl
    simp only [ReadTLEFile, readLoop, readStep, hn1, hn2, z1, z2, z3, h21, h2p, h2r, h2f, ht,
      Bool.false_eq_true, if_false, if_true, List.nil_append, zeroTLE]

/-- Rendering a record of the loop and reading the text again gives the record
back, for ASCII lines without newline and final carriage return, a name that
starts like no element line, and a first element line or else no name. -/
theorem rendered_read_back (lines : List GoString) (rs : List TLE) (r : TLE)
    (h : ReadTLEFile lines = some (.ok rs)) (hr : r ∈ rs)
    (hl : ∀ l ∈ lines, (∀ c ∈ l, c < 128 ∧ c ≠ 10) ∧ l.getLast? ≠ some 13)
    (hn1 : HasPrefix r.Name (bytes "1 ") = false) (hn2 : HasPrefix r.Name (bytes "2 ") = false)
    (h1 : r.Line1.LineString ≠ [] ∨ r.Name = []) :
    ReadTLEFile (scanLines r.String) = some (.ok [r]) := by
  obtain ⟨rs2, e, f⟩ := readLoop_blocks lines [] zeroTLE [] rs h pendingFrom_zero
  rw [List.nil_append] at e
  subst e
  obtain ⟨b, hb, a1, a2, a3, a4⟩ := forall₂_mem _ _ _ f r hr
  obtain ⟨m1, m2, m3⟩ := blocksLoop_mem lines [] b hb
  have hseg : ∀ x ∈ b.1, x ∈ lines := fun x hx => (m3 x hx).resolve_left (by simp)
  have e2 := ReadTLELine2_lineString _ _ a1
  have no10 : ∀ l ∈ lines, 10 ∉ l := fun l hm c => ((hl l hm).1 10 c).2 rfl
  -- the second element line
  have s2a : 10 ∉ r.Line2.LineString := by rw [e2]; exact no10 _ m1
  have s2b : r.Line2.LineString.getLast? ≠ some 13 := by rw [e2]; exact (hl _ m1).2
  have s2c : r.Line2.LineString ≠ [] := by
    rw [e2]
    obtain ⟨t, ht⟩ := (HasPrefix_two _).1 m2
    rw [ht]
    simp
  -- the name
  have sn : TrimSpace r.Name = r.Name ∧ 10 ∉ r.Name ∧ r.Name.getLast? ≠ some 13 := by
    cases hln : lastName b.1 with
    | none =>
      rw [hln] at a4
      simp only at a4
      rw [a4]
      exact ⟨rfl, by simp, by simp⟩
    | some n =>
      rw [hln] at a4
      simp only at a4
      have hm : n ∈ lines := hseg n (getLast?_filter_mem _ _ _ hln).1
      have hasc : ∀ c ∈ n, c < 128 := fun c hc => ((hl n hm).1 c hc).1
      obtain ⟨t1, t2⟩ := TrimSpace_ascii_bytes n hasc
      rw [a4]
      exact ⟨TrimSpace_ascii_twice n hasc, fun c => no10 n hm (t1 10 c), t2⟩
  -- the first element line
  have s1 : (HasPrefix r.Line1.LineString (bytes "1 ") = true ∧
        ReadTLELine1 r.Line1.LineString = some (.ok r.Line1) ∧
        10 ∉ r.Line1.LineString ∧ r.Line1.LineString.getLast? ≠ some 13) ∨
      (r.Line1 = zeroLine1 ∧ r.Name = []) := by
    cases hll : lastLine1 b.1 with
    | none =>
      rw [hll] at a3
      simp only at a3
      right
      refine ⟨a3, h1.resolve_left ?_⟩
      rw [a3]
      exact fun c => c rfl
    | some l1 =>
      rw [hll] at a3
      simp only at a3
      obtain ⟨g1, g2⟩ := getLast?_filter_mem _ _ _ hll
      have e1 := ReadTLELine1_lineString _ _ a3
      left
      rw [e1]
      exact ⟨g2, a3, no10 _ (hseg _ g1), (hl _ (hseg _ g1)).2⟩
  have s1a : 10 ∉ r.Line1.LineString ∧ r.Line1.LineString.getLast? ≠ some 13 := by
    rcases s1 with ⟨-, -, c1, c2⟩ | ⟨c, -⟩
    · exact ⟨c1, c2⟩
    · rw [c]
      exact ⟨by simp [zeroLine1], by simp [zeroLine1]⟩
  unfold TLE.String
  rw [scanLines_three _ _ _ sn.2.1 s1a.1 s2a sn.2.2 s1a.2 s2b s2c]
  apply readLoop_rendered r hn1 hn2 sn.1 (by rw [e2]; exact m2) (by rw [e2]; exact a1)
    (by rw [e2]; exact a2)
  rcases s1 with ⟨c1, c2, -, -⟩ | c
  · exact Or.inl ⟨c1, c2⟩
  · exact Or.inr c

/-! ## The claims on `Time` -/

/-- C11, counterexample.  For EpochYear "08" and EpochDay "264.51782528"
`Time` returns the instant 1221913540104192000 ns after 1 January 1970, which
is 44740 whole seconds after midnight, and the first digit of the sub-second
part is 1: the clock reads 12:25:40.104192, not 12:25:40.5. -/
theorem Time_iss_counterexample :
    (epochRecord (bytes "08") (bytes "264.51782528")).Time = .ok 1221913540104192000 ∧
    (1221913540104192000 : Int) % nanosInDay / 1000000000 = 44740 ∧
    (clockOf 1221913540104192000).2.2.2 / 100000000 = 1 ∧
    (clockOf 1221913540104192000).2.2.2 / 100000000 ≠ 5 := by
  refine ⟨Time_iss_value _ rfl rfl, ?_, ?_, ?_⟩ <;> decide

/-- C11, amended.  For a record whose Line1 has EpochYear "08" and EpochDay
"264.51782528", `Time` succeeds and returns the UTC instant
2008-09-20T12:25:40.104192Z: the date is 20 September 2008, day 264 of 2008,
and the offset from midnight is 44,740,104,192,000 ns, about 44,740.1 s, which
is exactly 0.51782528 × 86,400,000,000,000. -/
theorem Time_iss (t : TLE) (hy : t.Line1.EpochYear = bytes "08")
    (hd : t.Line1.EpochDay = bytes "264.51782528") :
    t.Time = .ok 1221913540104192000 ∧
    dateOf 1221913540104192000 = (2008, 9, 20) ∧
    yearAndDay 1221913540104192000 = (2008, 264 - 1) ∧
    clockOf 1221913540104192000 = (12, 25, 40, 104192000) ∧
    (1221913540104192000 : Int) = startOfYear 2008 + (264 - 1) * nanosInDay + 44740104192000 ∧
    (44740104192000 : Int) * 10 ^ 8 = 51782528 * nanosInDay := by
  refine ⟨Time_iss_value t hy hd, ?_, ?_, ?_, ?_, ?_⟩ <;> decide

/-- C11, amended, at the record the ISS example gives: line 1 is read, its
epoch fields are "08" and "264.51782528", and `Time` returns
2008-09-20T12:25:40.104192Z. -/
theorem Time_iss_witness :
    ∃ l1, ReadTLELine1 issLine1 = some (.ok l1) ∧
      l1.EpochYear = bytes "08" ∧ l1.EpochDay = bytes "264.51782528" ∧
      ({ zeroTLE with Line1 := l1 } : TLE).Time = .ok 1221913540104192000 ∧
      dateOf 1221913540104192000 = (2008, 9, 20) ∧
      clockOf 1221913540104192000 = (12, 25, 40, 104192000) := by
  have h : ∃ l1, ReadTLELine1 issLine1 = some (.ok l1) ∧
      l1.EpochYear = bytes "08" ∧ l1.EpochDay = bytes "264.51782528" :=
    ⟨_, rfl, by decide, by decide⟩
  obtain ⟨l1, h1, h2, h3⟩ := h
  have ht := Time_iss { zeroTLE with Line1 := l1 } h2 h3
  exact ⟨l1, h1, h2, h3, ht.1, ht.2.1, ht.2.2.2.1⟩

/-- C12.  For a two-digit epoch year, `Time` refuses day 000 and day 367 with
the out-of-range error, but it accepts day 366 whatever the year: with a
fraction of at most 14 digits it returns an instant, 31 December of the
resolved year when that is a leap year and 1 January of the next year when it
is not.  No error is returned for a year without a day 366. -/
theorem Time_day_366 (t : TLE) (y1 y2 : Nat) (part : GoString) (yy : Int)
    (hy : t.Line1.EpochYear = [y1, y2]) (h1 : isDigit y1) (h2 : isDigit y2)
    (hyy : Atoi [y1, y2] = some yy) :
    (t.Line1.EpochDay = bytes "000." ++ part → t.Time = .error (.dayOutOfRange 0)) ∧
    (t.Line1.EpochDay = bytes "367." ++ part → t.Time = .error (.dayOutOfRange 367)) ∧
    (t.Line1.EpochDay = bytes "366." ++ part → (∀ c ∈ part, isDigit c) → part.length ≤ 14 →
      ∃ i, t.Time = .ok i ∧
        dateOf i =
          if isLeapYear (if yy ≥ 57 then 1900 + yy else 2000 + yy)
          then ((if yy ≥ 57 then 1900 + yy else 2000 + yy), 12, 31)
          else ((if yy ≥ 57 then 1900 + yy else 2000 + yy) + 1, 1, 1)) :=
  ⟨(Time_day_out_of_range t y1 y2 part hy h1 h2).1,
    (Time_day_out_of_range t y1 y2 part hy h1 h2).2,
    fun hd hp hl => Time_366 t y1 y2 part yy hy hd h1 h2 hp hl hyy⟩

/-- C12, at EpochYear "09" and EpochDay "366.00000000": 2009 is no leap year,
and `Time` returns an instant, on 1 January 2010, and no error. -/
theorem Time_day_366_witness :
    isLeapYear 2009 = false ∧
    ∃ i, (epochRecord (bytes "09") (bytes "366.00000000")).Time = .ok i ∧
      dateOf i = (2010, 1, 1) := by
  obtain ⟨i, hi, hd⟩ := (Time_day_366 (epochRecord (bytes "09") (bytes "366.00000000"))
    48 57 (bytes "00000000") 9 rfl (by decide) (by decide) (by decide)).2.2 rfl
    (by decide) (by decide)
  exact ⟨by decide, i, hi, hd⟩

/-- C13.  For an epoch year of two ASCII digits, read as YY, and a valid epoch
day, which is three digits, a point and a fraction of digits (the 12-column
TLE field holds 8 of them; up to 14 are covered here), with a day of the year
from 1 to the length of the resolved year, `Time` returns an instant of the
resolved year, 1900+YY when YY is at least 57 and 2000+YY otherwise, on that
day of the year. -/
theorem Time_century_pivot (t : TLE) (y1 y2 d1 d2 d3 : Nat) (part : GoString)
    (yy doy : Int)
    (hy : t.Line1.EpochYear = [y1, y2]) (hd : t.Line1.EpochDay = [d1, d2, d3, 46] ++ part)
    (h1 : isDigit y1) (h2 : isDigit y2) (h3 : isDigit d1) (h4 : isDigit d2) (h5 : isDigit d3)
    (hp : ∀ c ∈ part, isDigit c) (hl : part.length ≤ 14)
    (hyy : Atoi [y1, y2] = some yy) (hdoy : Atoi [d1, d2, d3] = some doy)
    (hlo : 1 ≤ doy)
    (hhi : doy ≤ if isLeapYear (if yy ≥ 57 then 1900 + yy else 2000 + yy) then 366 else 365) :
    ∃ i, t.Time = .ok i ∧
      (dateOf i).1 = (if yy ≥ 57 then 1900 + yy else 2000 + yy) ∧
      yearAndDay i = ((if yy ≥ 57 then 1900 + yy else 2000 + yy), doy - 1) := by
  obtain ⟨i, a, b⟩ := Time_in_year t y1 y2 d1 d2 d3 part yy doy hy hd h1 h2 h3 h4 h5 hp hl
    hyy hdoy hlo hhi
  refine ⟨i, a, ?_, b⟩
  unfold dateOf
  rw [b]

/-- C13, at the four years of the pivot: "99" resolves to 1999, "00"
to 2000, "56" to 2056 and "57" to 1957, each with the epoch day
"264.51782528". -/
theorem Time_century_pivot_witness :
    (∃ i, (epochRecord (bytes "99") (bytes "264.51782528")).Time = .ok i ∧
      (dateOf i).1 = 1999) ∧
    (∃ i, (epochRecord (bytes "00") (bytes "264.51782528")).Time = .ok i ∧
      (dateOf i).1 = 2000) ∧
    (∃ i, (epochRecord (bytes "56") (bytes "264.51782528")).Time = .ok i ∧
      (dateOf i).1 = 2056) ∧
    (∃ i, (epochRecord (bytes "57") (bytes "264.51782528")).Time = .ok i ∧
      (dateOf i).1 = 1957) := by
  refine ⟨?_, ?_, ?_, ?_⟩
  · obtain ⟨i, a, b, -⟩ := Time_century_pivot (epochRecord (bytes "99") (bytes "264.51782528"))
      57 57 50 54 52 (bytes "51782528") 99 264 rfl rfl (by decide) (by decide) (by decide)
      (by decide) (by decide) (by decide) (by decide) (by decide) (by decide) (by decide)
      (by decide)
    exact ⟨i, a, b⟩
  · obtain ⟨i, a, b, -⟩ := Time_century_pivot (epochRecord (bytes "00") (bytes "264.51782528"))
      48 48 50 54 52 (bytes "51782528") 0 264 rfl rfl (by decide) (by decide) (by decide)
      (by decide) (by decide) (by decide) (by decide) (by decide) (by decide) (by decide)
      (by decide)
    exact ⟨i, a, b⟩
  · obtain ⟨i, a, b, -⟩ := Time_century_pivot (epochRecord (bytes "56") (bytes "264.51782528"))
      53 54 50 54 52 (bytes "51782528") 56 264 rfl rfl (by decide) (by decide) (by decide)
      (by decide) (by decide) (by decide) (by decide) (by decide) (by decide) (by decide)
      (by decide)
    exact ⟨i, a, b⟩
  · obtain ⟨i, a, b, -⟩ := Time_century_pivot (epochRecord (bytes "57") (bytes "264.51782528"))
      53 55 50 54 52 (bytes "51782528") 57 264 rfl rfl (by decide) (by decide) (by decide)
      (by decide) (by decide) (by decide) (by decide) (by decide) (by decide) (by decide)
      (by decide)
    exact ⟨i, a, b⟩

/-! ## The claim on the round trip -/

/-- C15, counterexample.  The two lines of a name and an ISS line 2, with no
line 1, give one record, named "ISS (ZARYA)" and with an empty `Line1`; its
rendering has an empty second line, and reading the rendering gives a record
with an empty name. -/
theorem ReadTLEFile_round_trip_counterexample :
    ∃ r r2, ReadTLEFile [issName, issLine2] = some (.ok [r]) ∧
      r.Name = bytes "ISS (ZARYA)" ∧
      scanLines r.String = [issName, [], issLine2] ∧
      ReadTLEFile (scanLines r.String) = some (.ok [r2]) ∧
      r2.Name = [] ∧ r2 ≠ r := by
  have h1 : ∃ r, ReadTLEFile [issName, issLine2] = some (.ok [r]) ∧
      r.Name = bytes "ISS (ZARYA)" ∧ scanLines r.String = [issName, [], issLine2] :=
    ⟨_, rfl, by decide, by decide⟩
  have h2 : ∃ r2, ReadTLEFile [issName, [], issLine2] = some (.ok [r2]) ∧ r2.Name = [] :=
    ⟨_, rfl, by decide⟩
  obtain ⟨r, a1, a2, a3⟩ := h1
  obtain ⟨r2, b1, b2⟩ := h2
  refine ⟨r, r2, a1, a2, a3, by rw [a3]; exact b1, b2, ?_⟩
  intro e
  rw [e, a2] at b2
  exact absurd b2 (by decide)

/-- C15, amended.  Let the input lines be ASCII, without newline and not
ending in a carriage return, and let the loop of `ReadTLEFile` succeed on them.
For every record `r` of the output whose name starts neither with "1 " nor with
"2 ", and which has a `Line1` read from a line or else an empty name, the
lines of `r.String()` give exactly the one record `r` again, with the same
`Name`, `NoradID`, `Line1` and `Line2`. -/
theorem ReadTLEFile_round_trip (lines : List GoString) (rs : List TLE) (r : TLE)
    (h : ReadTLEFile lines = some (.ok rs)) (hr : r ∈ rs)
    (hl : ∀ l ∈ lines, (∀ c ∈ l, c < 128 ∧ c ≠ 10) ∧ l.getLast? ≠ some 13)
    (hn1 : HasPrefix r.Name (bytes "1 ") = false) (hn2 : HasPrefix r.Name (bytes "2 ") = false)
    (h1 : r.Line1.LineString ≠ [] ∨ r.Name = []) :
    ReadTLEFile (scanLines r.String) = some (.ok [r]) :=
  rendered_read_back lines rs r h hr hl hn1 hn2 h1

/-- C15, amended, at the ISS example: its three lines give one record, named
"ISS (ZARYA)", and the lines of its rendering give that record again. -/
theorem ReadTLEFile_round_trip_witness :
    ∃ r, ReadTLEFile [issName, issLine1, issLine2] = some (.ok [r]) ∧
      r.Name = bytes "ISS (ZARYA)" ∧
      ReadTLEFile (scanLines r.String) = some (.ok [r]) := by
  have h : ∃ r, ReadTLEFile [issName, issLine1, issLine2] = some (.ok [r]) ∧
      r.Name = bytes "ISS (ZARYA)" ∧ r.Line1.LineString = issLine1 :=
    ⟨_, rfl, by decide, by decide⟩
  obtain ⟨r, hr, hn, hs⟩ := h
  refine ⟨r, hr, hn, ReadTLEFile_round_trip _ [r] r hr (List.mem_singleton.2 rfl) (by decide)
    (by rw [hn]; decide) (by rw [hn]; decide) (Or.inl (by rw [hs]; decide))⟩

end TLE
